import Mathlib

/-!
# A shallow embedding of `myHeap.c`

The heap manager of `src/myHeap.c` keeps one global `struct heap`, a block of
memory obtained from `calloc` that is carved into header-prefixed chunks, and
an array `freeList` of pointers to the free chunks.

The embedding makes the global state an explicit value of type `Heap`:

* addresses are natural numbers (the numeric value of the pointer, `NULL` is 0);
* `mem` gives the 32-bit word stored at a 4-aligned byte address of the
  `calloc`ed block; a chunk header at address `a` is the pair of words at `a`
  (`status`) and `a + 4` (`size`);
* `freeList` is the backing array, including the entries at and beyond `nFree`,
  which the code leaves behind when it deletes and may read again;
* `int` values are integers, `uint` values naturals below `2 ^ 32`; every
  conversion and every wrap-around of the C code is written out.

Functions return `Except Fault _`.  A call of `exit` is a fault that carries the
heap as it is at that moment.  An access that C leaves undefined (outside the
block or the array, through a misaligned `header *`, overflow of an `int`) is
the fault `undefined`: the embedding says nothing about what follows it.
The target is an LP64 machine: `sizeof(header) = 8` and `sizeof(header *) = 8`.
-/

namespace MyHeap

/-- The constant `MIN_HEAP`: minimum total space for the heap. -/
def MIN_HEAP : Nat := 4096

/-- The constant `MIN_CHUNK`: minimum space of a free chunk, header excluded. -/
def MIN_CHUNK : Nat := 32

/-- The status word `ALLOC`. -/
def ALLOC : Nat := 0x55555555

/-- The status word `FREE`. -/
def FREE : Nat := 0xAAAAAAAA

/-- The value of `sizeof(header)`: two `uint` fields and a flexible array member. -/
def sizeofHeader : Nat := 8

/-- The value of `sizeof(header *)` on an LP64 target. -/
def sizeofHeaderPtr : Nat := 8

/-- The number of values of a `uint`. -/
def UINT_RANGE : Nat := 4294967296

/-- The number of values of a `size_t` on an LP64 target. -/
def SIZE_RANGE : Nat := 18446744073709551616

/-- The largest `int`. -/
def INT_MAX : Int := 2147483647

/-- The smallest `int`. -/
def INT_MIN : Int := -2147483648

/-- Conversion of a `uint` to `int` (wrap-around modulo 2 ^ 32, as GCC and Clang define it). -/
def toInt32 (u : Nat) : Int :=
  if u % UINT_RANGE < 2147483648 then ((u % UINT_RANGE : Nat) : Int)
  else ((u % UINT_RANGE : Nat) : Int) - 4294967296

/-- Conversion of an integer value to `uint`: reduction modulo `2 ^ 32`. -/
def toUint32 (z : Int) : Nat := (z % (UINT_RANGE : Int)).toNat

/-- Conversion of an integer value to `size_t`: reduction modulo `2 ^ 64`. -/
def toSizeT (z : Int) : Nat := (z % (SIZE_RANGE : Int)).toNat

/-- The global `struct heap` together with the contents of the block it points to. -/
structure Heap where
  /-- Address of the block returned by `calloc`. -/
  heapMem : Nat
  /-- Number of bytes of the heap. -/
  heapSize : Nat
  /-- The array of pointers to free chunks, by index. -/
  freeList : Nat → Nat
  /-- Number of elements of the array `freeList`. -/
  freeElems : Nat
  /-- Number of free chunks. -/
  nFree : Nat
  /-- The 32-bit word stored at each 4-aligned byte address. -/
  mem : Nat → Nat

/-- The ways a call can fail to return normally. -/
inductive Fault where
  /-- The function `initHeap` returned `-1`. -/
  | initFailed : Fault
  /-- The call `exit(1)` of `smallestFreeChunk`, with the heap at that moment. -/
  | exhausted (final : Heap) : Fault
  /-- The call `exit(1)` of `myFree`, with the heap at that moment. -/
  | usage (final : Heap) : Fault
  /-- Behaviour that C leaves undefined. -/
  | undefined : Fault
  /-- The iteration budget given to a loop of the embedding ran out. -/
  | outOfFuel : Fault

/-- The function `heapMaxAddr`: the first address beyond the range of the heap. -/
def heapMaxAddr (s : Heap) : Nat := s.heapMem + s.heapSize

/-- The first address beyond the block: `calloc(size, sizeof(*chunk))` reserves
`size * sizeof(header)` bytes. -/
def blockEnd (s : Heap) : Nat := s.heapMem + s.heapSize * sizeofHeader

/-- A 32-bit access at `a` is defined: inside the block and 4-aligned. -/
def validWord (s : Heap) (a : Nat) : Prop :=
  s.heapMem ≤ a ∧ a + 4 ≤ blockEnd s ∧ a % 4 = 0

instance (s : Heap) (a : Nat) : Decidable (validWord s a) :=
  inferInstanceAs (Decidable (s.heapMem ≤ a ∧ a + 4 ≤ blockEnd s ∧ a % 4 = 0))

/-- The map `f` with the value at `a` replaced by `v`. -/
def upd (f : Nat → Nat) (a v : Nat) : Nat → Nat :=
  fun x => if x = a then v else f x

/-- Read of the word at `a`. -/
def load (s : Heap) (a : Nat) : Except Fault Nat :=
  if validWord s a then .ok (s.mem a) else .error .undefined

/-- Write of the `uint` value `v` at `a`. -/
def store (s : Heap) (a v : Nat) : Except Fault Heap :=
  if validWord s a then
    .ok { s with mem := upd s.mem a (v % UINT_RANGE) }
  else .error .undefined

/-- Read of `Heap.freeList[i]`. -/
def readList (s : Heap) (i : Int) : Except Fault Nat :=
  if 0 ≤ i ∧ i < (s.freeElems : Int) then .ok (s.freeList i.toNat) else .error .undefined

/-- Write of `Heap.freeList[i]`. -/
def writeList (s : Heap) (i : Int) (v : Nat) : Except Fault Heap :=
  if 0 ≤ i ∧ i < (s.freeElems : Int) then
    .ok { s with freeList := upd s.freeList i.toNat v }
  else .error .undefined

/-- The function `roundMultiple4`: rounds up to the nearest multiple of 4.
The sum `size + 4` is undefined when it exceeds `INT_MAX`. -/
def roundMultiple4 (size : Int) : Except Fault Int :=
  let remainder := Int.tmod size 4
  if remainder = 0 then .ok size
  else if size + 4 > INT_MAX then .error .undefined
  else .ok (size + 4 - remainder)

/-- The function `initHeap`.  The arguments `chunk` and `list` are what `calloc`
and `malloc` hand back: the address of a zero-filled block (0 for `NULL`) and
the indeterminate initial contents of the array (`none` for `NULL`). -/
def initHeap (size : Int) (chunk : Nat) (list : Option (Nat → Nat)) : Except Fault Heap :=
  match roundMultiple4 size with
  | .error f => .error f
  | .ok size =>
    let size := if size < (MIN_HEAP : Int) then (MIN_HEAP : Int) else size
    if chunk = 0 then .error .initFailed
    else
      match list with
      | none => .error .initFailed
      | some arr =>
        .ok { heapMem := chunk
              heapSize := toUint32 size
              nFree := 1
              freeElems := toUint32 (Int.tdiv size (MIN_CHUNK : Int))
              freeList := fun j => if j = 0 then chunk else arr j
              mem := fun x =>
                if x = chunk then FREE
                else if x = chunk + 4 then toUint32 size
                else 0 }

/-- The body of the loop of `smallestFreeChunk` at index `i`; `found`,
`returnAddress` and `smallest_size` are the locals of the C function.  The
operands of `&&` are evaluated left to right, the status is read last. -/
def smallestBody (s : Heap) (size : Int) (i : Nat) (found : Bool) (returnAddress : Nat)
    (smallest_size : Int) : Except Fault (Bool × Nat × Int) :=
  match readList s i with
  | .error f => .error f
  | .ok curr_address =>
    match load s (curr_address + 4) with
    | .error f => .error f
    | .ok csize =>
      if (toSizeT size + sizeofHeaderPtr) % SIZE_RANGE ≤ csize ∧
          csize ≤ toUint32 smallest_size then
        match load s curr_address with
        | .error f => .error f
        | .ok cstatus =>
          if cstatus = FREE then .ok (true, curr_address, toInt32 csize)
          else .ok (found, returnAddress, smallest_size)
      else .ok (found, returnAddress, smallest_size)

/-- The loop of `smallestFreeChunk`: `k` iterations remain, `i` is the index. -/
def smallestLoop (s : Heap) (size : Int) :
    Nat → Nat → Bool → Nat → Int → Except Fault (Bool × Nat × Int)
  | 0, _, found, returnAddress, smallest_size => .ok (found, returnAddress, smallest_size)
  | k + 1, i, found, returnAddress, smallest_size =>
    match smallestBody s size i found returnAddress smallest_size with
    | .error f => .error f
    | .ok (found1, returnAddress1, smallest_size1) =>
      smallestLoop s size k (i + 1) found1 returnAddress1 smallest_size1

/-- The function `smallestFreeChunk`: finds the smallest free chunk of at least
`size + sizeof(header *)` bytes, or exits. -/
def smallestFreeChunk (s : Heap) (size : Int) : Except Fault Nat :=
  match smallestLoop s size s.nFree 0 false 0 (toInt32 s.heapSize) with
  | .error f => .error f
  | .ok (found, returnAddress, _) =>
    if found = false then .error (.exhausted s) else .ok returnAddress

/-- The recursion of `search`, with a bound on its depth. -/
def searchAux (s : Heap) (address : Nat) : Nat → Int → Int → Except Fault Int
  | 0, lo, hi => if hi < lo then .ok (-1) else .error .outOfFuel
  | d + 1, lo, hi =>
    if hi < lo then .ok (-1)
    else if lo + hi < INT_MIN ∨ INT_MAX < lo + hi then .error .undefined
    else
      let mid := Int.tdiv (lo + hi) 2
      match readList s mid with
      | .error f => .error f
      | .ok v =>
        if address = v then .ok mid
        else if address > v then searchAux s address d (mid + 1) hi
        else searchAux s address d lo (mid - 1)

/-- The function `search`: binary search for an address in `Heap.freeList`.
Each recursive call is on a strictly narrower range, so a depth of
`hi + 1 - lo` is never exceeded. -/
def search (s : Heap) (address : Nat) (lo hi : Int) : Except Fault Int :=
  searchAux s address (hi + 1 - lo).toNat lo hi

/-- The loop of `deleteFromList`: `k` iterations remain, `i` is the index. -/
def shiftLeft : Nat → Int → Heap → Except Fault Heap
  | 0, _, s => .ok s
  | k + 1, i, s =>
    match readList s (i + 1) with
    | .error f => .error f
    | .ok v =>
      match writeList s i v with
      | .error f => .error f
      | .ok s1 => shiftLeft k (i + 1) s1

/-- The function `deleteFromList`.  The loop test `i < Heap.nFree - 1` is a
comparison of `uint` values. -/
def deleteFromList (s : Heap) (addr : Nat) : Except Fault Heap :=
  match search s addr 0 (toInt32 s.nFree) with
  | .error f => .error f
  | .ok index =>
    if index = -1 then .ok s
    else
      match shiftLeft (toUint32 ((s.nFree : Int) - 1) - toUint32 index) index s with
      | .error f => .error f
      | .ok s1 => .ok { s1 with nFree := toUint32 ((s1.nFree : Int) - 1) }

/-- The loop of `insertToList`: the index `i` of the C code is `j - 1`.
Returns the final value of `i + 1`. -/
def insertLoop (addr : Nat) : Nat → Heap → Except Fault (Nat × Heap)
  | 0, s => .ok (0, s)
  | j + 1, s =>
    match readList s j with
    | .error f => .error f
    | .ok v =>
      if v > addr then
        match writeList s ((j : Int) + 1) v with
        | .error f => .error f
        | .ok s1 => insertLoop addr j s1
      else .ok (j + 1, s)

/-- The function `insertToList`.  The local `i` starts at `(int)(Heap.nFree - 1)`;
below `-1` the loop does not run and the write at `i + 1` is out of bounds. -/
def insertToList (s : Heap) (addr : Nat) : Except Fault Heap :=
  let i := toInt32 (toUint32 ((s.nFree : Int) - 1))
  if i + 1 < 0 then .error .undefined
  else
    match insertLoop addr (i + 1).toNat s with
    | .error f => .error f
    | .ok (j, s1) =>
      match writeList s1 j addr with
      | .error f => .error f
      | .ok s2 => .ok { s2 with nFree := toUint32 ((s2.nFree : Int) + 1) }

/-- The function `mergeTwoChunks`: `c1->size += c2->size`. -/
def mergeTwoChunks (s : Heap) (a1 a2 : Nat) : Except Fault Heap :=
  match load s (a1 + 4) with
  | .error f => .error f
  | .ok size1 =>
    match load s (a2 + 4) with
    | .error f => .error f
    | .ok size2 => store s (a1 + 4) (size1 + size2)

/-- The body of the loop of `mergeFreeChunks` at index `i`.  Returns the value
of `i` at the next loop test and the heap: `i--` followed by the `i++` of the
loop header leaves `i` as it is. -/
def mergeBody (s : Heap) (i : Nat) : Except Fault (Nat × Heap) :=
  match readList s i with
  | .error f => .error f
  | .ok curr_address =>
    match load s (curr_address + 4) with
    | .error f => .error f
    | .ok csize =>
      let curr_size := toInt32 csize
      if i < toUint32 ((s.nFree : Int) - 1) then
        match readList s ((i : Int) + 1) with
        | .error f => .error f
        | .ok next_address =>
          let sizeBetweenChunks :=
            toInt32 (toUint32 ((next_address : Int) - (curr_address : Int)))
          if sizeBetweenChunks = curr_size then
            match load s curr_address with
            | .error f => .error f
            | .ok curr_status =>
              if curr_status = FREE then
                match load s next_address with
                | .error f => .error f
                | .ok next_status =>
                  if next_status = FREE then
                    match mergeTwoChunks s curr_address next_address with
                    | .error f => .error f
                    | .ok s1 =>
                      match readList s1 ((i : Int) + 1) with
                      | .error f => .error f
                      | .ok a =>
                        match deleteFromList s1 a with
                        | .error f => .error f
                        | .ok s2 => .ok (i, s2)
                  else .ok (i + 1, s)
              else .ok (i + 1, s)
          else .ok (i + 1, s)
      else .ok (i + 1, s)

/-- The loop of `mergeFreeChunks`, with a budget of iterations. -/
def mergeLoop : Nat → Nat → Heap → Except Fault Heap
  | 0, _, _ => .error .outOfFuel
  | fuel + 1, i, s =>
    if i < s.nFree then
      match mergeBody s i with
      | .error f => .error f
      | .ok (i1, s1) => mergeLoop fuel i1 s1
    else .ok s

/-- The function `mergeFreeChunks`, given a budget of loop iterations. -/
def mergeFreeChunks (fuel : Nat) (s : Heap) : Except Fault Heap :=
  mergeLoop fuel 0 s

/-- The function `myMalloc`.  Returns the pointer and the heap after the call;
the pointer 0 is `NULL`.  The difference `d` is computed in `int`, step by step;
`size` is positive here, so a step overflows exactly when `d` is out of range.
In the split branch `smallestChunk->size` is read back from memory, once for
`newFree` and once for the size of the new chunk. -/
def myMalloc (s : Heap) (size : Int) : Except Fault (Nat × Heap) :=
  if size < 1 then .ok (0, s)
  else
    match roundMultiple4 size with
    | .error f => .error f
    | .ok size =>
      match smallestFreeChunk s size with
      | .error f => .error f
      | .ok smallestChunk =>
        match load s (smallestChunk + 4) with
        | .error f => .error f
        | .ok csize =>
          let smallest_size := toInt32 csize
          let d := smallest_size - size - (sizeofHeader : Int) - (MIN_CHUNK : Int)
          if d < INT_MIN ∨ INT_MAX < d then .error .undefined
          else if d < 0 then
            match store s smallestChunk ALLOC with
            | .error f => .error f
            | .ok s1 =>
              match store s1 (smallestChunk + 4) (toUint32 smallest_size) with
              | .error f => .error f
              | .ok s2 =>
                match deleteFromList s2 smallestChunk with
                | .error f => .error f
                | .ok s3 => .ok (smallestChunk + sizeofHeader, s3)
          else
            match load s smallestChunk with
            | .error f => .error f
            | .ok cstatus =>
              match (if cstatus = FREE then deleteFromList s smallestChunk else .ok s) with
              | .error f => .error f
              | .ok s0 =>
                match store s0 smallestChunk ALLOC with
                | .error f => .error f
                | .ok s1 =>
                  match store s1 (smallestChunk + 4) (toSizeT size + sizeofHeader) with
                  | .error f => .error f
                  | .ok s2 =>
                    match load s2 (smallestChunk + 4) with
                    | .error f => .error f
                    | .ok newSize =>
                      let newFree := smallestChunk + newSize
                      match store s2 newFree FREE with
                      | .error f => .error f
                      | .ok s3 =>
                        match load s3 (smallestChunk + 4) with
                        | .error f => .error f
                        | .ok servedSize =>
                          match store s3 (newFree + 4)
                              (toUint32 ((toUint32 smallest_size : Int) - (servedSize : Int)))
                              with
                          | .error f => .error f
                          | .ok s4 =>
                            match insertToList s4 newFree with
                            | .error f => .error f
                            | .ok s5 => .ok (smallestChunk + sizeofHeader, s5)

/-- The function `myFree`, given a budget for the loop of `mergeFreeChunks`.
The step `chunk--` moves the pointer back by `sizeof(header)`. -/
def myFree (fuel : Nat) (s : Heap) (obj : Nat) : Except Fault Heap :=
  if obj = 0 then .error (.usage s)
  else if obj < sizeofHeader then .error .undefined
  else
    let chunk := obj - sizeofHeader
    match load s chunk with
    | .error f => .error f
    | .ok cstatus =>
      if cstatus ≠ ALLOC then .error (.usage s)
      else
        match store s chunk FREE with
        | .error f => .error f
        | .ok s1 =>
          match insertToList s1 chunk with
          | .error f => .error f
          | .ok s2 => mergeFreeChunks fuel s2

/-- The traversal of `dumpHeap`: starting at `curr`, collect the chunk addresses,
moving along by the size each chunk claims to have, for at most the given number
of chunks. -/
def walk (s : Heap) : Nat → Nat → List Nat
  | 0, _ => []
  | n + 1, curr =>
    if curr < heapMaxAddr s then curr :: walk s n (curr + s.mem (curr + 4)) else []

/-- The chunks of the heap, as `dumpHeap` enumerates them. -/
def chunks (s : Heap) : List Nat := walk s s.heapSize s.heapMem

/-- The first `nFree` entries of the free list. -/
def freeEntries (s : Heap) : List Nat := (List.range s.nFree).map s.freeList

/-- The position at which `insertToList` puts `addr` in an array whose first `j`
entries are in use: the control flow of its loop, without the writes. -/
def insertPos (fl : Nat → Nat) (addr : Nat) : Nat → Nat
  | 0 => 0
  | j + 1 => if fl j > addr then insertPos fl addr j else j + 1

/-- The array after `deleteFromList` has removed the entry at index `k` of the
`n` entries in use: the later entries move down by one. -/
def removeAt (fl : Nat → Nat) (k n : Nat) : Nat → Nat :=
  fun j => if k ≤ j ∧ j < n - 1 then fl (j + 1) else fl j

/-- The array after `insertToList` has put `addr` among the `n` entries in use:
the entries above the position move up by one. -/
def insertAt (fl : Nat → Nat) (addr n : Nat) : Nat → Nat :=
  fun x =>
    if x = insertPos fl addr n then addr
    else if insertPos fl addr n < x ∧ x ≤ n then fl (x - 1)
    else fl x

/-- The first `n` entries of the array are strictly ascending. -/
def SortedUpTo (fl : Nat → Nat) (n : Nat) : Prop :=
  ∀ i j, i < j → j < n → fl i < fl j

/-- The address `a` is one of the first `n` entries of the array. -/
def InList (fl : Nat → Nat) (n a : Nat) : Prop :=
  ∃ i, i < n ∧ fl i = a

/-- The test of `smallestFreeChunk` on the chunk at `a`: at least
`size + sizeof(header *)` bytes, at most `bound` bytes, and free. -/
def Adequate (s : Heap) (size : Int) (bound a : Nat) : Prop :=
  (toSizeT size + sizeofHeaderPtr) % SIZE_RANGE ≤ s.mem (a + 4) ∧ s.mem (a + 4) ≤ bound ∧
    s.mem a = FREE

instance (s : Heap) (size : Int) (bound a : Nat) : Decidable (Adequate s size bound a) :=
  inferInstanceAs (Decidable ((toSizeT size + sizeofHeaderPtr) % SIZE_RANGE ≤ s.mem (a + 4) ∧
    s.mem (a + 4) ≤ bound ∧ s.mem a = FREE))

/-- The heap after `myMalloc` has handed out the whole chunk at `freeList[k]`. -/
def allocWhole (s : Heap) (k : Nat) : Heap :=
  { s with
    mem := upd s.mem (s.freeList k) ALLOC
    freeList := removeAt s.freeList k s.nFree
    nFree := s.nFree - 1 }

/-- The heap after `myMalloc` has split the chunk at `freeList[k]`, of `S` bytes,
into an allocated chunk of `r + 8` bytes and a free chunk with the rest. -/
def allocSplit (s : Heap) (k r : Nat) : Heap :=
  { s with
    mem := upd (upd (upd (upd s.mem (s.freeList k) ALLOC) (s.freeList k + 4) (r + 8))
      (s.freeList k + (r + 8)) FREE) (s.freeList k + (r + 8) + 4)
      (s.mem (s.freeList k + 4) - (r + 8))
    freeList := insertAt (removeAt s.freeList k s.nFree) (s.freeList k + (r + 8)) (s.nFree - 1)
    nFree := s.nFree - 1 + 1 }

/-- The heap after `myFree` has marked the chunk at `c` free and put it in the
free list, before the merge. -/
def freeMark (s : Heap) (c : Nat) : Heap :=
  { s with
    mem := upd s.mem c FREE
    freeList := insertAt s.freeList c s.nFree
    nFree := s.nFree + 1 }

/-- The heap after `mergeFreeChunks` has merged the chunks at `freeList[i]` and
`freeList[i + 1]`. -/
def mergeAt (s : Heap) (i : Nat) : Heap :=
  { s with
    mem := upd s.mem (s.freeList i + 4)
      (s.mem (s.freeList i + 4) + s.mem (s.freeList (i + 1) + 4))
    freeList := removeAt s.freeList (i + 1) s.nFree
    nFree := s.nFree - 1 }

/-- A well-formed chunk header at `c`: aligned, a known status, and a size that
is a multiple of 4 and leaves room for the header and one word. -/
def ChunkOK (m : Nat → Nat) (c : Nat) : Prop :=
  c % 4 = 0 ∧ (m c = FREE ∨ m c = ALLOC) ∧ 12 ≤ m (c + 4) ∧ m (c + 4) % 4 = 0

/-- The chunks at the addresses `L`, in this order, cover `[a, e)` without gap
or overlap, and each has a well-formed header. -/
def Tiling (m : Nat → Nat) : Nat → Nat → List Nat → Prop
  | a, e, [] => a = e
  | a, e, c :: L => c = a ∧ ChunkOK m c ∧ Tiling m (c + m (c + 4)) e L

/-- The chunks at the addresses `L` tile the Region: the first starts at `a`,
each ends where the next starts, the last ends at `heapMaxAddr`. -/
def TilesRegion (s : Heap) : Nat → List Nat → Prop
  | a, [] => a = heapMaxAddr s
  | a, c :: L => c = a ∧ TilesRegion s (c + s.mem (c + 4)) L

/-- The invariant of the heap, with the list `L` of its chunk addresses. -/
structure Inv (s : Heap) (L : List Nat) : Prop where
  base_pos : 0 < s.heapMem
  base_al : s.heapMem % 4 = 0
  size_al : s.heapSize % 4 = 0
  size_lo : 4096 ≤ s.heapSize
  size_hi : s.heapSize < 2147483648
  elems : s.freeElems = s.heapSize / 32
  tiles : Tiling s.mem s.heapMem (heapMaxAddr s) L
  nfree : s.nFree ≤ s.freeElems
  sorted : SortedUpTo s.freeList s.nFree
  fl_iff : ∀ a, InList s.freeList s.nFree a ↔ (a ∈ L ∧ s.mem a = FREE)
  alloc_live : ∀ a, s.mem a = ALLOC → a ∈ L

/-- No entry of the free list below index `i` ends where the next entry begins. -/
def NoAdjBelow (s : Heap) (i : Nat) : Prop :=
  ∀ j, j < i → j + 1 < s.nFree →
    s.freeList j + s.mem (s.freeList j + 4) ≠ s.freeList (j + 1)

/-- No two chunks of the heap, one ending where the other begins, are both free. -/
def NoAdjacentFree (s : Heap) : Prop :=
  ∀ c, c ∈ chunks s → ∀ d, d ∈ chunks s → c + s.mem (c + 4) = d →
    ¬ (s.mem c = FREE ∧ s.mem d = FREE)

/-- A single free chunk spans the Region and is the only entry of the free list. -/
def WholeFree (s : Heap) : Prop :=
  chunks s = [s.heapMem] ∧ s.mem s.heapMem = FREE ∧ s.mem (s.heapMem + 4) = s.heapSize ∧
    s.nFree = 1 ∧ freeEntries s = [s.heapMem]

/-- The heap states that a program can reach: a successful `initHeap` (the block
that `calloc` returns is aligned), followed by calls of `myMalloc` and `myFree`
that return. -/
inductive Reachable : Heap → Prop
  | init (size : Int) (chunk : Nat) (list : Option (Nat → Nat)) (s : Heap) :
      INT_MIN ≤ size → size ≤ INT_MAX → chunk % 4 = 0 →
      initHeap size chunk list = .ok s → Reachable s
  | malloc (s : Heap) (size : Int) (p : Nat) (s1 : Heap) :
      Reachable s → INT_MIN ≤ size → size ≤ INT_MAX →
      myMalloc s size = .ok (p, s1) → Reachable s1
  | free (s : Heap) (fuel obj : Nat) (s1 : Heap) :
      Reachable s → myFree fuel s obj = .ok s1 → Reachable s1

/-- The heap of Scenario A: `initHeap(4096)` with the block at address 1000 and
an array that holds zeros. -/
def demoHeap : Heap :=
  { heapMem := 1000
    heapSize := 4096
    freeList := fun j => if j = 0 then 1000 else (fun _ => 0) j
    freeElems := 128
    nFree := 1
    mem := fun x => if x = 1000 then FREE else if x = 1000 + 4 then 4096 else 0 }

/-- The heap of Scenario B: `demoHeap` after `myMalloc(100)`. -/
def demoSplit : Heap := allocSplit demoHeap 0 100

/-- The heap `demoHeap` after `myMalloc(4088)`, which hands out the whole Region. -/
def fullHeap : Heap := allocWhole demoHeap 0

/-- The heap `demoHeap` after `myMalloc(4000)`. -/
def bigSplit : Heap := allocSplit demoHeap 0 4000

/-- The heap of Scenario C before the releases: `bigSplit` after `myMalloc(50)`. -/
def bigFull : Heap := allocWhole bigSplit 0

/-- The heap `demoHeap` after one call `myMalloc(40)`. -/
def run1 : Heap := allocSplit demoHeap 0 40

/-- The heap `demoHeap` after two calls `myMalloc(40)`. -/
def run2 : Heap := allocSplit run1 0 40

/-- The heap `demoHeap` after three calls `myMalloc(40)`. -/
def run3 : Heap := allocSplit run2 0 40

/-- The heap `demoHeap` after four calls `myMalloc(40)`: allocated chunks of 48
bytes at 1000, 1048, 1096 and 1144, and a free chunk at 1192. -/
def run4 : Heap := allocSplit run3 0 40

/-- The heap `run4` after `myFree` of the first block (pointer 1008). -/
def run5 : Heap := freeMark run4 1000

/-- The heap `run5` after `myFree` of the third block (pointer 1104): free
chunks of 48 bytes at 1000 and 1096, and a free chunk of 3904 bytes at 1192. -/
def tieHeap : Heap := freeMark run5 1096

/-- The call returned, and the heap it left passes the test `P`. -/
def returnsWith (r : Except Fault Heap) (P : Heap → Bool) : Bool :=
  match r with
  | .ok s => P s
  | .error _ => false

/-- The decision of the body of the loop of `mergeFreeChunks` at index `i`: the
reads and tests of `mergeBody` in the same order, without the merge itself.
The result `true` stands for a merge. -/
def mergeTest (s : Heap) (i : Nat) : Except Fault Bool :=
  match readList s i with
  | .error f => .error f
  | .ok curr_address =>
    match load s (curr_address + 4) with
    | .error f => .error f
    | .ok csize =>
      if i < toUint32 ((s.nFree : Int) - 1) then
        match readList s ((i : Int) + 1) with
        | .error f => .error f
        | .ok next_address =>
          if toInt32 (toUint32 ((next_address : Int) - (curr_address : Int))) = toInt32 csize then
            match load s curr_address with
            | .error f => .error f
            | .ok curr_status =>
              if curr_status = FREE then
                match load s next_address with
                | .error f => .error f
                | .ok next_status => .ok (decide (next_status = FREE))
              else .ok false
          else .ok false
      else .ok false

/-- No iteration of the loop of `mergeFreeChunks` below index `i` merges. -/
def Settled (s : Heap) (i : Nat) : Prop :=
  ∀ j, j < i → mergeTest s j = .ok false

/-- The heap `s2` comes from the heap `s1` by calls of `myFree` that return, on
any pointers and in any number, with no other call between them. -/
inductive FreeRun : Heap → Heap → Prop
  | refl (s : Heap) : FreeRun s s
  | step (s s1 s2 : Heap) (fuel obj : Nat) :
      FreeRun s s1 → myFree fuel s1 obj = .ok s2 → FreeRun s s2

/-- A write by the caller of the word `v` at the address `a` of a block it holds. -/
def callerWrite (s : Heap) (a v : Nat) : Heap :=
  { s with mem := upd s.mem a (v % UINT_RANGE) }

/-- The heap of Scenario B after the caller has stored the value `0x55555555` in
the first word of its block, at 1008. -/
def scribbled : Heap := callerWrite demoSplit 1008 ALLOC

/-- The heap `demoHeap` after `myMalloc(1)`: an allocated chunk of 12 bytes at
1000 and a free chunk at 1012. -/
def tinySplit : Heap := allocSplit demoHeap 0 4

/-- The free list of `demoHeap` after `insertToList(2000)`: entries 1000, 2000. -/
def listTwo : Heap :=
  { demoHeap with freeList := insertAt demoHeap.freeList 2000 1, nFree := 2 }

/-- The free list of `listTwo` after `deleteFromList(2000)`: the entry 1000 is in
use, the value 2000 is still stored at index 1. -/
def listStale : Heap :=
  { listTwo with freeList := removeAt listTwo.freeList 1 2, nFree := 1 }

/-- A caller that makes `n` calls `myMalloc(1)` in a row and keeps the blocks. -/
def mallocRepeat : Nat → Heap → Except Fault Heap
  | 0, s => .ok s
  | n + 1, s =>
    match myMalloc s 1 with
    | .error f => .error f
    | .ok (_, s1) => mallocRepeat n s1

/-- A caller that makes `k` calls of `myFree`, on the pointers `p`, `p + 24`,
`p + 48` and so on: every second block of a row of 12-byte chunks. -/
def freeAlternate (fuel : Nat) : Nat → Nat → Heap → Except Fault Heap
  | 0, _, s => .ok s
  | k + 1, p, s =>
    match myFree fuel s p with
    | .error f => .error f
    | .ok s1 => freeAlternate fuel k (p + 24) s1

/-- The heap `demoHeap` after `k` calls `myMalloc(1)`: allocated chunks of 12
bytes at `1000 + 12 * j` for `j < k`, then one free chunk with the rest. -/
def SmallRun (k : Nat) (s : Heap) : Prop :=
  s.heapMem = 1000 ∧ s.heapSize = 4096 ∧ s.freeElems = 128 ∧ s.nFree = 1 ∧
  s.freeList 0 = 1000 + 12 * k ∧ s.mem (1000 + 12 * k + 4) = 4096 - 12 * k ∧
  (∀ a, s.mem a = ALLOC ↔ ∃ j, j < k ∧ a = 1000 + 12 * j) ∧
  (∀ j, j < k → s.mem (1000 + 12 * j + 4) = 12)

/-- The heap after 255 calls `myMalloc(1)` and the release of the blocks number
`0, 2, ..., 2 * m - 2`: the allocated chunks are the 12-byte chunks at
`1000 + 12 * j` with `j` odd or `2 * m ≤ j`. -/
def Comb (m : Nat) (s : Heap) : Prop :=
  s.heapMem = 1000 ∧ s.heapSize = 4096 ∧ s.freeElems = 128 ∧ s.nFree ≤ 1 + m ∧
  (∀ a, s.mem a = ALLOC ↔ ∃ j, j < 255 ∧ (j % 2 = 1 ∨ 2 * m ≤ j) ∧ a = 1000 + 12 * j) ∧
  (∀ j, j < 255 → (j % 2 = 1 ∨ 2 * m ≤ j) → s.mem (1000 + 12 * j + 4) = 12)

/-! ## Integer conversions -/

theorem toInt32_small (u : Nat) (h : u < 2147483648) : toInt32 u = (u : Int) := by
  unfold toInt32 UINT_RANGE
  have : u % 4294967296 = u := Nat.mod_eq_of_lt (by omega)
  rw [this]; simp [h]

theorem toUint32_nat (u : Nat) (h : u < 4294967296) : toUint32 (u : Int) = u := by
  unfold toUint32 UINT_RANGE
  omega

theorem toUint32_eq (z : Int) (n : Nat) (hz : z = (n : Int)) (h : n < 4294967296) :
    toUint32 z = n := by
  subst hz; exact toUint32_nat n h

theorem toSizeT_eq (z : Int) (n : Nat) (hz : z = (n : Int)) (h : n < 18446744073709551616) :
    toSizeT z = n := by
  subst hz; unfold toSizeT SIZE_RANGE; omega

theorem tdiv_two (a : Int) (h : 0 ≤ a) : Int.tdiv a 2 = a / 2 :=
  Int.tdiv_eq_ediv h (by norm_num)

/-! ## Array accesses -/

theorem readList_ok (s : Heap) (z : Int) (n : Nat) (hz : z = (n : Int)) (h : n < s.freeElems) :
    readList s z = .ok (s.freeList n) := by
  subst hz
  unfold readList
  rw [if_pos ⟨by omega, by omega⟩]
  simp

theorem writeList_ok (s : Heap) (z : Int) (n v : Nat) (hz : z = (n : Int))
    (h : n < s.freeElems) :
    writeList s z v =
      .ok { s with freeList := upd s.freeList n v } := by
  subst hz
  unfold writeList
  rw [if_pos ⟨by omega, by omega⟩]
  simp

theorem load_ok (s : Heap) (a : Nat) (h : validWord s a) : load s a = .ok (s.mem a) := by
  unfold load; rw [if_pos h]

theorem store_ok (s : Heap) (a v : Nat) (h : validWord s a) :
    store s a v = .ok { s with mem := upd s.mem a (v % UINT_RANGE) } := by
  unfold store; rw [if_pos h]

/-! ## The loop of `deleteFromList` -/

theorem shiftLeft_ok (k : Nat) : ∀ (i : Nat) (z : Int) (s : Heap), z = (i : Int) →
    (k = 0 ∨ i + k < s.freeElems) →
    shiftLeft k z s =
      .ok { s with freeList := fun j =>
              if i ≤ j ∧ j < i + k then s.freeList (j + 1) else s.freeList j } := by
  induction k with
  | zero =>
    intro i z s _ _
    cases s
    simp only [shiftLeft, Except.ok.injEq, Heap.mk.injEq, true_and, and_true]
    funext j
    rw [if_neg (by omega)]
  | succ k ih =>
    intro i z s hz hb
    have hb1 : i + (k + 1) < s.freeElems := by omega
    unfold shiftLeft
    rw [readList_ok s (z + 1) (i + 1) (by omega) (by omega)]
    simp only []
    rw [writeList_ok s z i _ hz (by omega)]
    simp only []
    rw [ih (i + 1) (z + 1) _ (by omega) (by right; simp only []; omega)]
    congr 2
    funext j
    simp only [upd]
    split_ifs <;> first | rfl | (exfalso; omega) | (congr 1; omega)

/-! ## Binary search for an entry that is present -/

theorem searchAux_found (s : Heap) (n k : Nat) (hn : n ≤ s.freeElems) (hsmall : n < 1073741824)
    (hs : SortedUpTo s.freeList n) (hk : k < n) :
    ∀ (d : Nat) (lo hi : Int), 0 ≤ lo → lo ≤ (k : Int) → (k : Int) ≤ hi → hi ≤ (n : Int) →
      hi + 1 - lo ≤ (d : Int) →
      searchAux s (s.freeList k) d lo hi = .ok (k : Int) := by
  intro d
  induction d with
  | zero => intro lo hi _ h1 h2 _ h4; omega
  | succ d ih =>
    intro lo hi h0 h1 h2 h3 h4
    unfold searchAux
    rw [if_neg (by omega), if_neg (by unfold INT_MIN INT_MAX; omega)]
    simp only []
    rw [tdiv_two _ (by omega)]
    obtain ⟨m, hm⟩ : ∃ m : Nat, (lo + hi) / 2 = (m : Int) := ⟨((lo + hi) / 2).toNat, by omega⟩
    rw [hm]
    have hmn : m < n := by omega
    rw [readList_ok s (m : Int) m rfl (by omega)]
    simp only []
    rcases Nat.lt_trichotomy m k with hlt | heq | hgt
    · have := hs m k hlt hk
      rw [if_neg (by omega), if_pos (by omega)]
      exact ih _ _ (by omega) (by omega) h2 h3 (by omega)
    · subst heq; simp
    · have := hs k m hgt hmn
      rw [if_neg (by omega), if_neg (by omega)]
      exact ih _ _ h0 h1 (by omega) (by omega) (by omega)

theorem search_found (s : Heap) (k : Nat) (hn : s.nFree ≤ s.freeElems)
    (hsmall : s.nFree < 1073741824)
    (hs : SortedUpTo s.freeList s.nFree) (hk : k < s.nFree) :
    search s (s.freeList k) 0 (toInt32 s.nFree) = .ok (k : Int) := by
  unfold search
  rw [toInt32_small _ (by omega)]
  exact searchAux_found s s.nFree k hn hsmall hs hk _ 0 _ (by omega) (by omega) (by omega) (by omega)
    (by omega)

theorem deleteFromList_ok (s : Heap) (k : Nat) (hn : s.nFree ≤ s.freeElems)
    (hsmall : s.nFree < 1073741824)
    (hs : SortedUpTo s.freeList s.nFree) (hk : k < s.nFree) :
    deleteFromList s (s.freeList k) =
      .ok { s with freeList := removeAt s.freeList k s.nFree, nFree := s.nFree - 1 } := by
  unfold deleteFromList
  rw [search_found s k hn hsmall hs hk]
  simp only []
  rw [if_neg (by omega)]
  rw [toUint32_eq ((s.nFree : Int) - 1) (s.nFree - 1) (by omega) (by omega),
    toUint32_nat k (by omega)]
  rw [shiftLeft_ok (s.nFree - 1 - k) k (k : Int) s rfl (by omega)]
  simp only []
  rw [toUint32_eq ((s.nFree : Int) - 1) (s.nFree - 1) (by omega) (by omega)]
  congr 2
  funext j
  unfold removeAt
  split_ifs <;> first | rfl | (exfalso; omega)

/-! ## The loop of `insertToList` -/

theorem insertPos_le (fl : Nat → Nat) (a : Nat) : ∀ j, insertPos fl a j ≤ j := by
  intro j
  induction j with
  | zero => simp [insertPos]
  | succ j ih =>
    unfold insertPos
    split_ifs <;> omega

theorem insertPos_congr (f g : Nat → Nat) (a : Nat) :
    ∀ j, (∀ x, x < j → f x = g x) → insertPos f a j = insertPos g a j := by
  intro j
  induction j with
  | zero => intro _; rfl
  | succ j ih =>
    intro h
    unfold insertPos
    rw [h j (by omega), ih (fun x hx => h x (by omega))]

theorem insertPos_above (fl : Nat → Nat) (a : Nat) :
    ∀ j x, insertPos fl a j ≤ x → x < j → a < fl x := by
  intro j
  induction j with
  | zero => intro x _ h; omega
  | succ j ih =>
    intro x h1 h2
    unfold insertPos at h1
    by_cases hc : fl j > a
    · rw [if_pos hc] at h1
      by_cases hx : x = j
      · subst hx; exact hc
      · exact ih x h1 (by omega)
    · rw [if_neg hc] at h1
      omega

theorem insertPos_below (fl : Nat → Nat) (a : Nat) :
    ∀ j, 0 < insertPos fl a j → fl (insertPos fl a j - 1) ≤ a := by
  intro j
  induction j with
  | zero => intro h; simp [insertPos] at h
  | succ j ih =>
    intro h
    unfold insertPos at h ⊢
    by_cases hc : fl j > a
    · rw [if_pos hc] at h ⊢
      exact ih h
    · rw [if_neg hc]
      simp only [Nat.add_sub_cancel]
      omega

theorem insertLoop_ok (addr : Nat) : ∀ (j : Nat) (s : Heap), j < s.freeElems →
    insertLoop addr j s =
      .ok (insertPos s.freeList addr j,
        { s with freeList := fun x =>
            if insertPos s.freeList addr j < x ∧ x ≤ j then s.freeList (x - 1)
            else s.freeList x }) := by
  intro j
  induction j with
  | zero =>
    intro s _
    cases s
    simp only [insertLoop, insertPos, Except.ok.injEq, Prod.mk.injEq, Heap.mk.injEq, true_and,
      and_true]
    funext x
    rw [if_neg (by omega)]
  | succ j ih =>
    intro s hj
    unfold insertLoop
    rw [readList_ok s (j : Int) j rfl (by omega)]
    simp only []
    by_cases hc : s.freeList j > addr
    · rw [if_pos hc, writeList_ok s ((j : Int) + 1) (j + 1) _ (by omega) hj]
      simp only []
      rw [ih _ (by simp only []; omega)]
      have hp : insertPos (upd s.freeList (j + 1) (s.freeList j)) addr j
          = insertPos s.freeList addr j :=
        insertPos_congr _ _ addr j (fun x hx => by unfold upd; rw [if_neg (by omega)])
      have hle := insertPos_le s.freeList addr j
      simp only [hp]
      have hq : insertPos s.freeList addr (j + 1) = insertPos s.freeList addr j := by
        rw [insertPos, if_pos hc]
      rw [hq]
      congr 3
      funext x
      simp only [upd]
      split_ifs <;> first | rfl | (exfalso; omega) | (congr 1; omega)
    · rw [if_neg hc]
      have hq : insertPos s.freeList addr (j + 1) = j + 1 := by
        rw [insertPos, if_neg hc]
      rw [hq]
      cases s
      simp only [Except.ok.injEq, Prod.mk.injEq, Heap.mk.injEq, true_and, and_true]
      funext x
      rw [if_neg (by omega)]

theorem insertToList_ok (s : Heap) (addr : Nat) (h : s.nFree < s.freeElems)
    (hsmall : s.freeElems < 2147483648) :
    insertToList s addr =
      .ok { s with freeList := insertAt s.freeList addr s.nFree, nFree := s.nFree + 1 } := by
  unfold insertToList
  have h1 : toInt32 (toUint32 ((s.nFree : Int) - 1)) + 1 = (s.nFree : Int) := by
    by_cases h0 : s.nFree = 0
    · rw [h0]; decide
    · rw [toUint32_eq ((s.nFree : Int) - 1) (s.nFree - 1) (by omega) (by omega),
        toInt32_small _ (by omega)]
      omega
  simp only [h1]
  rw [if_neg (by omega), Int.toNat_ofNat, insertLoop_ok addr s.nFree s h]
  simp only []
  have hle := insertPos_le s.freeList addr s.nFree
  rw [writeList_ok _ _ (insertPos s.freeList addr s.nFree) _ rfl (by simp only []; omega)]
  simp only []
  rw [toUint32_eq ((s.nFree : Int) + 1) (s.nFree + 1) (by omega) (by omega)]
  rfl

/-! ## Order and membership after a deletion or an insertion -/

theorem sortedUpTo_inj (fl : Nat → Nat) (n : Nat) (hs : SortedUpTo fl n) (i j : Nat)
    (hi : i < n) (hj : j < n) (h : fl i = fl j) : i = j := by
  rcases Nat.lt_trichotomy i j with hlt | heq | hgt
  · have := hs i j hlt hj; omega
  · exact heq
  · have := hs j i hgt hi; omega

theorem sortedUpTo_removeAt (fl : Nat → Nat) (k n : Nat) (hs : SortedUpTo fl n) :
    SortedUpTo (removeAt fl k n) (n - 1) := by
  intro i j hij hj
  unfold removeAt
  split_ifs <;> (apply hs <;> omega)

theorem inList_removeAt (fl : Nat → Nat) (k n : Nat) (hs : SortedUpTo fl n) (hk : k < n)
    (a : Nat) : InList (removeAt fl k n) (n - 1) a ↔ (InList fl n a ∧ a ≠ fl k) := by
  constructor
  · rintro ⟨i, hi, rfl⟩
    unfold removeAt
    by_cases hc : k ≤ i ∧ i < n - 1
    · rw [if_pos hc]
      refine ⟨⟨i + 1, by omega, rfl⟩, fun h => ?_⟩
      have := sortedUpTo_inj fl n hs _ _ (by omega) hk h
      omega
    · rw [if_neg hc]
      refine ⟨⟨i, by omega, rfl⟩, fun h => ?_⟩
      have := sortedUpTo_inj fl n hs _ _ (by omega) hk h
      omega
  · rintro ⟨⟨i, hi, rfl⟩, hne⟩
    have hik : i ≠ k := fun h => hne (by rw [h])
    by_cases hc : i < k
    · refine ⟨i, by omega, ?_⟩
      unfold removeAt
      rw [if_neg (by omega)]
    · refine ⟨i - 1, by omega, ?_⟩
      unfold removeAt
      rw [if_pos ⟨by omega, by omega⟩]
      congr 1; omega

theorem insertPos_before (fl : Nat → Nat) (a n : Nat) (hs : SortedUpTo fl n)
    (x : Nat) (hx : x < insertPos fl a n) : fl x ≤ a := by
  have hle := insertPos_le fl a n
  have hb := insertPos_below fl a n (by omega)
  by_cases h : x = insertPos fl a n - 1
  · rw [h]; exact hb
  · have := hs x (insertPos fl a n - 1) (by omega) (by omega)
    omega

theorem sortedUpTo_insertAt (fl : Nat → Nat) (a n : Nat) (hs : SortedUpTo fl n)
    (hnew : ¬ InList fl n a) : SortedUpTo (insertAt fl a n) (n + 1) := by
  intro i j hij hj
  have hle := insertPos_le fl a n
  have hab := insertPos_above fl a n
  have hbe := insertPos_before fl a n hs
  have hne : ∀ x, x < n → fl x ≠ a := fun x hx h => hnew ⟨x, hx, h⟩
  unfold insertAt
  by_cases h1 : i = insertPos fl a n
  · rw [if_pos h1, if_neg (by omega), if_pos ⟨by omega, by omega⟩]
    exact hab (j - 1) (by omega) (by omega)
  · rw [if_neg h1]
    by_cases h2 : insertPos fl a n < i ∧ i ≤ n
    · rw [if_pos h2, if_neg (by omega), if_pos ⟨by omega, by omega⟩]
      exact hs _ _ (by omega) (by omega)
    · rw [if_neg h2]
      by_cases h3 : j = insertPos fl a n
      · rw [if_pos h3]
        have := hbe i (by omega)
        have := hne i (by omega)
        omega
      · rw [if_neg h3]
        by_cases h4 : insertPos fl a n < j ∧ j ≤ n
        · rw [if_pos h4]
          by_cases h5 : i = j - 1
          · exfalso; omega
          · exact hs _ _ (by omega) (by omega)
        · rw [if_neg h4]
          exact hs _ _ hij (by omega)

theorem inList_insertAt (fl : Nat → Nat) (a n x : Nat) :
    InList (insertAt fl a n) (n + 1) x ↔ (x = a ∨ InList fl n x) := by
  have hle := insertPos_le fl a n
  constructor
  · rintro ⟨i, hi, rfl⟩
    unfold insertAt
    by_cases h1 : i = insertPos fl a n
    · rw [if_pos h1]; exact Or.inl rfl
    · rw [if_neg h1]
      by_cases h2 : insertPos fl a n < i ∧ i ≤ n
      · rw [if_pos h2]; exact Or.inr ⟨i - 1, by omega, rfl⟩
      · rw [if_neg h2]; exact Or.inr ⟨i, by omega, rfl⟩
  · rintro (rfl | ⟨i, hi, rfl⟩)
    · exact ⟨insertPos fl x n, by omega, by unfold insertAt; rw [if_pos rfl]⟩
    · by_cases h : i < insertPos fl a n
      · refine ⟨i, by omega, ?_⟩
        unfold insertAt
        rw [if_neg (by omega), if_neg (by omega)]
      · refine ⟨i + 1, by omega, ?_⟩
        unfold insertAt
        rw [if_neg (by omega), if_pos ⟨by omega, by omega⟩]
        rfl

/-! ## Tilings -/

theorem tiling_length (m : Nat → Nat) (e : Nat) :
    ∀ (L : List Nat) (a : Nat), Tiling m a e L → a + 12 * L.length ≤ e := by
  intro L
  induction L with
  | nil => intro a h; simp only [Tiling] at h; simp [h]
  | cons c L ih =>
    intro a h
    obtain ⟨rfl, hc, ht⟩ := h
    have := ih _ ht
    obtain ⟨_, _, h12, _⟩ := hc
    simp only [List.length_cons]
    omega

theorem tiling_le (m : Nat → Nat) (a e : Nat) (L : List Nat) (h : Tiling m a e L) : a ≤ e := by
  have := tiling_length m e L a h
  omega

theorem tiling_mem (m : Nat → Nat) (e : Nat) :
    ∀ (L : List Nat) (a : Nat), Tiling m a e L → ∀ c, c ∈ L →
      a ≤ c ∧ c + m (c + 4) ≤ e ∧ ChunkOK m c := by
  intro L
  induction L with
  | nil => intro a _ c hc; simp at hc
  | cons d L ih =>
    intro a h c hc
    obtain ⟨rfl, hd, ht⟩ := h
    rcases List.mem_cons.mp hc with rfl | hc
    · exact ⟨le_refl _, tiling_le m _ e L ht, hd⟩
    · obtain ⟨h1, h2, h3⟩ := ih _ ht c hc
      exact ⟨by omega, h2, h3⟩

theorem tiling_frame (m m1 : Nat → Nat) (e : Nat) :
    ∀ (L : List Nat) (a : Nat), Tiling m a e L →
      (∀ x, a ≤ x → x < e → m1 x = m x) → Tiling m1 a e L := by
  intro L
  induction L with
  | nil => intro a h _; exact h
  | cons c L ih =>
    intro a h hf
    obtain ⟨rfl, hc, ht⟩ := h
    have hle := tiling_le m _ e L ht
    obtain ⟨h1, h2, h3, h4⟩ := hc
    have e1 : m1 c = m c := hf c (le_refl _) (by omega)
    have e2 : m1 (c + 4) = m (c + 4) := hf (c + 4) (by omega) (by omega)
    refine ⟨rfl, ⟨h1, by rw [e1]; exact h2, by rw [e2]; exact h3, by rw [e2]; exact h4⟩, ?_⟩
    rw [e2]
    exact ih _ ht (fun x hx1 hx2 => hf x (by omega) hx2)

theorem tiling_append (m : Nat → Nat) (e : Nat) (L2 : List Nat) :
    ∀ (L1 : List Nat) (a : Nat),
      Tiling m a e (L1 ++ L2) ↔ ∃ k, Tiling m a k L1 ∧ Tiling m k e L2 := by
  intro L1
  induction L1 with
  | nil =>
    intro a
    constructor
    · intro h; exact ⟨a, rfl, h⟩
    · rintro ⟨k, hk, h⟩
      simp only [Tiling] at hk
      subst hk; exact h
  | cons c L1 ih =>
    intro a
    constructor
    · rintro ⟨rfl, hc, ht⟩
      obtain ⟨k, h1, h2⟩ := (ih _).mp ht
      exact ⟨k, ⟨rfl, hc, h1⟩, h2⟩
    · rintro ⟨k, ⟨rfl, hc, h1⟩, h2⟩
      exact ⟨rfl, hc, (ih _).mpr ⟨k, h1, h2⟩⟩

theorem tiling_split (m : Nat → Nat) (e : Nat) :
    ∀ (L : List Nat) (a : Nat), Tiling m a e L → ∀ c, c ∈ L →
      ∃ L1 L2, L = L1 ++ c :: L2 ∧ Tiling m a c L1 ∧ Tiling m (c + m (c + 4)) e L2 := by
  intro L
  induction L with
  | nil => intro a _ c hc; simp at hc
  | cons d L ih =>
    intro a h c hc
    obtain ⟨rfl, hd, ht⟩ := h
    rcases List.mem_cons.mp hc with rfl | hc
    · exact ⟨[], L, rfl, rfl, ht⟩
    · obtain ⟨L1, L2, rfl, h1, h2⟩ := ih _ ht c hc
      exact ⟨d :: L1, L2, rfl, ⟨rfl, hd, h1⟩, h2⟩

theorem tiling_sum (m : Nat → Nat) (e : Nat) :
    ∀ (L : List Nat) (a : Nat), Tiling m a e L →
      a + (L.map (fun c => m (c + 4))).sum = e := by
  intro L
  induction L with
  | nil => intro a h; simpa [Tiling] using h
  | cons c L ih =>
    intro a h
    obtain ⟨rfl, _, ht⟩ := h
    have := ih _ ht
    simp only [List.map_cons, List.sum_cons]
    omega

/-- A chunk of a tiling of `[a, k)` lies below `k`. -/
theorem tiling_mem_lt (m : Nat → Nat) (a k : Nat) (L : List Nat) (h : Tiling m a k L)
    (c : Nat) (hc : c ∈ L) : c < k := by
  obtain ⟨_, h2, _, _, h12, _⟩ := tiling_mem m k L a h c hc
  omega

/-- No chunk of a tiling starts strictly inside another chunk. -/
theorem tiling_no_inside (m : Nat → Nat) (a e : Nat) (L : List Nat) (h : Tiling m a e L)
    (c x : Nat) (hc : c ∈ L) (hx : x ∈ L) (h1 : c < x) : c + m (c + 4) ≤ x := by
  obtain ⟨L1, L2, rfl, t1, t2⟩ := tiling_split m e L a h c hc
  rcases List.mem_append.mp hx with hx1 | hx2
  · have := tiling_mem_lt m a c L1 t1 x hx1
    omega
  · rcases List.mem_cons.mp hx2 with rfl | hx3
    · omega
    · exact (tiling_mem m e L2 _ t2 x hx3).1

/-- The chunk that follows `c` in a tiling is the next element of the list. -/
theorem tiling_next (m : Nat → Nat) (a e : Nat) (L : List Nat) (h : Tiling m a e L)
    (c : Nat) (hc : c ∈ L) (hn : c + m (c + 4) ∈ L) :
    ∃ L1 L2, L = L1 ++ c :: (c + m (c + 4)) :: L2 ∧ Tiling m a c L1 ∧
      Tiling m (c + m (c + 4) + m (c + m (c + 4) + 4)) e L2 := by
  obtain ⟨L1, L2, rfl, t1, t2⟩ := tiling_split m e L a h c hc
  obtain ⟨_, _, _, _, h12, _⟩ := tiling_mem m e _ a h c hc
  rcases List.mem_append.mp hn with hx1 | hx2
  · have := tiling_mem_lt m a c L1 t1 _ hx1
    omega
  · rcases List.mem_cons.mp hx2 with h0 | hx3
    · omega
    · cases L2 with
      | nil => simp at hx3
      | cons d L3 =>
        obtain ⟨rfl, _, t3⟩ := t2
        exact ⟨L1, L3, rfl, t1, t3⟩

theorem walk_eq (s : Heap) :
    ∀ (L : List Nat) (a n : Nat), Tiling s.mem a (heapMaxAddr s) L → L.length ≤ n →
      walk s n a = L := by
  intro L
  induction L with
  | nil =>
    intro a n h _
    simp only [Tiling] at h
    cases n with
    | zero => rfl
    | succ n => unfold walk; rw [if_neg (by omega)]
  | cons c L ih =>
    intro a n h hn
    have hlen := tiling_length _ _ _ _ h
    obtain ⟨rfl, hc, ht⟩ := h
    simp only [List.length_cons] at hn hlen
    cases n with
    | zero => omega
    | succ n =>
      unfold walk
      rw [if_pos (by omega), ih _ n ht (by omega)]

theorem tiles_of_tiling (s : Heap) :
    ∀ (L : List Nat) (a : Nat), Tiling s.mem a (heapMaxAddr s) L → TilesRegion s a L := by
  intro L
  induction L with
  | nil => intro a h; exact h
  | cons c L ih =>
    intro a h
    obtain ⟨rfl, _, ht⟩ := h
    exact ⟨rfl, ih _ ht⟩

/-! ## Consequences of the invariant -/

theorem chunks_eq (s : Heap) (L : List Nat) (h : Inv s L) : chunks s = L := by
  have hlen := tiling_length _ _ _ _ h.tiles
  unfold chunks
  exact walk_eq s L _ _ h.tiles (by unfold heapMaxAddr at hlen; omega)

theorem inv_valid (s : Heap) (L : List Nat) (h : Inv s L) (c : Nat) (hc : c ∈ L) :
    validWord s c ∧ validWord s (c + 4) ∧ s.heapMem ≤ c ∧ c + s.mem (c + 4) ≤ heapMaxAddr s ∧
      ChunkOK s.mem c := by
  obtain ⟨h1, h2, h3⟩ := tiling_mem _ _ _ _ h.tiles c hc
  have := h.base_al
  obtain ⟨h4, h5, h6, h7⟩ := h3
  unfold validWord blockEnd sizeofHeader
  unfold heapMaxAddr at h2 ⊢
  refine ⟨⟨h1, by omega, h4⟩, ⟨by omega, by omega, by omega⟩, h1, h2, h4, h5, h6, h7⟩

theorem inv_small (s : Heap) (L : List Nat) (h : Inv s L) :
    s.nFree ≤ s.freeElems ∧ s.freeElems < 67108864 := by
  have := h.elems
  have := h.size_hi
  have := h.nfree
  omega

theorem inv_entry (s : Heap) (L : List Nat) (h : Inv s L) (i : Nat) (hi : i < s.nFree) :
    s.freeList i ∈ L ∧ s.mem (s.freeList i) = FREE :=
  (h.fl_iff _).mp ⟨i, hi, rfl⟩

/-! ## Rounding -/

theorem tmod_four_neg (z : Int) (hz : z < 0) : -4 < Int.tmod z 4 ∧ Int.tmod z 4 ≤ 0 := by
  cases z with
  | ofNat n => simp at hz; omega
  | negSucc n =>
    have : Int.tmod (Int.negSucc n) 4 = -(((n + 1) % 4 : Nat) : Int) := rfl
    rw [this]
    omega

theorem roundMultiple4_pos (n : Int) (hn : 0 ≤ n) :
    roundMultiple4 n =
      if n % 4 = 0 then .ok n
      else if n + 4 > INT_MAX then .error .undefined
      else .ok (n + 4 - n % 4) := by
  unfold roundMultiple4
  simp only [Int.tmod_eq_emod hn (by norm_num : (0 : Int) ≤ 4)]

theorem roundMultiple4_spec (n r : Int) (hn : 0 ≤ n) (hmax : n ≤ INT_MAX)
    (h : roundMultiple4 n = .ok r) :
    n ≤ r ∧ r < n + 4 ∧ r % 4 = 0 ∧ r ≤ INT_MAX := by
  rw [roundMultiple4_pos n hn] at h
  unfold INT_MAX at *
  split_ifs at h with h1 h2
  · cases h; omega
  · cases h; omega

theorem roundMultiple4_ok (n : Int) (hn : 0 ≤ n) (hmax : n ≤ 2147483644) :
    ∃ r, roundMultiple4 n = .ok r := by
  rw [roundMultiple4_pos n hn]
  unfold INT_MAX
  split_ifs with h1 h2
  · exact ⟨_, rfl⟩
  · omega
  · exact ⟨_, rfl⟩

/-! ## The initial heap -/

/-- The heap that a successful `initHeap` builds, with `H` bytes at `chunk`. -/
theorem initHeap_shape (size : Int) (chunk : Nat) (list : Option (Nat → Nat)) (s : Heap)
    (h2 : size ≤ INT_MAX) (h : initHeap size chunk list = .ok s) :
    ∃ (H : Nat) (arr : Nat → Nat), 4096 ≤ H ∧ H % 4 = 0 ∧ H < 2147483648 ∧ 0 < chunk ∧
      s = { heapMem := chunk, heapSize := H, nFree := 1, freeElems := H / 32,
            freeList := fun j => if j = 0 then chunk else arr j,
            mem := fun x => if x = chunk then FREE else if x = chunk + 4 then H else 0 } := by
  unfold initHeap at h
  cases hr : roundMultiple4 size with
  | error f => rw [hr] at h; cases h
  | ok r =>
    rw [hr] at h
    simp only [] at h
    by_cases hc : chunk = 0
    · rw [if_pos hc] at h; cases h
    · rw [if_neg hc] at h
      cases list with
      | none => cases h
      | some arr =>
        simp only [Except.ok.injEq] at h
        -- the size after rounding and clamping
        have key : ∃ H : Nat, 4096 ≤ H ∧ H % 4 = 0 ∧ H < 2147483648 ∧
            (if r < (MIN_HEAP : Int) then (MIN_HEAP : Int) else r) = (H : Int) := by
          unfold MIN_HEAP
          by_cases hlt : r < ((4096 : Nat) : Int)
          · rw [if_pos hlt]; exact ⟨4096, by omega, by omega, by omega, rfl⟩
          · rw [if_neg hlt]
            have hs0 : 0 ≤ size := by
              by_contra hneg
              have hb := tmod_four_neg size (by omega)
              unfold roundMultiple4 at hr
              simp only [] at hr
              split_ifs at hr <;> cases hr <;> omega
            have := roundMultiple4_spec size r hs0 h2 hr
            unfold INT_MAX at this
            exact ⟨r.toNat, by omega, by omega, by omega, by omega⟩
        obtain ⟨H, hH1, hH2, hH3, hH4⟩ := key
        rw [hH4] at h
        have e1 : toUint32 (H : Int) = H := toUint32_nat H (by omega)
        have e2 : toUint32 (Int.tdiv (H : Int) (MIN_CHUNK : Int)) = H / 32 := by
          unfold MIN_CHUNK
          rw [Int.tdiv_eq_ediv (by omega) (by norm_num)]
          exact toUint32_eq _ (H / 32) (by omega) (by omega)
        rw [e1, e2] at h
        exact ⟨H, arr, hH1, hH2, hH3, by omega, h.symm⟩

theorem initHeap_inv (size : Int) (chunk : Nat) (list : Option (Nat → Nat)) (s : Heap)
    (h2 : size ≤ INT_MAX) (hal : chunk % 4 = 0)
    (h : initHeap size chunk list = .ok s) : Inv s [chunk] := by
  obtain ⟨H, arr, hH1, hH2, hH3, hc, rfl⟩ := initHeap_shape size chunk list s h2 h
  have hF : FREE ≠ ALLOC := by decide
  refine ⟨hc, hal, hH2, hH1, hH3, rfl, ?_, ?_, ?_, ?_, ?_⟩
  · refine ⟨rfl, ⟨hal, Or.inl (by simp), ?_, ?_⟩, ?_⟩
    · simp; omega
    · simp; omega
    · simp [Tiling, heapMaxAddr]
  · simp only []; omega
  · intro i j hij hj; simp only [] at hj; omega
  · intro a
    simp only [InList, List.mem_singleton]
    constructor
    · rintro ⟨i, hi, rfl⟩
      have : i = 0 := by omega
      subst this
      simp
    · rintro ⟨rfl, _⟩
      exact ⟨0, by omega, by simp⟩
  · intro a ha
    simp only [] at ha
    split_ifs at ha with h3 h4
    · exact absurd ha hF
    · exfalso; unfold ALLOC at ha; omega
    · exfalso; unfold ALLOC at ha; omega

/-! ## The loop of `smallestFreeChunk` -/

/-- What one iteration computes when its reads are defined. -/
theorem smallestBody_eq (s : Heap) (size : Int) (i : Nat) (f : Bool) (r : Nat) (m : Int)
    (hi : i < s.freeElems) (hv : validWord s (s.freeList i + 4))
    (hv0 : validWord s (s.freeList i)) :
    smallestBody s size i f r m =
      .ok (if Adequate s size (toUint32 m) (s.freeList i)
            then (true, s.freeList i, toInt32 (s.mem (s.freeList i + 4))) else (f, r, m)) := by
  unfold smallestBody
  rw [readList_ok s (i : Int) i rfl hi]
  simp only []
  rw [load_ok s _ hv]
  simp only []
  unfold Adequate
  by_cases hc : (toSizeT size + sizeofHeaderPtr) % SIZE_RANGE ≤ s.mem (s.freeList i + 4) ∧
      s.mem (s.freeList i + 4) ≤ toUint32 m
  · rw [if_pos hc, load_ok s _ hv0]
    simp only []
    by_cases hst : s.mem (s.freeList i) = FREE
    · rw [if_pos hst, if_pos ⟨hc.1, hc.2, hst⟩]
    · rw [if_neg hst, if_neg (fun h => hst h.2.2)]
  · rw [if_neg hc, if_neg (fun h => hc ⟨h.1, h.2.1⟩)]

/-- Whenever one iteration returns, it has computed this. -/
theorem smallestBody_inv (s : Heap) (size : Int) (i : Nat) (f : Bool) (r : Nat) (m : Int)
    (res : Bool × Nat × Int) (h : smallestBody s size i f r m = .ok res) :
    i < s.freeElems ∧
    res = (if Adequate s size (toUint32 m) (s.freeList i)
            then (true, s.freeList i, toInt32 (s.mem (s.freeList i + 4))) else (f, r, m)) := by
  unfold smallestBody at h
  have hi : i < s.freeElems := by
    by_contra hn
    unfold readList at h
    rw [if_neg (by omega)] at h
    cases h
  rw [readList_ok s (i : Int) i rfl hi] at h
  simp only [] at h
  refine ⟨hi, ?_⟩
  by_cases hv : validWord s (s.freeList i + 4)
  · rw [load_ok s _ hv] at h
    simp only [] at h
    unfold Adequate
    by_cases hc : (toSizeT size + sizeofHeaderPtr) % SIZE_RANGE ≤ s.mem (s.freeList i + 4) ∧
        s.mem (s.freeList i + 4) ≤ toUint32 m
    · rw [if_pos hc] at h
      by_cases hv0 : validWord s (s.freeList i)
      · rw [load_ok s _ hv0] at h
        simp only [] at h
        by_cases hst : s.mem (s.freeList i) = FREE
        · rw [if_pos hst] at h
          rw [if_pos ⟨hc.1, hc.2, hst⟩]
          cases h; rfl
        · rw [if_neg hst] at h
          rw [if_neg (fun h => hst h.2.2)]
          cases h; rfl
      · unfold load at h
        rw [if_neg hv0] at h
        cases h
    · rw [if_neg hc] at h
      rw [if_neg (fun h => hc ⟨h.1, h.2.1⟩)]
      cases h; rfl
  · unfold load at h
    rw [if_neg hv] at h
    cases h

theorem readList_err (s : Heap) (z : Int) (e : Fault) (h : readList s z = .error e) :
    e = .undefined := by
  unfold readList at h
  split_ifs at h
  cases h; rfl

theorem load_err (s : Heap) (a : Nat) (e : Fault) (h : load s a = .error e) :
    e = .undefined := by
  unfold load at h
  split_ifs at h
  cases h; rfl

theorem store_err (s : Heap) (a v : Nat) (e : Fault) (h : store s a v = .error e) :
    e = .undefined := by
  unfold store at h
  split_ifs at h
  cases h; rfl

theorem writeList_err (s : Heap) (z : Int) (v : Nat) (e : Fault)
    (h : writeList s z v = .error e) : e = .undefined := by
  unfold writeList at h
  split_ifs at h
  cases h; rfl

/-- An iteration that does not return has met undefined behaviour. -/
theorem smallestBody_err (s : Heap) (size : Int) (i : Nat) (f : Bool) (r : Nat) (m : Int)
    (e : Fault) (h : smallestBody s size i f r m = .error e) : e = .undefined := by
  unfold smallestBody at h
  cases h1 : readList s (i : Int) with
  | error e1 =>
    rw [h1] at h
    simp only [Except.error.injEq] at h
    subst h
    exact readList_err _ _ _ h1
  | ok curr =>
    rw [h1] at h
    simp only [] at h
    cases h2 : load s (curr + 4) with
    | error e1 =>
      rw [h2] at h
      simp only [Except.error.injEq] at h
      subst h
      exact load_err _ _ _ h2
    | ok csize =>
      rw [h2] at h
      simp only [] at h
      split_ifs at h
      cases h3 : load s curr with
      | error e1 =>
        rw [h3] at h
        simp only [Except.error.injEq] at h
        subst h
        exact load_err _ _ _ h3
      | ok cstatus =>
        rw [h3] at h
        simp only [] at h
        split_ifs at h

/-- A property that every iteration maintains holds when the loop returns. -/
theorem smallestLoop_rule (s : Heap) (size : Int) (n : Nat)
    (P : Nat → Bool → Nat → Int → Prop)
    (hstep : ∀ i f r m, i < n → i < s.freeElems → P i f r m →
      P (i + 1) (if Adequate s size (toUint32 m) (s.freeList i) then true else f)
        (if Adequate s size (toUint32 m) (s.freeList i) then s.freeList i else r)
        (if Adequate s size (toUint32 m) (s.freeList i)
          then toInt32 (s.mem (s.freeList i + 4)) else m)) :
    ∀ (k i : Nat) (f : Bool) (r : Nat) (m : Int) (res : Bool × Nat × Int),
      i + k = n → P i f r m → smallestLoop s size k i f r m = .ok res →
      P n res.1 res.2.1 res.2.2 := by
  intro k
  induction k with
  | zero =>
    intro i f r m res hik hP h
    simp only [smallestLoop, Except.ok.injEq] at h
    subst h
    rw [← hik]; exact hP
  | succ k ih =>
    intro i f r m res hik hP h
    unfold smallestLoop at h
    cases hb : smallestBody s size i f r m with
    | error e => rw [hb] at h; cases h
    | ok res1 =>
      rw [hb] at h
      obtain ⟨hi, hres⟩ := smallestBody_inv s size i f r m res1 hb
      obtain ⟨f1, r1, m1⟩ := res1
      simp only [] at h
      refine ih (i + 1) f1 r1 m1 res (by omega) ?_ h
      have := hstep i f r m (by omega) hi hP
      by_cases ha : Adequate s size (toUint32 m) (s.freeList i)
      · rw [if_pos ha] at hres
        simp only [if_pos ha] at this
        cases hres; exact this
      · rw [if_neg ha] at hres
        simp only [if_neg ha] at this
        cases hres; exact this

/-- The loop returns when all its reads are defined. -/
theorem smallestLoop_total (s : Heap) (size : Int) (n : Nat)
    (hv : ∀ i, i < n → i < s.freeElems ∧ validWord s (s.freeList i + 4) ∧
      validWord s (s.freeList i)) :
    ∀ (k i : Nat) (f : Bool) (r : Nat) (m : Int), i + k = n →
      ∃ res, smallestLoop s size k i f r m = .ok res := by
  intro k
  induction k with
  | zero => intro i f r m _; exact ⟨_, rfl⟩
  | succ k ih =>
    intro i f r m hik
    obtain ⟨h1, h2, h3⟩ := hv i (by omega)
    unfold smallestLoop
    rw [smallestBody_eq s size i f r m h1 h2 h3]
    by_cases ha : Adequate s size (toUint32 m) (s.freeList i)
    · simp only [if_pos ha]
      exact ih _ _ _ _ (by omega)
    · simp only [if_neg ha]
      exact ih _ _ _ _ (by omega)

theorem toUint32_toInt32 (u : Nat) (h : u < 4294967296) : toUint32 (toInt32 u) = u := by
  unfold toUint32 toInt32 UINT_RANGE
  split_ifs <;> omega

theorem toUint32_lt (z : Int) : toUint32 z < 4294967296 := by
  unfold toUint32 UINT_RANGE
  omega

/-- The property that the loop of `smallestFreeChunk` maintains: the locals
describe the last of the smallest adequate chunks among the entries seen. -/
theorem smallestLoop_spec (s : Heap) (size : Int) (hH : s.heapSize < 4294967296)
    (res : Bool × Nat × Int)
    (h : smallestLoop s size s.nFree 0 false 0 (toInt32 s.heapSize) = .ok res) :
    (res.1 = false → ∀ j, j < s.nFree → ¬ Adequate s size s.heapSize (s.freeList j)) ∧
    (res.1 = true → ∃ j, j < s.nFree ∧ res.2.1 = s.freeList j ∧
      Adequate s size s.heapSize res.2.1 ∧
      (∀ j1, j1 < s.nFree → Adequate s size s.heapSize (s.freeList j1) →
        s.mem (res.2.1 + 4) ≤ s.mem (s.freeList j1 + 4)) ∧
      (∀ j1, j < j1 → j1 < s.nFree → Adequate s size s.heapSize (s.freeList j1) →
        s.mem (res.2.1 + 4) < s.mem (s.freeList j1 + 4))) := by
  have hB : toUint32 (toInt32 s.heapSize) = s.heapSize := toUint32_toInt32 _ hH
  have key := smallestLoop_rule s size s.nFree
    (fun i f r m =>
      toUint32 m ≤ s.heapSize ∧
      (f = false → toUint32 m = s.heapSize ∧
        ∀ j, j < i → ¬ Adequate s size s.heapSize (s.freeList j)) ∧
      (f = true → ∃ j, j < i ∧ r = s.freeList j ∧ Adequate s size s.heapSize r ∧
        toUint32 m = s.mem (r + 4) ∧
        (∀ j1, j1 < i → Adequate s size s.heapSize (s.freeList j1) →
          s.mem (r + 4) ≤ s.mem (s.freeList j1 + 4)) ∧
        (∀ j1, j < j1 → j1 < i → Adequate s size s.heapSize (s.freeList j1) →
          s.mem (r + 4) < s.mem (s.freeList j1 + 4))))
    (by
      intro i f r m _ _ ⟨hm, hf, ht⟩
      by_cases ha : Adequate s size (toUint32 m) (s.freeList i)
      · simp only [if_pos ha]
        obtain ⟨a1, a2, a3⟩ := ha
        have hlt := toUint32_lt m
        have e : toUint32 (toInt32 (s.mem (s.freeList i + 4))) = s.mem (s.freeList i + 4) :=
          toUint32_toInt32 _ (by omega)
        refine ⟨(by omega), (fun hc => by cases hc),
          (fun _ => ⟨i, (by omega), rfl, ⟨a1, (by omega), a3⟩, e, ?_, ?_⟩)⟩
        · intro j1 hj1 had
          by_cases hji : j1 = i
          · subst hji; exact le_refl _
          · cases f with
            | false => exact absurd had ((hf rfl).2 j1 (by omega))
            | true =>
              obtain ⟨j, _, _, _, e2, hmin, _⟩ := ht rfl
              have := hmin j1 (by omega) had
              omega
        · intro j1 h1 h2 _; omega
      · simp only [if_neg ha]
        refine ⟨hm, fun hc => ⟨(hf hc).1, ?_⟩, fun hc => ?_⟩
        · intro j hj had
          by_cases hji : j = i
          · subst hji
            rw [← (hf hc).1] at had
            exact ha had
          · exact (hf hc).2 j (by omega) had
        · obtain ⟨j, hj, e1, had, e2, hmin, hlast⟩ := ht hc
          have hnew : Adequate s size s.heapSize (s.freeList i) →
              s.mem (r + 4) < s.mem (s.freeList i + 4) := by
            intro ⟨b1, b2, b3⟩
            by_contra hcon
            exact ha ⟨b1, by omega, b3⟩
          refine ⟨j, by omega, e1, had, e2, ?_, ?_⟩
          · intro j1 hj1 had1
            by_cases hji : j1 = i
            · subst hji; exact le_of_lt (hnew had1)
            · exact hmin j1 (by omega) had1
          · intro j1 h1 h2 had1
            by_cases hji : j1 = i
            · subst hji; exact hnew had1
            · exact hlast j1 h1 (by omega) had1)
    s.nFree 0 false 0 (toInt32 s.heapSize) res (by omega)
    ⟨by omega, fun _ => ⟨hB, fun j hj => by omega⟩, fun hc => by cases hc⟩ h
  obtain ⟨_, k1, k2⟩ := key
  refine ⟨fun hf => (k1 hf).2, fun ht => ?_⟩
  obtain ⟨j, hj, e1, had, _, hmin, hlast⟩ := k2 ht
  exact ⟨j, hj, e1, had, hmin, hlast⟩

/-- A chunk that `smallestFreeChunk` returns is the last of the smallest adequate
entries of the free list. -/
theorem smallestFreeChunk_spec (s : Heap) (size : Int) (hH : s.heapSize < 4294967296)
    (c : Nat) (h : smallestFreeChunk s size = .ok c) :
    ∃ j, j < s.nFree ∧ c = s.freeList j ∧ Adequate s size s.heapSize c ∧
      (∀ j1, j1 < s.nFree → Adequate s size s.heapSize (s.freeList j1) →
        s.mem (c + 4) ≤ s.mem (s.freeList j1 + 4)) ∧
      (∀ j1, j < j1 → j1 < s.nFree → Adequate s size s.heapSize (s.freeList j1) →
        s.mem (c + 4) < s.mem (s.freeList j1 + 4)) := by
  unfold smallestFreeChunk at h
  cases hl : smallestLoop s size s.nFree 0 false 0 (toInt32 s.heapSize) with
  | error e => rw [hl] at h; cases h
  | ok res =>
    rw [hl] at h
    obtain ⟨_, k2⟩ := smallestLoop_spec s size hH res hl
    obtain ⟨f, r, m⟩ := res
    simp only [] at h
    cases f with
    | false => simp at h
    | true =>
      simp only [Bool.true_eq_false, if_false, Except.ok.injEq] at h
      subst h
      exact k2 rfl

/-- When `smallestFreeChunk` exits, the heap is untouched and no entry is adequate. -/
theorem smallestFreeChunk_exhausted (s : Heap) (size : Int) (hH : s.heapSize < 4294967296)
    (t : Heap) (h : smallestFreeChunk s size = .error (.exhausted t)) :
    t = s ∧ ∀ j, j < s.nFree → ¬ Adequate s size s.heapSize (s.freeList j) := by
  unfold smallestFreeChunk at h
  cases hl : smallestLoop s size s.nFree 0 false 0 (toInt32 s.heapSize) with
  | error e =>
    exfalso
    rw [hl] at h
    simp only [Except.error.injEq] at h
    subst h
    -- the loop itself never exits
    have : ∀ (k i : Nat) (f : Bool) (r : Nat) (m : Int),
        smallestLoop s size k i f r m ≠ .error (.exhausted t) := by
      intro k
      induction k with
      | zero => intro i f r m hc; simp [smallestLoop] at hc
      | succ k ih =>
        intro i f r m hc
        unfold smallestLoop at hc
        cases hb : smallestBody s size i f r m with
        | error e =>
          rw [hb] at hc
          simp only [Except.error.injEq] at hc
          subst hc
          exact absurd (smallestBody_err s size i f r m _ hb) (by simp)
        | ok res1 =>
          rw [hb] at hc
          exact ih _ _ _ _ hc
    exact this _ _ _ _ _ hl
  | ok res =>
    rw [hl] at h
    obtain ⟨k1, _⟩ := smallestLoop_spec s size hH res hl
    obtain ⟨f, r, m⟩ := res
    simp only [] at h
    cases f with
    | true => simp at h
    | false =>
      simp only [if_true, Except.error.injEq, Fault.exhausted.injEq] at h
      exact ⟨h.symm, k1 rfl⟩

/-- With all reads defined, `smallestFreeChunk` returns or exits. -/
theorem smallestFreeChunk_total (s : Heap) (size : Int)
    (hv : ∀ i, i < s.nFree → i < s.freeElems ∧ validWord s (s.freeList i + 4) ∧
      validWord s (s.freeList i)) :
    smallestFreeChunk s size = .error (.exhausted s) ∨
      ∃ c, smallestFreeChunk s size = .ok c := by
  obtain ⟨res, hres⟩ := smallestLoop_total s size s.nFree hv s.nFree 0 false 0
    (toInt32 s.heapSize) (by omega)
  unfold smallestFreeChunk
  rw [hres]
  obtain ⟨f, r, m⟩ := res
  cases f with
  | true => right; exact ⟨r, by simp⟩
  | false => left; simp

/-! ## `smallestFreeChunk` on a heap that satisfies the invariant -/

theorem inv_reads (s : Heap) (L : List Nat) (hinv : Inv s L) :
    ∀ i, i < s.nFree → i < s.freeElems ∧ validWord s (s.freeList i + 4) ∧
      validWord s (s.freeList i) := by
  intro i hi
  obtain ⟨hm, _⟩ := inv_entry s L hinv i hi
  obtain ⟨v1, v2, _⟩ := inv_valid s L hinv _ hm
  have := hinv.nfree
  exact ⟨by omega, v2, v1⟩

theorem inv_adequate (s : Heap) (L : List Nat) (hinv : Inv s L) (r : Nat)
    (hr : r < 4294967296) (i : Nat) (hi : i < s.nFree) :
    Adequate s (r : Int) s.heapSize (s.freeList i) ↔ r + 8 ≤ s.mem (s.freeList i + 4) := by
  obtain ⟨hm, hst⟩ := inv_entry s L hinv i hi
  obtain ⟨_, _, h1, h2, _⟩ := inv_valid s L hinv _ hm
  unfold Adequate sizeofHeaderPtr SIZE_RANGE
  rw [toSizeT_eq (r : Int) r rfl (by omega)]
  unfold heapMaxAddr at h2
  constructor
  · intro h; have := h.1; omega
  · intro h; exact ⟨by omega, by omega, hst⟩

theorem smallestFreeChunk_inv (s : Heap) (L : List Nat) (hinv : Inv s L) (r : Nat)
    (hr : r < 4294967296) :
    (smallestFreeChunk s (r : Int) = .error (.exhausted s) ∧
      ∀ j, j < s.nFree → s.mem (s.freeList j + 4) < r + 8) ∨
    (∃ k, k < s.nFree ∧ smallestFreeChunk s (r : Int) = .ok (s.freeList k) ∧
      r + 8 ≤ s.mem (s.freeList k + 4) ∧
      (∀ j, j < s.nFree → r + 8 ≤ s.mem (s.freeList j + 4) →
        s.mem (s.freeList k + 4) ≤ s.mem (s.freeList j + 4)) ∧
      (∀ j, k < j → j < s.nFree → r + 8 ≤ s.mem (s.freeList j + 4) →
        s.mem (s.freeList k + 4) < s.mem (s.freeList j + 4))) := by
  have hH : s.heapSize < 4294967296 := by have := hinv.size_hi; omega
  rcases smallestFreeChunk_total s (r : Int) (inv_reads s L hinv) with h | ⟨c, h⟩
  · left
    refine ⟨h, fun j hj => ?_⟩
    have := (smallestFreeChunk_exhausted s (r : Int) hH s h).2 j hj
    rw [inv_adequate s L hinv r hr j hj] at this
    omega
  · right
    obtain ⟨k, hk, rfl, had, hmin, hlast⟩ := smallestFreeChunk_spec s (r : Int) hH c h
    refine ⟨k, hk, h, (inv_adequate s L hinv r hr k hk).mp had, ?_, ?_⟩
    · intro j hj hadj
      exact hmin j hj ((inv_adequate s L hinv r hr j hj).mpr hadj)
    · intro j hkj hj hadj
      exact hlast j hkj hj ((inv_adequate s L hinv r hr j hj).mpr hadj)

/-! ## The two branches of `myMalloc` -/

theorem upd_eq (m : Nat → Nat) (a v : Nat) : upd m a v a = v := by
  unfold upd; rw [if_pos rfl]

theorem upd_ne (m : Nat → Nat) (a v x : Nat) (h : x ≠ a) : upd m a v x = m x := by
  unfold upd; rw [if_neg h]

theorem upd_same_val (m : Nat → Nat) (a v : Nat) (h : m a = v) : upd m a v = m := by
  funext x
  unfold upd
  split_ifs with hx
  · rw [hx, h]
  · rfl

theorem alloc_mod : ALLOC % UINT_RANGE = ALLOC := by decide

theorem free_mod : FREE % UINT_RANGE = FREE := by decide

/-- The whole-chunk branch: the remainder would be below `MIN_CHUNK`. -/
theorem myMalloc_whole (s : Heap) (L : List Nat) (hinv : Inv s L) (n : Int) (r k : Nat)
    (hn : 1 ≤ n) (hround : roundMultiple4 n = .ok (r : Int)) (hk : k < s.nFree)
    (hsfc : smallestFreeChunk s (r : Int) = .ok (s.freeList k))
    (had : r + 8 ≤ s.mem (s.freeList k + 4))
    (hd : s.mem (s.freeList k + 4) < r + 40) :
    myMalloc s n = .ok (s.freeList k + 8, allocWhole s k) := by
  obtain ⟨hm, hst⟩ := inv_entry s L hinv k hk
  obtain ⟨v1, v2, h1, h2, _⟩ := inv_valid s L hinv _ hm
  obtain ⟨hnf, hfe⟩ := inv_small s L hinv
  have hsz := hinv.size_hi
  unfold heapMaxAddr at h2
  unfold myMalloc
  rw [if_neg (by omega), hround]
  simp only []
  rw [hsfc]
  simp only []
  rw [load_ok s _ v2]
  simp only []
  rw [toInt32_small _ (by omega)]
  unfold sizeofHeader MIN_CHUNK INT_MIN INT_MAX
  rw [if_neg (by omega), if_pos (by omega)]
  rw [store_ok s _ _ v1]
  simp only []
  rw [store_ok _ _ _ (by exact v2)]
  simp only []
  rw [toUint32_nat _ (by omega), alloc_mod]
  have e1 : s.mem (s.freeList k + 4) % UINT_RANGE = s.mem (s.freeList k + 4) := by
    unfold UINT_RANGE; omega
  rw [e1, upd_same_val (upd s.mem (s.freeList k) ALLOC) (s.freeList k + 4) _
    (by unfold upd; rw [if_neg (by omega)])]
  have := deleteFromList_ok
    { s with mem := upd s.mem (s.freeList k) ALLOC } k hnf (by simp only []; omega)
    hinv.sorted hk
  simp only [] at this
  rw [this]
  rfl

/-- The split branch: the remainder is a free chunk of its own. -/
theorem myMalloc_split (s : Heap) (L : List Nat) (hinv : Inv s L) (n : Int) (r k : Nat)
    (hn : 1 ≤ n) (hr : r < 2147483648) (hr4 : r % 4 = 0)
    (hround : roundMultiple4 n = .ok (r : Int)) (hk : k < s.nFree)
    (hsfc : smallestFreeChunk s (r : Int) = .ok (s.freeList k))
    (hd : r + 40 ≤ s.mem (s.freeList k + 4)) :
    myMalloc s n = .ok (s.freeList k + 8, allocSplit s k r) := by
  obtain ⟨hm, hst⟩ := inv_entry s L hinv k hk
  obtain ⟨v1, v2, h1, h2, hal, _, _, hal2⟩ := inv_valid s L hinv _ hm
  obtain ⟨hnf, hfe⟩ := inv_small s L hinv
  have hsz := hinv.size_hi
  have hbase := hinv.base_al
  unfold heapMaxAddr at h2
  unfold myMalloc
  rw [if_neg (by omega), hround]
  simp only []
  rw [hsfc]
  simp only []
  rw [load_ok s _ v2]
  simp only []
  rw [toInt32_small _ (by omega)]
  unfold sizeofHeader MIN_CHUNK INT_MIN INT_MAX
  rw [if_neg (by omega), if_neg (by omega)]
  rw [load_ok s _ v1]
  simp only []
  rw [hst, if_pos rfl, deleteFromList_ok s k hnf (by omega) hinv.sorted hk]
  simp only []
  rw [store_ok _ _ _ (by exact v1)]
  simp only []
  rw [store_ok _ _ _ (by exact v2)]
  simp only []
  have e0 : (toSizeT (r : Int) + 8) % UINT_RANGE = r + 8 := by
    rw [toSizeT_eq (r : Int) r rfl (by omega)]
    unfold UINT_RANGE; omega
  rw [e0]
  have v3 : validWord s (s.freeList k + (r + 8)) := by
    unfold validWord blockEnd sizeofHeader at *
    omega
  have v4 : validWord s (s.freeList k + (r + 8) + 4) := by
    unfold validWord blockEnd sizeofHeader at *
    omega
  rw [load_ok _ _ (by exact v2)]
  simp only [upd_eq]
  rw [store_ok _ _ _ (by exact v3)]
  simp only []
  rw [load_ok _ _ (by exact v2)]
  simp only []
  rw [upd_ne _ _ _ (s.freeList k + 4) (by omega), upd_eq]
  rw [store_ok _ _ _ (by exact v4)]
  simp only []
  rw [toUint32_nat _ (by omega)]
  rw [toUint32_eq _ (s.mem (s.freeList k + 4) - (r + 8)) (by omega) (by omega)]
  rw [insertToList_ok _ _ (by simp only []; omega) (by simp only []; omega)]
  have e1 : (r + 8) % UINT_RANGE = r + 8 := by unfold UINT_RANGE; omega
  have e2 : (s.mem (s.freeList k + 4) - (r + 8)) % UINT_RANGE =
      s.mem (s.freeList k + 4) - (r + 8) := by unfold UINT_RANGE; omega
  simp only [alloc_mod, free_mod, e1, e2]
  rfl

/-! ## The invariant after `myMalloc` -/

/-- Replacing the chunk at `c` by chunks that cover the same bytes keeps a tiling. -/
theorem tiling_replace (m m1 : Nat → Nat) (a e : Nat) (L : List Nat) (c : Nat) (L0 : List Nat)
    (h : Tiling m a e L) (hc : c ∈ L)
    (hsame : ∀ x, x < c ∨ c + m (c + 4) ≤ x → m1 x = m x)
    (hmid : Tiling m1 c (c + m (c + 4)) L0) :
    ∃ L1 L2, L = L1 ++ c :: L2 ∧ Tiling m1 a e (L1 ++ (L0 ++ L2)) ∧
      (∀ x, x ∈ L1 → x < c) ∧ (∀ x, x ∈ L2 → c + m (c + 4) ≤ x) := by
  obtain ⟨L1, L2, rfl, t1, t2⟩ := tiling_split m e L a h c hc
  have f1 := tiling_frame m m1 c L1 a t1 (fun x _ hx => hsame x (Or.inl hx))
  have f2 := tiling_frame m m1 e L2 _ t2 (fun x hx _ => hsame x (Or.inr hx))
  refine ⟨L1, L2, rfl, ?_, fun x hx => tiling_mem_lt m a c L1 t1 x hx,
    fun x hx => (tiling_mem m e L2 _ t2 x hx).1⟩
  exact (tiling_append m1 e _ L1 a).mpr ⟨c, f1, (tiling_append m1 e L2 L0 c).mpr ⟨_, hmid, f2⟩⟩

theorem alloc_ne_free : ALLOC ≠ FREE := by decide

theorem inv_allocWhole (s : Heap) (L : List Nat) (hinv : Inv s L) (k : Nat)
    (hk : k < s.nFree) : Inv (allocWhole s k) L := by
  obtain ⟨hm, hst⟩ := inv_entry s L hinv k hk
  obtain ⟨_, _, _, _, hal, hstat, h12, hal2⟩ := inv_valid s L hinv _ hm
  have hnf := hinv.nfree
  obtain ⟨L1, L2, hL, ht, _, _⟩ := tiling_replace s.mem (upd s.mem (s.freeList k) ALLOC)
    s.heapMem (heapMaxAddr s) L (s.freeList k) [s.freeList k] hinv.tiles hm
    (fun x hx => upd_ne _ _ _ _ (by omega))
    ⟨rfl, ⟨hal, Or.inr (upd_eq _ _ _), by rw [upd_ne _ _ _ _ (by omega)]; exact h12,
      by rw [upd_ne _ _ _ _ (by omega)]; exact hal2⟩,
      by rw [upd_ne _ _ _ _ (by omega)]; rfl⟩
  refine ⟨hinv.base_pos, hinv.base_al, hinv.size_al, hinv.size_lo, hinv.size_hi, hinv.elems,
    ?_, ?_, ?_, ?_, ?_⟩
  · rw [hL]; simpa using ht
  · show s.nFree - 1 ≤ s.freeElems
    omega
  · exact sortedUpTo_removeAt _ _ _ hinv.sorted
  · intro a
    show InList (removeAt s.freeList k s.nFree) (s.nFree - 1) a ↔
      (a ∈ L ∧ upd s.mem (s.freeList k) ALLOC a = FREE)
    rw [inList_removeAt _ _ _ hinv.sorted hk, hinv.fl_iff]
    by_cases hac : a = s.freeList k
    · subst hac
      rw [upd_eq]
      constructor
      · intro h; exact absurd rfl h.2
      · intro h; exact absurd h.2 alloc_ne_free
    · rw [upd_ne _ _ _ _ hac]
      constructor
      · intro h; exact h.1
      · intro h; exact ⟨h, hac⟩
  · intro a ha
    show a ∈ L
    by_cases hac : a = s.freeList k
    · rw [hac]; exact hm
    · exact hinv.alloc_live a (by rw [← ha]; exact (upd_ne _ _ _ _ hac).symm)

theorem inv_allocSplit (s : Heap) (L : List Nat) (hinv : Inv s L) (k r : Nat)
    (hk : k < s.nFree) (hr : 4 ≤ r) (hr4 : r % 4 = 0)
    (hd : r + 40 ≤ s.mem (s.freeList k + 4)) :
    ∃ L1 L2, L = L1 ++ s.freeList k :: L2 ∧
      Inv (allocSplit s k r) (L1 ++ s.freeList k :: (s.freeList k + (r + 8)) :: L2) := by
  obtain ⟨hm, hst⟩ := inv_entry s L hinv k hk
  obtain ⟨_, _, _, _, hal, hstat, h12, hal2⟩ := inv_valid s L hinv _ hm
  have hnf := hinv.nfree
  -- the memory after the four writes
  have hmem : (allocSplit s k r).mem =
      upd (upd (upd (upd s.mem (s.freeList k) ALLOC) (s.freeList k + 4) (r + 8))
        (s.freeList k + (r + 8)) FREE) (s.freeList k + (r + 8) + 4)
        (s.mem (s.freeList k + 4) - (r + 8)) := rfl
  have g0 : (allocSplit s k r).mem (s.freeList k) = ALLOC := by
    rw [hmem, upd_ne _ _ _ _ (by omega), upd_ne _ _ _ _ (by omega), upd_ne _ _ _ _ (by omega),
      upd_eq]
  have g1 : (allocSplit s k r).mem (s.freeList k + 4) = r + 8 := by
    rw [hmem, upd_ne _ _ _ _ (by omega), upd_ne _ _ _ _ (by omega), upd_eq]
  have g2 : (allocSplit s k r).mem (s.freeList k + (r + 8)) = FREE := by
    rw [hmem, upd_ne _ _ _ _ (by omega), upd_eq]
  have g3 : (allocSplit s k r).mem (s.freeList k + (r + 8) + 4) =
      s.mem (s.freeList k + 4) - (r + 8) := by
    rw [hmem, upd_eq]
  have gout : ∀ x, x < s.freeList k ∨ s.freeList k + s.mem (s.freeList k + 4) ≤ x →
      (allocSplit s k r).mem x = s.mem x := by
    intro x hx
    rw [hmem, upd_ne _ _ _ _ (by omega), upd_ne _ _ _ _ (by omega), upd_ne _ _ _ _ (by omega),
      upd_ne _ _ _ _ (by omega)]
  obtain ⟨L1, L2, hL, ht, hlow, hhigh⟩ := tiling_replace s.mem (allocSplit s k r).mem
    s.heapMem (heapMaxAddr s) L (s.freeList k) [s.freeList k, s.freeList k + (r + 8)]
    hinv.tiles hm gout
    ⟨rfl, ⟨hal, Or.inr g0, by rw [g1]; omega, by rw [g1]; omega⟩, by rw [g1],
      ⟨by omega, Or.inl g2, by rw [g3]; omega, by rw [g3]; omega⟩,
      by rw [g3]; simp only [Tiling]; omega⟩
  have hmemL : ∀ a, a ∈ L ↔ (a ∈ L1 ∨ a = s.freeList k ∨ a ∈ L2) := by
    intro a; rw [hL]; simp
  have hmemL1 : ∀ a, a ∈ L1 ++ s.freeList k :: (s.freeList k + (r + 8)) :: L2 ↔
      (a ∈ L1 ∨ a = s.freeList k ∨ a = s.freeList k + (r + 8) ∨ a ∈ L2) := by
    intro a; simp
  -- the new chunk is not yet in the free list
  have hnew : ¬ InList (removeAt s.freeList k s.nFree) (s.nFree - 1)
      (s.freeList k + (r + 8)) := by
    rw [inList_removeAt _ _ _ hinv.sorted hk, hinv.fl_iff]
    intro h
    rcases (hmemL _).mp h.1.1 with h1 | h1 | h1
    · have := hlow _ h1; omega
    · omega
    · have := hhigh _ h1; omega
  refine ⟨L1, L2, hL, hinv.base_pos, hinv.base_al, hinv.size_al, hinv.size_lo, hinv.size_hi,
    hinv.elems, ?_, ?_, ?_, ?_, ?_⟩
  · simpa using ht
  · show s.nFree - 1 + 1 ≤ s.freeElems
    omega
  · exact sortedUpTo_insertAt _ _ _ (sortedUpTo_removeAt _ _ _ hinv.sorted) hnew
  · intro a
    show InList (insertAt (removeAt s.freeList k s.nFree) (s.freeList k + (r + 8))
      (s.nFree - 1)) (s.nFree - 1 + 1) a ↔ _
    rw [inList_insertAt, inList_removeAt _ _ _ hinv.sorted hk, hinv.fl_iff, hmemL1, hmemL]
    constructor
    · rintro (rfl | ⟨⟨h1, h2⟩, h3⟩)
      · exact ⟨Or.inr (Or.inr (Or.inl rfl)), g2⟩
      · rcases h1 with h1 | h1 | h1
        · exact ⟨Or.inl h1, by rw [gout a (Or.inl (hlow a h1))]; exact h2⟩
        · exact absurd h1 h3
        · exact ⟨Or.inr (Or.inr (Or.inr h1)), by rw [gout a (Or.inr (hhigh a h1))]; exact h2⟩
    · rintro ⟨h1 | h1 | h1 | h1, h2⟩
      · right
        rw [gout a (Or.inl (hlow a h1))] at h2
        exact ⟨⟨Or.inl h1, h2⟩, by have := hlow a h1; omega⟩
      · rw [h1, g0] at h2; exact absurd h2 alloc_ne_free
      · left; exact h1
      · right
        rw [gout a (Or.inr (hhigh a h1))] at h2
        exact ⟨⟨Or.inr (Or.inr h1), h2⟩, by have := hhigh a h1; omega⟩
  · intro a ha
    rw [hmemL1]
    by_cases e0 : a = s.freeList k
    · exact Or.inr (Or.inl e0)
    · by_cases e1 : a = s.freeList k + 4
      · rw [e1, g1] at ha; unfold ALLOC at ha; omega
      · by_cases e2 : a = s.freeList k + (r + 8)
        · exact Or.inr (Or.inr (Or.inl e2))
        · by_cases e3 : a = s.freeList k + (r + 8) + 4
          · rw [e3, g3] at ha; unfold ALLOC at ha; omega
          · rw [hmem, upd_ne _ _ _ _ e3, upd_ne _ _ _ _ e2, upd_ne _ _ _ _ e1,
              upd_ne _ _ _ _ e0] at ha
            rcases (hmemL a).mp (hinv.alloc_live a ha) with h | h | h
            · exact Or.inl h
            · exact absurd h e0
            · exact Or.inr (Or.inr (Or.inr h))

/-! ## Every outcome of `myMalloc` on a heap that satisfies the invariant -/

theorem myMalloc_cases (s : Heap) (L : List Nat) (hinv : Inv s L) (n : Int) (hn : 1 ≤ n)
    (hmax : n ≤ INT_MAX) :
    (myMalloc s n = .error .undefined ∧ n % 4 ≠ 0 ∧ INT_MAX < n + 4) ∨
    ∃ r : Nat, roundMultiple4 n = .ok (r : Int) ∧ n ≤ (r : Int) ∧ (r : Int) < n + 4 ∧
      r % 4 = 0 ∧
      ((myMalloc s n = .error (.exhausted s) ∧
          ∀ j, j < s.nFree → s.mem (s.freeList j + 4) < r + 8) ∨
       ∃ k, k < s.nFree ∧ smallestFreeChunk s (r : Int) = .ok (s.freeList k) ∧
        r + 8 ≤ s.mem (s.freeList k + 4) ∧
        (∀ j, j < s.nFree → r + 8 ≤ s.mem (s.freeList j + 4) →
          s.mem (s.freeList k + 4) ≤ s.mem (s.freeList j + 4)) ∧
        (∀ j, k < j → j < s.nFree → r + 8 ≤ s.mem (s.freeList j + 4) →
          s.mem (s.freeList k + 4) < s.mem (s.freeList j + 4)) ∧
        ((s.mem (s.freeList k + 4) < r + 40 ∧
            myMalloc s n = .ok (s.freeList k + 8, allocWhole s k)) ∨
         (r + 40 ≤ s.mem (s.freeList k + 4) ∧
            myMalloc s n = .ok (s.freeList k + 8, allocSplit s k r)))) := by
  by_cases hov : n % 4 ≠ 0 ∧ INT_MAX < n + 4
  · left
    refine ⟨?_, hov⟩
    unfold myMalloc
    rw [if_neg (by omega), roundMultiple4_pos n (by omega), if_neg hov.1, if_pos hov.2]
  · right
    have hex : ∃ r0, roundMultiple4 n = .ok r0 := by
      rw [roundMultiple4_pos n (by omega)]
      split_ifs with h1 h2
      · exact ⟨_, rfl⟩
      · exact absurd ⟨h1, h2⟩ hov
      · exact ⟨_, rfl⟩
    obtain ⟨r0, hr0⟩ := hex
    obtain ⟨s1, s2, s3, s4⟩ := roundMultiple4_spec n r0 (by omega) hmax hr0
    obtain ⟨r, rfl⟩ : ∃ r : Nat, r0 = (r : Int) := ⟨r0.toNat, by omega⟩
    unfold INT_MAX at s4
    refine ⟨r, hr0, s1, s2, by omega, ?_⟩
    rcases smallestFreeChunk_inv s L hinv r (by omega) with ⟨h, hall⟩ | ⟨k, hk, h, had, hmin, hlast⟩
    · left
      refine ⟨?_, hall⟩
      unfold myMalloc
      rw [if_neg (by omega), hr0]
      simp only []
      rw [h]
    · right
      refine ⟨k, hk, h, had, hmin, hlast, ?_⟩
      by_cases hd : s.mem (s.freeList k + 4) < r + 40
      · left
        exact ⟨hd, myMalloc_whole s L hinv n r k hn hr0 hk h had hd⟩
      · right
        exact ⟨by omega, myMalloc_split s L hinv n r k hn (by omega) (by omega) hr0 hk h
          (by omega)⟩

theorem myMalloc_null (s : Heap) (n : Int) (hn : n < 1) : myMalloc s n = .ok (0, s) := by
  unfold myMalloc; rw [if_pos hn]

theorem myMalloc_inv (s : Heap) (L : List Nat) (hinv : Inv s L) (n : Int)
    (hmax : n ≤ INT_MAX) (p : Nat) (s1 : Heap) (h : myMalloc s n = .ok (p, s1)) :
    ∃ L1, Inv s1 L1 := by
  by_cases hn : n < 1
  · rw [myMalloc_null s n hn] at h
    cases h
    exact ⟨L, hinv⟩
  · rcases myMalloc_cases s L hinv n (by omega) hmax with ⟨h1, _⟩ | ⟨r, _, h1, _, h4, hc⟩
    · rw [h1] at h; cases h
    · rcases hc with ⟨h2, _⟩ | ⟨k, hk, _, _, _, _, ⟨_, h2⟩ | ⟨hd, h2⟩⟩
      · rw [h2] at h; cases h
      · rw [h2] at h; cases h
        exact ⟨L, inv_allocWhole s L hinv k hk⟩
      · rw [h2] at h; cases h
        obtain ⟨L1, L2, _, hi⟩ := inv_allocSplit s L hinv k r hk (by omega) h4 hd
        exact ⟨_, hi⟩

/-! ## `myFree` up to the merge -/

theorem insertLoop_err (addr : Nat) (e : Fault) :
    ∀ (j : Nat) (s : Heap), insertLoop addr j s = .error e → e = .undefined := by
  intro j
  induction j with
  | zero => intro s h; simp [insertLoop] at h
  | succ j ih =>
    intro s h
    unfold insertLoop at h
    cases h1 : readList s (j : Int) with
    | error e1 =>
      rw [h1] at h
      simp only [Except.error.injEq] at h
      subst h
      exact readList_err _ _ _ h1
    | ok v =>
      rw [h1] at h
      simp only [] at h
      split_ifs at h
      cases h2 : writeList s ((j : Int) + 1) v with
      | error e1 =>
        rw [h2] at h
        simp only [Except.error.injEq] at h
        subst h
        exact writeList_err _ _ _ _ h2
      | ok s1 =>
        rw [h2] at h
        exact ih s1 h

theorem insertLoop_frame (addr : Nat) :
    ∀ (j : Nat) (s : Heap) (p : Nat) (s1 : Heap), insertLoop addr j s = .ok (p, s1) →
      p ≤ j ∧ s1.freeElems = s.freeElems ∧ (j < s.freeElems ∨ p = j) := by
  intro j
  induction j with
  | zero =>
    intro s p s1 h
    simp only [insertLoop, Except.ok.injEq, Prod.mk.injEq] at h
    obtain ⟨rfl, rfl⟩ := h
    exact ⟨le_refl _, rfl, Or.inr rfl⟩
  | succ j ih =>
    intro s p s1 h
    unfold insertLoop at h
    cases h1 : readList s (j : Int) with
    | error e1 => rw [h1] at h; cases h
    | ok v =>
      rw [h1] at h
      simp only [] at h
      by_cases hc : v > addr
      · rw [if_pos hc] at h
        by_cases hb : j + 1 < s.freeElems
        · rw [writeList_ok s _ (j + 1) v (by omega) hb] at h
          simp only [] at h
          obtain ⟨a1, a2, _⟩ := ih _ _ _ h
          exact ⟨by omega, a2, Or.inl hb⟩
        · unfold writeList at h
          rw [if_neg (by omega)] at h
          cases h
      · rw [if_neg hc] at h
        simp only [Except.ok.injEq, Prod.mk.injEq] at h
        obtain ⟨rfl, rfl⟩ := h
        exact ⟨le_refl _, rfl, Or.inr rfl⟩

/-- With the array full, `insertToList` writes past its end. -/
theorem insertToList_full (s : Heap) (addr : Nat) (h : s.freeElems ≤ s.nFree)
    (hsmall : s.nFree < 2147483648) : insertToList s addr = .error .undefined := by
  unfold insertToList
  have h1 : toInt32 (toUint32 ((s.nFree : Int) - 1)) + 1 = (s.nFree : Int) := by
    by_cases h0 : s.nFree = 0
    · rw [h0]; decide
    · rw [toUint32_eq ((s.nFree : Int) - 1) (s.nFree - 1) (by omega) (by omega),
        toInt32_small _ (by omega)]
      omega
  simp only [h1]
  rw [if_neg (by omega), Int.toNat_ofNat]
  cases hl : insertLoop addr s.nFree s with
  | error e => rw [insertLoop_err addr e _ _ hl]
  | ok res =>
    obtain ⟨p, s1⟩ := res
    simp only []
    obtain ⟨a1, a2, a3⟩ := insertLoop_frame addr _ _ _ _ hl
    unfold writeList
    rw [if_neg (by omega)]

theorem myFree_eq (s : Heap) (fuel obj : Nat) (hobj : 8 ≤ obj)
    (hv : validWord s (obj - 8)) (hst : s.mem (obj - 8) = ALLOC)
    (hcap : s.nFree < s.freeElems) (hsmall : s.freeElems < 2147483648) :
    myFree fuel s obj = mergeFreeChunks fuel (freeMark s (obj - 8)) := by
  unfold myFree sizeofHeader
  rw [if_neg (by omega), if_neg (by omega)]
  simp only []
  rw [load_ok s _ hv]
  simp only []
  rw [if_neg (by rw [hst]; simp), store_ok s _ _ hv]
  simp only []
  rw [insertToList_ok _ _ (by exact hcap) (by exact hsmall), free_mod]
  rfl

/-- Every way in which `myFree` can end on a heap that satisfies the invariant. -/
theorem myFree_cases (s : Heap) (L : List Nat) (hinv : Inv s L) (fuel obj : Nat) :
    (obj = 0 ∧ myFree fuel s obj = .error (.usage s)) ∨
    (obj ≠ 0 ∧ (obj < 8 ∨ ¬ validWord s (obj - 8)) ∧ myFree fuel s obj = .error .undefined) ∨
    (8 ≤ obj ∧ validWord s (obj - 8) ∧ s.mem (obj - 8) ≠ ALLOC ∧
      myFree fuel s obj = .error (.usage s)) ∨
    (8 ≤ obj ∧ s.mem (obj - 8) = ALLOC ∧ obj - 8 ∈ L ∧ s.nFree = s.freeElems ∧
      myFree fuel s obj = .error .undefined) ∨
    (8 ≤ obj ∧ s.mem (obj - 8) = ALLOC ∧ obj - 8 ∈ L ∧ s.nFree < s.freeElems ∧
      myFree fuel s obj = mergeFreeChunks fuel (freeMark s (obj - 8))) := by
  obtain ⟨hnf, hfe⟩ := inv_small s L hinv
  by_cases h0 : obj = 0
  · left
    refine ⟨h0, ?_⟩
    unfold myFree; rw [if_pos h0]
  · right
    by_cases h8 : obj < 8
    · left
      refine ⟨h0, Or.inl h8, ?_⟩
      unfold myFree sizeofHeader; rw [if_neg h0, if_pos h8]
    · by_cases hv : validWord s (obj - 8)
      · right
        by_cases hst : s.mem (obj - 8) = ALLOC
        · right
          have hm := hinv.alloc_live _ hst
          by_cases hcap : s.nFree < s.freeElems
          · right
            exact ⟨by omega, hst, hm, hcap, myFree_eq s fuel obj (by omega) hv hst hcap (by omega)⟩
          · left
            refine ⟨by omega, hst, hm, by omega, ?_⟩
            unfold myFree sizeofHeader
            rw [if_neg (by omega), if_neg (by omega)]
            simp only []
            rw [load_ok s _ hv]
            simp only []
            rw [if_neg (by rw [hst]; simp), store_ok s _ _ hv]
            simp only []
            rw [insertToList_full _ _ (by simp only []; omega) (by simp only []; omega)]
        · left
          refine ⟨by omega, hv, hst, ?_⟩
          unfold myFree sizeofHeader
          rw [if_neg (by omega), if_neg (by omega)]
          simp only []
          rw [load_ok s _ hv]
          simp only []
          rw [if_pos hst]
      · left
        refine ⟨h0, Or.inr hv, ?_⟩
        unfold myFree sizeofHeader
        rw [if_neg h0, if_neg h8]
        simp only []
        unfold load
        rw [if_neg hv]

theorem inv_freeMark (s : Heap) (L : List Nat) (hinv : Inv s L) (c : Nat) (hc : c ∈ L)
    (hst : s.mem c = ALLOC) (hcap : s.nFree < s.freeElems) : Inv (freeMark s c) L := by
  obtain ⟨_, _, _, _, hal, hstat, h12, hal2⟩ := inv_valid s L hinv _ hc
  obtain ⟨L1, L2, hL, ht, _, _⟩ := tiling_replace s.mem (upd s.mem c FREE)
    s.heapMem (heapMaxAddr s) L c [c] hinv.tiles hc
    (fun x hx => upd_ne _ _ _ _ (by omega))
    ⟨rfl, ⟨hal, Or.inl (upd_eq _ _ _), by rw [upd_ne _ _ _ _ (by omega)]; exact h12,
      by rw [upd_ne _ _ _ _ (by omega)]; exact hal2⟩,
      by rw [upd_ne _ _ _ _ (by omega)]; rfl⟩
  have hnew : ¬ InList s.freeList s.nFree c := by
    rw [hinv.fl_iff]
    intro h
    rw [hst] at h
    exact alloc_ne_free h.2
  refine ⟨hinv.base_pos, hinv.base_al, hinv.size_al, hinv.size_lo, hinv.size_hi, hinv.elems,
    ?_, ?_, ?_, ?_, ?_⟩
  · rw [hL]; simpa using ht
  · show s.nFree + 1 ≤ s.freeElems
    omega
  · exact sortedUpTo_insertAt _ _ _ hinv.sorted hnew
  · intro a
    show InList (insertAt s.freeList c s.nFree) (s.nFree + 1) a ↔
      (a ∈ L ∧ upd s.mem c FREE a = FREE)
    rw [inList_insertAt, hinv.fl_iff]
    by_cases hac : a = c
    · subst hac
      rw [upd_eq]
      exact ⟨fun _ => ⟨hc, rfl⟩, fun _ => Or.inl rfl⟩
    · rw [upd_ne _ _ _ _ hac]
      exact ⟨fun h => h.resolve_left hac, fun h => Or.inr h⟩
  · intro a ha
    show a ∈ L
    by_cases hac : a = c
    · rw [hac]; exact hc
    · exact hinv.alloc_live a (by rw [← ha]; exact (upd_ne _ _ _ _ hac).symm)

/-! ## One iteration of `mergeFreeChunks` -/

/-- Two consecutive entries of the free list and what the invariant says of them. -/
theorem inv_pair (s : Heap) (L : List Nat) (hinv : Inv s L) (i : Nat) (hi : i + 1 < s.nFree) :
    s.freeList i < s.freeList (i + 1) ∧
    s.freeList i + s.mem (s.freeList i + 4) ≤ s.freeList (i + 1) ∧
    s.freeList (i + 1) + s.mem (s.freeList (i + 1) + 4) ≤ s.heapMem + s.heapSize ∧
    s.heapMem ≤ s.freeList i := by
  obtain ⟨hm, hst⟩ := inv_entry s L hinv i (by omega)
  obtain ⟨hm1, hst1⟩ := inv_entry s L hinv (i + 1) hi
  obtain ⟨_, _, h1, h2, _⟩ := inv_valid s L hinv _ hm
  obtain ⟨_, _, h3, h4, _⟩ := inv_valid s L hinv _ hm1
  have hlt := hinv.sorted i (i + 1) (by omega) hi
  have := tiling_no_inside _ _ _ _ hinv.tiles _ _ hm hm1 hlt
  unfold heapMaxAddr at h4
  exact ⟨hlt, this, h4, h1⟩

theorem mergeBody_merge (s : Heap) (L : List Nat) (hinv : Inv s L) (i : Nat)
    (hi : i + 1 < s.nFree)
    (hadj : s.freeList i + s.mem (s.freeList i + 4) = s.freeList (i + 1)) :
    mergeBody s i = .ok (i, mergeAt s i) := by
  obtain ⟨hm, hst⟩ := inv_entry s L hinv i (by omega)
  obtain ⟨hm1, hst1⟩ := inv_entry s L hinv (i + 1) hi
  obtain ⟨v1, v2, _⟩ := inv_valid s L hinv _ hm
  obtain ⟨v3, v4, _⟩ := inv_valid s L hinv _ hm1
  obtain ⟨p1, p2, p3, p4⟩ := inv_pair s L hinv i hi
  obtain ⟨hnf, hfe⟩ := inv_small s L hinv
  have hsz := hinv.size_hi
  unfold mergeBody
  rw [readList_ok s (i : Int) i rfl (by omega)]
  simp only []
  rw [load_ok s _ v2]
  simp only []
  rw [toUint32_eq ((s.nFree : Int) - 1) (s.nFree - 1) (by omega) (by omega),
    if_pos (by omega), readList_ok s ((i : Int) + 1) (i + 1) (by omega) (by omega)]
  simp only []
  rw [toUint32_eq _ (s.freeList (i + 1) - s.freeList i) (by omega) (by omega),
    toInt32_small _ (by omega), toInt32_small _ (by omega), if_pos (by omega),
    load_ok s _ v1]
  simp only []
  rw [if_pos hst, load_ok s _ v3]
  simp only []
  rw [if_pos hst1]
  unfold mergeTwoChunks
  rw [load_ok s _ v2]
  simp only []
  rw [load_ok s _ v4]
  simp only []
  rw [store_ok s _ _ v2]
  simp only []
  rw [readList_ok _ ((i : Int) + 1) (i + 1) (by omega) (by simp only []; omega)]
  simp only []
  have e : (s.mem (s.freeList i + 4) + s.mem (s.freeList (i + 1) + 4)) % UINT_RANGE =
      s.mem (s.freeList i + 4) + s.mem (s.freeList (i + 1) + 4) := by
    unfold UINT_RANGE; omega
  rw [e]
  have := deleteFromList_ok
    { s with mem := (mergeAt s i).mem }
    (i + 1) hnf (by simp only []; omega) hinv.sorted hi
  simp only [] at this
  have hm2 : (mergeAt s i).mem = upd s.mem (s.freeList i + 4)
      (s.mem (s.freeList i + 4) + s.mem (s.freeList (i + 1) + 4)) := rfl
  rw [hm2] at this
  rw [this]
  rfl

theorem mergeBody_skip (s : Heap) (L : List Nat) (hinv : Inv s L) (i : Nat)
    (hi : i < s.nFree)
    (hadj : i + 1 < s.nFree → s.freeList i + s.mem (s.freeList i + 4) ≠ s.freeList (i + 1)) :
    mergeBody s i = .ok (i + 1, s) := by
  obtain ⟨hm, hst⟩ := inv_entry s L hinv i hi
  obtain ⟨v1, v2, _, h2, _⟩ := inv_valid s L hinv _ hm
  obtain ⟨hnf, hfe⟩ := inv_small s L hinv
  have hsz := hinv.size_hi
  unfold heapMaxAddr at h2
  unfold mergeBody
  rw [readList_ok s (i : Int) i rfl (by omega)]
  simp only []
  rw [load_ok s _ v2]
  simp only []
  rw [toUint32_eq ((s.nFree : Int) - 1) (s.nFree - 1) (by omega) (by omega)]
  by_cases hlast : i < s.nFree - 1
  · obtain ⟨p1, p2, p3, p4⟩ := inv_pair s L hinv i (by omega)
    rw [if_pos hlast, readList_ok s ((i : Int) + 1) (i + 1) (by omega) (by omega)]
    simp only []
    have := hadj (by omega)
    rw [toUint32_eq _ (s.freeList (i + 1) - s.freeList i) (by omega) (by omega),
      toInt32_small _ (by omega), toInt32_small _ (by omega), if_neg (by omega)]
  · rw [if_neg hlast]

/-! ## The invariant after a merge -/

theorem inv_mergeAt (s : Heap) (L : List Nat) (hinv : Inv s L) (i : Nat)
    (hi : i + 1 < s.nFree)
    (hadj : s.freeList i + s.mem (s.freeList i + 4) = s.freeList (i + 1)) :
    ∃ L1 L2, L = L1 ++ s.freeList i :: s.freeList (i + 1) :: L2 ∧
      Inv (mergeAt s i) (L1 ++ s.freeList i :: L2) := by
  obtain ⟨hm, hst⟩ := inv_entry s L hinv i (by omega)
  obtain ⟨hm1, hst1⟩ := inv_entry s L hinv (i + 1) hi
  obtain ⟨_, _, _, _, hal, hstat, h12, hal2⟩ := inv_valid s L hinv _ hm
  obtain ⟨_, _, _, _, hal1, hstat1, h121, hal21⟩ := inv_valid s L hinv _ hm1
  obtain ⟨p1, p2, p3, p4⟩ := inv_pair s L hinv i hi
  have hnf := hinv.nfree
  obtain ⟨L1, L2, hL, t1, t2⟩ := tiling_next s.mem _ _ L hinv.tiles (s.freeList i) hm
    (by rw [hadj]; exact hm1)
  rw [hadj] at hL t2
  have hmem : (mergeAt s i).mem = upd s.mem (s.freeList i + 4)
      (s.mem (s.freeList i + 4) + s.mem (s.freeList (i + 1) + 4)) := rfl
  have g1 : (mergeAt s i).mem (s.freeList i + 4) =
      s.mem (s.freeList i + 4) + s.mem (s.freeList (i + 1) + 4) := by
    rw [hmem, upd_eq]
  have gout : ∀ x, x ≠ s.freeList i + 4 → (mergeAt s i).mem x = s.mem x := by
    intro x hx
    rw [hmem, upd_ne _ _ _ _ hx]
  have f1 := tiling_frame s.mem (mergeAt s i).mem _ L1 _ t1 (fun x _ hx => gout x (by omega))
  have f2 := tiling_frame s.mem (mergeAt s i).mem _ L2 _ t2 (fun x hx _ => gout x (by omega))
  have hlow : ∀ x, x ∈ L1 → x < s.freeList i := fun x hx => tiling_mem_lt _ _ _ _ t1 x hx
  have hhigh : ∀ x, x ∈ L2 → s.freeList (i + 1) + s.mem (s.freeList (i + 1) + 4) ≤ x :=
    fun x hx => (tiling_mem _ _ _ _ t2 x hx).1
  have hmemL : ∀ a, a ∈ L ↔ (a ∈ L1 ∨ a = s.freeList i ∨ a = s.freeList (i + 1) ∨ a ∈ L2) := by
    intro a; rw [hL]; simp
  have hmemL1 : ∀ a, a ∈ L1 ++ s.freeList i :: L2 ↔ (a ∈ L1 ∨ a = s.freeList i ∨ a ∈ L2) := by
    intro a; simp
  refine ⟨L1, L2, hL, hinv.base_pos, hinv.base_al, hinv.size_al, hinv.size_lo, hinv.size_hi,
    hinv.elems, ?_, ?_, ?_, ?_, ?_⟩
  · refine (tiling_append _ _ _ L1 _).mpr ⟨s.freeList i, f1, rfl,
      ⟨hal, Or.inl (by rw [gout _ (by omega)]; exact hst), by rw [g1]; omega,
        by rw [g1]; omega⟩, ?_⟩
    rw [g1]
    have e : s.freeList i + (s.mem (s.freeList i + 4) + s.mem (s.freeList (i + 1) + 4)) =
        s.freeList (i + 1) + s.mem (s.freeList (i + 1) + 4) := by omega
    rw [e]
    exact f2
  · show s.nFree - 1 ≤ s.freeElems
    omega
  · exact sortedUpTo_removeAt _ _ _ hinv.sorted
  · intro a
    show InList (removeAt s.freeList (i + 1) s.nFree) (s.nFree - 1) a ↔ _
    rw [inList_removeAt _ _ _ hinv.sorted hi, hinv.fl_iff, hmemL1, hmemL]
    constructor
    · rintro ⟨⟨h1 | h1 | h1 | h1, h2⟩, h3⟩
      · exact ⟨Or.inl h1, by rw [gout a (by have := hlow a h1; omega)]; exact h2⟩
      · exact ⟨Or.inr (Or.inl h1), by rw [gout a (by omega)]; exact h2⟩
      · exact absurd h1 h3
      · exact ⟨Or.inr (Or.inr h1), by rw [gout a (by have := hhigh a h1; omega)]; exact h2⟩
    · rintro ⟨h1 | h1 | h1, h2⟩
      · rw [gout a (by have := hlow a h1; omega)] at h2
        exact ⟨⟨Or.inl h1, h2⟩, by have := hlow a h1; omega⟩
      · rw [gout a (by omega)] at h2
        exact ⟨⟨Or.inr (Or.inl h1), h2⟩, by omega⟩
      · rw [gout a (by have := hhigh a h1; omega)] at h2
        exact ⟨⟨Or.inr (Or.inr (Or.inr h1)), h2⟩, by have := hhigh a h1; omega⟩
  · intro a ha
    rw [hmemL1]
    by_cases e1 : a = s.freeList i + 4
    · rw [e1, g1] at ha; unfold ALLOC at ha; omega
    · rw [gout a e1] at ha
      rcases (hmemL a).mp (hinv.alloc_live a ha) with h | h | h | h
      · exact Or.inl h
      · exact Or.inr (Or.inl h)
      · rw [h, hst1] at ha; exact absurd ha.symm alloc_ne_free
      · exact Or.inr (Or.inr h)

/-! ## The loop of `mergeFreeChunks` -/

theorem mergeLoop_mono : ∀ (fuel i : Nat) (s s1 : Heap), mergeLoop fuel i s = .ok s1 →
    ∀ k, mergeLoop (fuel + k) i s = .ok s1 := by
  intro fuel
  induction fuel with
  | zero => intro i s s1 h; simp [mergeLoop] at h
  | succ fuel ih =>
    intro i s s1 h k
    have e : fuel + 1 + k = (fuel + k) + 1 := by omega
    rw [e]
    unfold mergeLoop at h ⊢
    by_cases hi : i < s.nFree
    · rw [if_pos hi] at h ⊢
      cases hb : mergeBody s i with
      | error f => rw [hb] at h; cases h
      | ok res =>
        obtain ⟨i1, s2⟩ := res
        rw [hb] at h
        simp only [] at h ⊢
        exact ih _ _ _ h k
    · rw [if_neg hi] at h ⊢
      exact h

theorem mergeAt_alloc (s : Heap) (L : List Nat) (hinv : Inv s L) (i : Nat)
    (hi : i + 1 < s.nFree) (a : Nat) : (mergeAt s i).mem a = ALLOC ↔ s.mem a = ALLOC := by
  obtain ⟨hm, _⟩ := inv_entry s L hinv i (by omega)
  obtain ⟨hm1, _⟩ := inv_entry s L hinv (i + 1) hi
  obtain ⟨_, _, _, _, _, _, _, hal2⟩ := inv_valid s L hinv _ hm
  obtain ⟨_, _, _, _, _, _, _, hal21⟩ := inv_valid s L hinv _ hm1
  show upd s.mem (s.freeList i + 4) _ a = ALLOC ↔ _
  by_cases e : a = s.freeList i + 4
  · subst e
    rw [upd_eq]
    unfold ALLOC
    constructor <;> intro h <;> omega
  · rw [upd_ne _ _ _ _ e]

theorem mergeLoop_spec : ∀ (fuel i : Nat) (s : Heap) (L : List Nat), Inv s L →
    i ≤ s.nFree → NoAdjBelow s i → 2 * s.nFree < fuel + i →
    ∃ s1 L1, mergeLoop fuel i s = .ok s1 ∧ Inv s1 L1 ∧ NoAdjBelow s1 s1.nFree ∧
      s1.heapMem = s.heapMem ∧ s1.heapSize = s.heapSize ∧ s1.freeElems = s.freeElems ∧
      s1.nFree ≤ s.nFree ∧ (∀ a, s1.mem a = ALLOC ↔ s.mem a = ALLOC) := by
  intro fuel
  induction fuel with
  | zero => intro i s L _ hi _ hf; omega
  | succ fuel ih =>
    intro i s L hinv hi hno hf
    unfold mergeLoop
    by_cases hlt : i < s.nFree
    · rw [if_pos hlt]
      by_cases hadj : i + 1 < s.nFree ∧
          s.freeList i + s.mem (s.freeList i + 4) = s.freeList (i + 1)
      · obtain ⟨h1, h2⟩ := hadj
        rw [mergeBody_merge s L hinv i h1 h2]
        simp only []
        obtain ⟨L1, L2, hL, hinv1⟩ := inv_mergeAt s L hinv i h1 h2
        have hno1 : NoAdjBelow (mergeAt s i) i := by
          intro j hj hj1
          have hj2 : j + 1 < s.nFree := by
            have : (mergeAt s i).nFree = s.nFree - 1 := rfl
            omega
          have hs := hinv.sorted j i hj (by omega)
          have e1 : (mergeAt s i).freeList j = s.freeList j := by
            show removeAt s.freeList (i + 1) s.nFree j = _
            unfold removeAt; rw [if_neg (by omega)]
          have e2 : (mergeAt s i).freeList (j + 1) = s.freeList (j + 1) := by
            show removeAt s.freeList (i + 1) s.nFree (j + 1) = _
            unfold removeAt; rw [if_neg (by omega)]
          have e3 : (mergeAt s i).mem (s.freeList j + 4) = s.mem (s.freeList j + 4) := by
            show upd s.mem (s.freeList i + 4) _ _ = _
            rw [upd_ne _ _ _ _ (by omega)]
          rw [e1, e2, e3]
          exact hno j hj hj2
        obtain ⟨s1, L3, r1, r2, r3, r4, r5, r6, r7, r8⟩ :=
          ih i (mergeAt s i) _ hinv1 (by show i ≤ s.nFree - 1; omega) hno1
            (by show 2 * (s.nFree - 1) < fuel + i; omega)
        refine ⟨s1, L3, r1, r2, r3, r4, r5, r6, ?_, ?_⟩
        · have : (mergeAt s i).nFree = s.nFree - 1 := rfl
          omega
        · intro a
          rw [r8 a, mergeAt_alloc s L hinv i h1 a]
      · rw [mergeBody_skip s L hinv i hlt (fun h1 h2 => hadj ⟨h1, h2⟩)]
        simp only []
        have hno1 : NoAdjBelow s (i + 1) := by
          intro j hj hj1
          by_cases e : j = i
          · subst e
            exact fun h2 => hadj ⟨hj1, h2⟩
          · exact hno j (by omega) hj1
        exact ih (i + 1) s L hinv (by omega) hno1 (by omega)
    · rw [if_neg hlt]
      have e : i = s.nFree := by omega
      subst e
      exact ⟨s, L, rfl, hinv, hno, rfl, rfl, rfl, le_refl _, fun a => Iff.rfl⟩

/-! ## `myFree` on a heap that satisfies the invariant -/

/-- A call of `myFree` that returns has released an allocated chunk and merged
every pair of adjacent free chunks. -/
theorem myFree_spec (s : Heap) (L : List Nat) (hinv : Inv s L) (fuel obj : Nat) (s1 : Heap)
    (h : myFree fuel s obj = .ok s1) :
    ∃ L1, Inv s1 L1 ∧ NoAdjBelow s1 s1.nFree ∧ 8 ≤ obj ∧ s.mem (obj - 8) = ALLOC ∧
      obj - 8 ∈ L ∧ s.nFree < s.freeElems ∧
      s1.heapMem = s.heapMem ∧ s1.heapSize = s.heapSize ∧ s1.freeElems = s.freeElems ∧
      s1.nFree ≤ s.nFree + 1 ∧
      (∀ a, s1.mem a = ALLOC ↔ (s.mem a = ALLOC ∧ a ≠ obj - 8)) := by
  rcases myFree_cases s L hinv fuel obj with ⟨_, h1⟩ | ⟨_, _, h1⟩ | ⟨_, _, _, h1⟩ |
    ⟨_, _, _, _, h1⟩ | ⟨h8, hst, hm, hcap, h1⟩
  · rw [h1] at h; cases h
  · rw [h1] at h; cases h
  · rw [h1] at h; cases h
  · rw [h1] at h; cases h
  · rw [h1] at h
    have hinv1 := inv_freeMark s L hinv _ hm hst hcap
    obtain ⟨s2, L2, r1, r2, r3, r4, r5, r6, r7, r8⟩ :=
      mergeLoop_spec (fuel + (2 * (s.nFree + 1) + 1)) 0 (freeMark s (obj - 8)) L hinv1
        (Nat.zero_le _) (fun j hj _ => by omega)
        (by show 2 * (s.nFree + 1) < _; omega)
    have := mergeLoop_mono fuel 0 _ s1 h (2 * (s.nFree + 1) + 1)
    rw [this] at r1
    cases r1
    refine ⟨L2, r2, r3, h8, hst, hm, hcap, r4, r5, r6, r7, ?_⟩
    intro a
    rw [r8 a]
    show upd s.mem (obj - 8) FREE a = ALLOC ↔ _
    by_cases e : a = obj - 8
    · subst e
      rw [upd_eq]
      constructor
      · intro hc; exact absurd hc.symm alloc_ne_free
      · intro hc; exact absurd rfl hc.2
    · rw [upd_ne _ _ _ _ e]
      exact ⟨fun hc => ⟨hc, e⟩, fun hc => hc.1⟩

/-- Releasing an allocated chunk returns when the free list has room and the
loop is given enough iterations. -/
theorem myFree_returns (s : Heap) (L : List Nat) (hinv : Inv s L) (fuel obj : Nat)
    (h8 : 8 ≤ obj) (hst : s.mem (obj - 8) = ALLOC) (hcap : s.nFree < s.freeElems)
    (hfuel : 2 * s.nFree + 2 < fuel) : ∃ s1, myFree fuel s obj = .ok s1 := by
  have hm := hinv.alloc_live _ hst
  obtain ⟨v1, _⟩ := inv_valid s L hinv _ hm
  obtain ⟨_, hfe⟩ := inv_small s L hinv
  rw [myFree_eq s fuel obj h8 v1 hst hcap (by omega)]
  have hinv1 := inv_freeMark s L hinv _ hm hst hcap
  obtain ⟨s2, L2, r1, _⟩ :=
    mergeLoop_spec fuel 0 (freeMark s (obj - 8)) L hinv1
      (Nat.zero_le _) (fun j hj _ => by omega)
      (by show 2 * (s.nFree + 1) < _; omega)
  exact ⟨s2, r1⟩

/-! ## Reachable heaps -/

theorem reachable_inv (s : Heap) (h : Reachable s) : ∃ L, Inv s L := by
  induction h with
  | init size chunk list s _ h2 hal h => exact ⟨_, initHeap_inv size chunk list s h2 hal h⟩
  | malloc s size p s1 _ _ h2 h ih =>
    obtain ⟨L, hinv⟩ := ih
    exact myMalloc_inv s L hinv size h2 p s1 h
  | free s fuel obj s1 _ h ih =>
    obtain ⟨L, hinv⟩ := ih
    obtain ⟨L1, h1, _⟩ := myFree_spec s L hinv fuel obj s1 h
    exact ⟨L1, h1⟩

/-! ## Adjacent free chunks -/

theorem noAdj_chunks (s : Heap) (L : List Nat) (hinv : Inv s L)
    (hno : NoAdjBelow s s.nFree) (c d : Nat) (hc : c ∈ L) (hd : d ∈ L)
    (hcd : c + s.mem (c + 4) = d) : ¬ (s.mem c = FREE ∧ s.mem d = FREE) := by
  rintro ⟨h1, h2⟩
  obtain ⟨j, hj, rfl⟩ := (hinv.fl_iff c).mpr ⟨hc, h1⟩
  obtain ⟨j1, hj1, rfl⟩ := (hinv.fl_iff d).mpr ⟨hd, h2⟩
  obtain ⟨_, _, _, _, _, _, h12, _⟩ := inv_valid s L hinv _ hc
  have hlt : j < j1 := by
    by_contra hge
    rcases Nat.lt_or_ge j1 j with h | h
    · have := hinv.sorted j1 j h hj; omega
    · have : j = j1 := by omega
      subst this; omega
  by_cases e : j1 = j + 1
  · subst e
    exact hno j hj hj1 hcd
  · obtain ⟨hm, _⟩ := inv_entry s L hinv (j + 1) (by omega)
    have a1 := hinv.sorted j (j + 1) (by omega) (by omega)
    have a2 := hinv.sorted (j + 1) j1 (by omega) hj1
    have := tiling_no_inside _ _ _ _ hinv.tiles _ _ hc hm a1
    omega

theorem noAdjacentFree_of (s : Heap) (L : List Nat) (hinv : Inv s L)
    (hno : NoAdjBelow s s.nFree) : NoAdjacentFree s := by
  intro c hc d hd hcd
  rw [chunks_eq s L hinv] at hc hd
  exact noAdj_chunks s L hinv hno c d hc hd hcd

/-- A heap without allocated chunk and without adjacent free chunks is one free
chunk that spans the Region. -/
theorem all_free_single (s : Heap) (L : List Nat) (hinv : Inv s L)
    (hno : NoAdjBelow s s.nFree) (hall : ∀ a, s.mem a ≠ ALLOC) :
    L = [s.heapMem] ∧ s.mem s.heapMem = FREE ∧ s.mem (s.heapMem + 4) = s.heapSize ∧
      s.nFree = 1 ∧ s.freeList 0 = s.heapMem := by
  have hlo := hinv.size_lo
  have ht := hinv.tiles
  have hL : L = [s.heapMem] := by
    cases hL0 : L with
    | nil =>
      rw [hL0] at ht
      simp only [Tiling, heapMaxAddr] at ht
      omega
    | cons c L1 =>
      rw [hL0] at ht
      obtain ⟨rfl, hok, ht1⟩ := ht
      cases hL1 : L1 with
      | nil => rfl
      | cons d L2 =>
        exfalso
        rw [hL1] at ht1
        obtain ⟨rfl, hok1, _⟩ := ht1
        have hc : s.heapMem ∈ L := by rw [hL0]; simp
        have hd : s.heapMem + s.mem (s.heapMem + 4) ∈ L := by rw [hL0, hL1]; simp
        have f1 : s.mem s.heapMem = FREE := hok.2.1.resolve_right (hall _)
        have f2 : s.mem (s.heapMem + s.mem (s.heapMem + 4)) = FREE :=
          hok1.2.1.resolve_right (hall _)
        exact noAdj_chunks s L hinv hno _ _ hc hd rfl ⟨f1, f2⟩
  have hmem : s.heapMem ∈ L := by rw [hL]; simp
  obtain ⟨_, _, _, _, _, hst, _, _⟩ := inv_valid s L hinv _ hmem
  have hfree : s.mem s.heapMem = FREE := hst.resolve_right (hall _)
  have hsize : s.mem (s.heapMem + 4) = s.heapSize := by
    rw [hL] at ht
    simp only [Tiling, heapMaxAddr] at ht
    omega
  obtain ⟨i, hi, hi2⟩ := (hinv.fl_iff s.heapMem).mpr ⟨hmem, hfree⟩
  have hentry : ∀ j, j < s.nFree → s.freeList j = s.heapMem := by
    intro j hj
    have := (inv_entry s L hinv j hj).1
    rw [hL] at this
    simpa using this
  have h1 : s.nFree = 1 := by
    by_contra hne
    have := hinv.sorted 0 1 (by omega) (by omega)
    rw [hentry 0 (by omega), hentry 1 (by omega)] at this
    omega
  exact ⟨hL, hfree, hsize, h1, hentry 0 (by omega)⟩

/-! ## What a returning `myMalloc` has done -/

theorem allocSplit_alloc (s : Heap) (L : List Nat) (hinv : Inv s L) (k r : Nat)
    (hk : k < s.nFree) (hr4 : r % 4 = 0) (hd : r + 40 ≤ s.mem (s.freeList k + 4)) (a : Nat) :
    (allocSplit s k r).mem a = ALLOC ↔ (s.mem a = ALLOC ∨ a = s.freeList k) := by
  obtain ⟨hm, hst⟩ := inv_entry s L hinv k hk
  obtain ⟨_, _, _, _, _, _, _, hal2⟩ := inv_valid s L hinv _ hm
  have inside : ∀ x, s.freeList k < x → x < s.freeList k + s.mem (s.freeList k + 4) →
      s.mem x ≠ ALLOC := by
    intro x h1 h2 hx
    have := tiling_no_inside _ _ _ _ hinv.tiles _ _ hm (hinv.alloc_live x hx) h1
    omega
  show upd (upd (upd (upd s.mem (s.freeList k) ALLOC) (s.freeList k + 4) (r + 8))
    (s.freeList k + (r + 8)) FREE) (s.freeList k + (r + 8) + 4)
    (s.mem (s.freeList k + 4) - (r + 8)) a = ALLOC ↔ _
  by_cases e3 : a = s.freeList k + (r + 8) + 4
  · subst e3
    rw [upd_eq]
    have := inside (s.freeList k + (r + 8) + 4) (by omega) (by omega)
    unfold ALLOC at *
    constructor
    · intro h; omega
    · rintro (h | h)
      · exact absurd h this
      · omega
  · rw [upd_ne _ _ _ _ e3]
    by_cases e2 : a = s.freeList k + (r + 8)
    · subst e2
      rw [upd_eq]
      have := inside (s.freeList k + (r + 8)) (by omega) (by omega)
      constructor
      · intro h; exact absurd h.symm alloc_ne_free
      · rintro (h | h)
        · exact absurd h this
        · omega
    · rw [upd_ne _ _ _ _ e2]
      by_cases e1 : a = s.freeList k + 4
      · subst e1
        rw [upd_eq]
        have := inside (s.freeList k + 4) (by omega) (by omega)
        unfold ALLOC at *
        constructor
        · intro h; omega
        · rintro (h | h)
          · exact absurd h this
          · omega
      · rw [upd_ne _ _ _ _ e1]
        by_cases e0 : a = s.freeList k
        · subst e0
          rw [upd_eq]
          exact ⟨fun _ => Or.inr rfl, fun _ => rfl⟩
        · rw [upd_ne _ _ _ _ e0]
          exact ⟨fun h => Or.inl h, fun h => h.resolve_right e0⟩

theorem allocWhole_alloc (s : Heap) (k a : Nat) :
    (allocWhole s k).mem a = ALLOC ↔ (s.mem a = ALLOC ∨ a = s.freeList k) := by
  show upd s.mem (s.freeList k) ALLOC a = ALLOC ↔ _
  by_cases e0 : a = s.freeList k
  · subst e0
    rw [upd_eq]
    exact ⟨fun _ => Or.inr rfl, fun _ => rfl⟩
  · rw [upd_ne _ _ _ _ e0]
    exact ⟨fun h => Or.inl h, fun h => h.resolve_right e0⟩

/-- A call of `myMalloc` with `n ≥ 1` that returns has served the chunk at some
entry `k` of the free list. -/
theorem myMalloc_spec (s : Heap) (L : List Nat) (hinv : Inv s L) (n : Int) (hn : 1 ≤ n)
    (hmax : n ≤ INT_MAX) (p : Nat) (s1 : Heap) (h : myMalloc s n = .ok (p, s1)) :
    ∃ (L1 : List Nat) (k r : Nat), Inv s1 L1 ∧ k < s.nFree ∧ p = s.freeList k + 8 ∧
      s.freeList k ∈ L1 ∧ roundMultiple4 n = .ok (r : Int) ∧ n ≤ (r : Int) ∧
      r + 8 ≤ s1.mem (s.freeList k + 4) ∧
      s1.heapMem = s.heapMem ∧ s1.heapSize = s.heapSize ∧ s1.freeElems = s.freeElems ∧
      s1.nFree ≤ s.nFree ∧ (∀ a, s1.mem a = ALLOC ↔ (s.mem a = ALLOC ∨ a = s.freeList k)) := by
  rcases myMalloc_cases s L hinv n hn hmax with ⟨h1, _⟩ | ⟨r, hr, h1, _, h4, hc⟩
  · rw [h1] at h; cases h
  · rcases hc with ⟨h2, _⟩ | ⟨k, hk, _, had, _, _, ⟨_, h2⟩ | ⟨hd, h2⟩⟩
    · rw [h2] at h; cases h
    · rw [h2] at h; cases h
      obtain ⟨hm, _⟩ := inv_entry s L hinv k hk
      refine ⟨L, k, r, inv_allocWhole s L hinv k hk, hk, rfl, hm, hr, h1, ?_, rfl, rfl, rfl,
        ?_, allocWhole_alloc s k⟩
      · show r + 8 ≤ upd s.mem (s.freeList k) ALLOC (s.freeList k + 4)
        rw [upd_ne _ _ _ _ (by omega)]
        exact had
      · show s.nFree - 1 ≤ s.nFree
        omega
    · rw [h2] at h; cases h
      obtain ⟨L1, L2, _, hi⟩ := inv_allocSplit s L hinv k r hk (by omega) h4 hd
      refine ⟨_, k, r, hi, hk, rfl, by simp, hr, h1, ?_, rfl, rfl, rfl, ?_,
        allocSplit_alloc s L hinv k r hk h4 hd⟩
      · show r + 8 ≤ upd (upd (upd (upd s.mem (s.freeList k) ALLOC) (s.freeList k + 4) (r + 8))
          (s.freeList k + (r + 8)) FREE) (s.freeList k + (r + 8) + 4)
          (s.mem (s.freeList k + 4) - (r + 8)) (s.freeList k + 4)
        rw [upd_ne _ _ _ _ (by omega), upd_ne _ _ _ _ (by omega), upd_eq]
      · show s.nFree - 1 + 1 ≤ s.nFree
        omega

/-! ## Lists of free-list entries -/

theorem mem_freeEntries (s : Heap) (a : Nat) :
    a ∈ freeEntries s ↔ InList s.freeList s.nFree a := by
  unfold freeEntries InList
  constructor
  · intro h
    obtain ⟨i, hi, e⟩ := List.mem_map.mp h
    exact ⟨i, List.mem_range.mp hi, e⟩
  · rintro ⟨i, hi, e⟩
    exact List.mem_map.mpr ⟨i, List.mem_range.mpr hi, e⟩

theorem freeEntries_sorted (s : Heap) (h : SortedUpTo s.freeList s.nFree) :
    (freeEntries s).Pairwise (fun a b => a < b) := by
  unfold freeEntries
  rw [List.pairwise_map]
  have := List.pairwise_lt_range s.nFree
  refine List.Pairwise.imp_of_mem ?_ this
  intro i j _ hj hij
  exact h i j hij (List.mem_range.mp hj)

theorem wholeFree_of (s : Heap) (L : List Nat) (hinv : Inv s L)
    (hno : NoAdjBelow s s.nFree) (hall : ∀ a, s.mem a ≠ ALLOC) : WholeFree s := by
  obtain ⟨h1, h2, h3, h4, h5⟩ := all_free_single s L hinv hno hall
  refine ⟨by rw [chunks_eq s L hinv, h1], h2, h3, h4, ?_⟩
  unfold freeEntries
  rw [h4]
  show [s.freeList 0] = [s.heapMem]
  rw [h5]

/-! ## Steps of concrete runs -/

theorem malloc_split_step (s : Heap) (hs : Reachable s) (n : Int) (r k : Nat)
    (hn : 1 ≤ n) (hr : r < 2147483648) (hr4 : r % 4 = 0)
    (hround : roundMultiple4 n = .ok (r : Int)) (hk : k < s.nFree)
    (hsfc : smallestFreeChunk s (r : Int) = .ok (s.freeList k))
    (hd : r + 40 ≤ s.mem (s.freeList k + 4)) :
    myMalloc s n = .ok (s.freeList k + 8, allocSplit s k r) := by
  obtain ⟨L, hinv⟩ := reachable_inv s hs
  exact myMalloc_split s L hinv n r k hn hr hr4 hround hk hsfc hd

theorem malloc_whole_step (s : Heap) (hs : Reachable s) (n : Int) (r k : Nat)
    (hn : 1 ≤ n) (hround : roundMultiple4 n = .ok (r : Int)) (hk : k < s.nFree)
    (hsfc : smallestFreeChunk s (r : Int) = .ok (s.freeList k))
    (had : r + 8 ≤ s.mem (s.freeList k + 4))
    (hd : s.mem (s.freeList k + 4) < r + 40) :
    myMalloc s n = .ok (s.freeList k + 8, allocWhole s k) := by
  obtain ⟨L, hinv⟩ := reachable_inv s hs
  exact myMalloc_whole s L hinv n r k hn hround hk hsfc had hd

theorem mergeLoop_idle : ∀ (fuel i : Nat) (s : Heap) (L : List Nat), Inv s L →
    NoAdjBelow s s.nFree → i ≤ s.nFree → s.nFree < fuel + i → mergeLoop fuel i s = .ok s := by
  intro fuel
  induction fuel with
  | zero => intro i s L _ _ hi hf; omega
  | succ fuel ih =>
    intro i s L hinv hno hi hf
    unfold mergeLoop
    by_cases hlt : i < s.nFree
    · rw [if_pos hlt, mergeBody_skip s L hinv i hlt (fun h1 => hno i hlt h1)]
      simp only []
      exact ih (i + 1) s L hinv hno (by omega) (by omega)
    · rw [if_neg hlt]

/-- A release after which no two entries of the free list are adjacent. -/
theorem free_idle_step (s : Heap) (hs : Reachable s) (fuel obj : Nat) (h8 : 8 ≤ obj)
    (hst : s.mem (obj - 8) = ALLOC) (hcap : s.nFree < s.freeElems)
    (hno : NoAdjBelow (freeMark s (obj - 8)) (s.nFree + 1)) (hfuel : s.nFree + 1 < fuel) :
    myFree fuel s obj = .ok (freeMark s (obj - 8)) := by
  obtain ⟨L, hinv⟩ := reachable_inv s hs
  have hm := hinv.alloc_live _ hst
  obtain ⟨v1, _⟩ := inv_valid s L hinv _ hm
  obtain ⟨_, hfe⟩ := inv_small s L hinv
  rw [myFree_eq s fuel obj h8 v1 hst hcap (by omega)]
  exact mergeLoop_idle fuel 0 _ L (inv_freeMark s L hinv _ hm hst hcap) hno (Nat.zero_le _)
    (by show s.nFree + 1 < fuel + 0; omega)

/-- A release that merges the first two entries of the free list and nothing else. -/
theorem free_merge_step (s : Heap) (hs : Reachable s) (fuel obj : Nat) (h8 : 8 ≤ obj)
    (hst : s.mem (obj - 8) = ALLOC) (hcap : s.nFree < s.freeElems) (h1 : 1 ≤ s.nFree)
    (hadj : (freeMark s (obj - 8)).freeList 0 +
      (freeMark s (obj - 8)).mem ((freeMark s (obj - 8)).freeList 0 + 4) =
      (freeMark s (obj - 8)).freeList 1)
    (hno : NoAdjBelow (mergeAt (freeMark s (obj - 8)) 0) s.nFree)
    (hfuel : s.nFree + 2 < fuel) :
    myFree fuel s obj = .ok (mergeAt (freeMark s (obj - 8)) 0) := by
  obtain ⟨L, hinv⟩ := reachable_inv s hs
  have hm := hinv.alloc_live _ hst
  obtain ⟨v1, _⟩ := inv_valid s L hinv _ hm
  obtain ⟨_, hfe⟩ := inv_small s L hinv
  rw [myFree_eq s fuel obj h8 v1 hst hcap (by omega)]
  have hinv1 := inv_freeMark s L hinv _ hm hst hcap
  have hn1 : (freeMark s (obj - 8)).nFree = s.nFree + 1 := rfl
  obtain ⟨L1, L2, _, hinv2⟩ := inv_mergeAt _ L hinv1 0 (by omega) hadj
  obtain ⟨f, rfl⟩ : ∃ f, fuel = f + 1 := ⟨fuel - 1, by omega⟩
  unfold mergeFreeChunks mergeLoop
  rw [if_pos (by omega), mergeBody_merge _ L hinv1 0 (by omega) hadj]
  simp only []
  exact mergeLoop_idle f 0 _ _ hinv2 hno (Nat.zero_le _)
    (by show s.nFree + 1 - 1 < f + 0; omega)

/-! ## Concrete runs -/

theorem reach_demoHeap : Reachable demoHeap :=
  Reachable.init 4096 1000 (some fun _ => 0) demoHeap (by decide) (by decide) (by decide) rfl

theorem demoHeap_malloc100 : myMalloc demoHeap 100 = .ok (1008, demoSplit) :=
  malloc_split_step demoHeap reach_demoHeap 100 100 0 (by decide) (by decide) (by decide) rfl
    (by decide) rfl (by decide)

theorem reach_demoSplit : Reachable demoSplit :=
  Reachable.malloc demoHeap 100 1008 demoSplit reach_demoHeap (by decide) (by decide)
    demoHeap_malloc100

theorem demoSplit_free : myFree 10 demoSplit 1008 = .ok (mergeAt (freeMark demoSplit 1000) 0) :=
  free_merge_step demoSplit reach_demoSplit 10 1008 (by decide) (by decide) (by decide)
    (by decide) (by decide) (fun j hj hj1 => by
      have h2 : j < 1 := hj
      have h3 : j + 1 < 1 := hj1
      omega) (by decide)

theorem demoHeap_malloc4088 : myMalloc demoHeap 4088 = .ok (1008, fullHeap) :=
  malloc_whole_step demoHeap reach_demoHeap 4088 4088 0 (by decide) rfl (by decide) rfl
    (by decide) (by decide)

theorem reach_fullHeap : Reachable fullHeap :=
  Reachable.malloc demoHeap 4088 1008 fullHeap reach_demoHeap (by decide) (by decide)
    demoHeap_malloc4088

theorem demoHeap_malloc4000 : myMalloc demoHeap 4000 = .ok (1008, bigSplit) :=
  malloc_split_step demoHeap reach_demoHeap 4000 4000 0 (by decide) (by decide) (by decide) rfl
    (by decide) rfl (by decide)

theorem reach_bigSplit : Reachable bigSplit :=
  Reachable.malloc demoHeap 4000 1008 bigSplit reach_demoHeap (by decide) (by decide)
    demoHeap_malloc4000

theorem bigSplit_malloc50 : myMalloc bigSplit 50 = .ok (5016, bigFull) :=
  malloc_whole_step bigSplit reach_bigSplit 50 52 0 (by decide) rfl (by decide) rfl
    (by decide) (by decide)

theorem demoHeap_malloc40 : myMalloc demoHeap 40 = .ok (1008, run1) :=
  malloc_split_step demoHeap reach_demoHeap 40 40 0 (by decide) (by decide) (by decide) rfl
    (by decide) rfl (by decide)

theorem reach_run1 : Reachable run1 :=
  Reachable.malloc demoHeap 40 1008 run1 reach_demoHeap (by decide) (by decide)
    demoHeap_malloc40

theorem run1_malloc40 : myMalloc run1 40 = .ok (1056, run2) :=
  malloc_split_step run1 reach_run1 40 40 0 (by decide) (by decide) (by decide) rfl
    (by decide) rfl (by decide)

theorem reach_run2 : Reachable run2 :=
  Reachable.malloc run1 40 1056 run2 reach_run1 (by decide) (by decide) run1_malloc40

theorem run2_malloc40 : myMalloc run2 40 = .ok (1104, run3) :=
  malloc_split_step run2 reach_run2 40 40 0 (by decide) (by decide) (by decide) rfl
    (by decide) rfl (by decide)

theorem reach_run3 : Reachable run3 :=
  Reachable.malloc run2 40 1104 run3 reach_run2 (by decide) (by decide) run2_malloc40

theorem run3_malloc40 : myMalloc run3 40 = .ok (1152, run4) :=
  malloc_split_step run3 reach_run3 40 40 0 (by decide) (by decide) (by decide) rfl
    (by decide) rfl (by decide)

theorem reach_run4 : Reachable run4 :=
  Reachable.malloc run3 40 1152 run4 reach_run3 (by decide) (by decide) run3_malloc40

theorem run4_free : myFree 10 run4 1008 = .ok run5 :=
  free_idle_step run4 reach_run4 10 1008 (by decide) (by decide) (by decide)
    (fun j hj hj1 => by
      have h2 : j < 2 := hj
      interval_cases j <;> decide) (by decide)

theorem reach_run5 : Reachable run5 := Reachable.free run4 10 1008 run5 reach_run4 run4_free

theorem run5_free : myFree 10 run5 1104 = .ok tieHeap :=
  free_idle_step run5 reach_run5 10 1104 (by decide) (by decide) (by decide)
    (fun j hj hj1 => by
      have h2 : j < 3 := hj
      interval_cases j <;> decide) (by decide)

theorem reach_tieHeap : Reachable tieHeap :=
  Reachable.free run5 10 1104 tieHeap reach_run5 run5_free

theorem tieHeap_select : smallestFreeChunk tieHeap 40 = .ok 1096 := rfl

/-! ## Fresh heaps -/

theorem initHeap_no_alloc (size : Int) (chunk : Nat) (list : Option (Nat → Nat)) (s : Heap)
    (h2 : size ≤ INT_MAX) (h : initHeap size chunk list = .ok s) :
    (∀ a, s.mem a ≠ ALLOC) ∧ s.nFree = 1 ∧ 128 ≤ s.freeElems := by
  obtain ⟨H, arr, hH1, hH2, hH3, hc, rfl⟩ := initHeap_shape size chunk list s h2 h
  refine ⟨fun a ha => ?_, rfl, ?_⟩
  · simp only [] at ha
    unfold ALLOC FREE at ha
    split_ifs at ha <;> omega
  · show 128 ≤ H / 32
    omega

/-- Releasing the only allocated chunk leaves one free chunk. -/
theorem free_last (s : Heap) (L : List Nat) (hinv : Inv s L) (x fuel : Nat)
    (hx : s.mem x = ALLOC) (hall : ∀ a, s.mem a = ALLOC → a = x)
    (hcap : s.nFree < s.freeElems) (hfuel : 2 * s.nFree + 2 < fuel) :
    ∃ s1, myFree fuel s (x + 8) = .ok s1 ∧ WholeFree s1 ∧ s1.heapMem = s.heapMem ∧
      s1.heapSize = s.heapSize := by
  obtain ⟨s1, h1⟩ := myFree_returns s L hinv fuel (x + 8) (by omega) hx hcap hfuel
  obtain ⟨L1, i1, n1, _, _, _, _, e1, e2, _, _, a1⟩ := myFree_spec s L hinv fuel (x + 8) s1 h1
  refine ⟨s1, h1, wholeFree_of s1 L1 i1 n1 (fun a ha => ?_), e1, e2⟩
  obtain ⟨b1, b2⟩ := (a1 a).mp ha
  exact b2 (by rw [hall a b1]; omega)

/-- Releasing the only two allocated chunks, one after the other, leaves one
free chunk. -/
theorem free_two (s : Heap) (L : List Nat) (hinv : Inv s L) (x y fuel : Nat)
    (hx : s.mem x = ALLOC) (hy : s.mem y = ALLOC) (hxy : x ≠ y)
    (hall : ∀ a, s.mem a = ALLOC → a = x ∨ a = y)
    (hcap : s.nFree + 1 < s.freeElems) (hfuel : 2 * s.nFree + 4 < fuel) :
    ∃ s1 s2, myFree fuel s (x + 8) = .ok s1 ∧ myFree fuel s1 (y + 8) = .ok s2 ∧
      WholeFree s2 ∧ s2.heapMem = s.heapMem ∧ s2.heapSize = s.heapSize := by
  obtain ⟨s1, h1⟩ := myFree_returns s L hinv fuel (x + 8) (by omega) hx (by omega) (by omega)
  obtain ⟨L1, i1, _, _, _, _, _, e1, e2, e3, e4, a1⟩ := myFree_spec s L hinv fuel (x + 8) s1 h1
  have hy1 : s1.mem y = ALLOC := (a1 y).mpr ⟨hy, by omega⟩
  obtain ⟨s2, h2, w, f1, f2⟩ := free_last s1 L1 i1 y fuel hy1
    (fun a ha => by
      obtain ⟨b1, b2⟩ := (a1 a).mp ha
      rcases hall a b1 with h | h
      · exact absurd (by rw [h]; omega) b2
      · exact h)
    (by omega) (by omega)
  exact ⟨s1, s2, h1, h2, w, by rw [f1, e1], by rw [f2, e2]⟩

/-! ## The claims -/

/-- C1: in a reachable heap, a call `myMalloc(n)` with `n ≥ 1` that returns hands
back the address just after the header of a chunk `c` of the heap: the pointer is
`c + sizeof(header)`, the chunk has status `ALLOC`, lies inside the Region, and
its size less the header is at least `n` rounded up to a multiple of 4, hence at
least `n`. -/
theorem myMalloc_returns_payload (s : Heap) (hs : Reachable s) (n : Int) (hn : 1 ≤ n)
    (hmax : n ≤ INT_MAX) (p : Nat) (s1 : Heap) (h : myMalloc s n = .ok (p, s1)) :
    ∃ c r : Nat, p = c + sizeofHeader ∧ c ∈ chunks s1 ∧ s1.mem c = ALLOC ∧
      s1.heapMem ≤ c ∧ c + s1.mem (c + 4) ≤ heapMaxAddr s1 ∧
      roundMultiple4 n = .ok (r : Int) ∧ r % 4 = 0 ∧ n ≤ (r : Int) ∧
      sizeofHeader ≤ s1.mem (c + 4) ∧ r ≤ s1.mem (c + 4) - sizeofHeader := by
  obtain ⟨L, hinv⟩ := reachable_inv s hs
  obtain ⟨L1, k, r, i1, _, hp, hm, hr, hnr, hsz, _, _, _, _, a1⟩ :=
    myMalloc_spec s L hinv n hn hmax p s1 h
  obtain ⟨_, _, b1, b2, _⟩ := inv_valid s1 L1 i1 _ hm
  have r4 := (roundMultiple4_spec n r (by omega) hmax hr).2.2.1
  refine ⟨s.freeList k, r, hp, by rw [chunks_eq s1 L1 i1]; exact hm, (a1 _).mpr (Or.inr rfl),
    b1, b2, hr, by omega, hnr, ?_, ?_⟩
  · unfold sizeofHeader; omega
  · unfold sizeofHeader; omega

/-- C1, on the heap of Scenario A: `myMalloc(100)` returns 1008, the payload of
the chunk at 1000. -/
theorem myMalloc_returns_payload_witness :
    Reachable demoHeap ∧ myMalloc demoHeap 100 = .ok (1008, demoSplit) ∧
    ∃ c r : Nat, 1008 = c + sizeofHeader ∧ c ∈ chunks demoSplit ∧ demoSplit.mem c = ALLOC ∧
      demoSplit.heapMem ≤ c ∧ c + demoSplit.mem (c + 4) ≤ heapMaxAddr demoSplit ∧
      roundMultiple4 100 = .ok (r : Int) ∧ r % 4 = 0 ∧ (100 : Int) ≤ (r : Int) ∧
      sizeofHeader ≤ demoSplit.mem (c + 4) ∧ r ≤ demoSplit.mem (c + 4) - sizeofHeader :=
  ⟨reach_demoHeap, demoHeap_malloc100,
    myMalloc_returns_payload demoHeap reach_demoHeap 100 (by decide) (by decide) 1008 demoSplit
      demoHeap_malloc100⟩

/-- C2: in every reachable heap the chunks that the traversal from `heapMem`
visits tile the Region: the first starts at `heapMem`, each ends where the next
starts, the last ends at `heapMem + heapSize`; the sizes add up to `heapSize`. -/
theorem reachable_tiling (s : Heap) (hs : Reachable s) :
    TilesRegion s s.heapMem (chunks s) ∧
      ((chunks s).map (fun c => s.mem (c + 4))).sum = s.heapSize := by
  obtain ⟨L, hinv⟩ := reachable_inv s hs
  rw [chunks_eq s L hinv]
  refine ⟨tiles_of_tiling s L _ hinv.tiles, ?_⟩
  have := tiling_sum _ _ L _ hinv.tiles
  unfold heapMaxAddr at this
  omega

/-- C2, on the heap reached by four allocations and two releases. -/
theorem reachable_tiling_witness :
    Reachable tieHeap ∧ chunks tieHeap = [1000, 1048, 1096, 1144, 1192] ∧
    TilesRegion tieHeap tieHeap.heapMem (chunks tieHeap) ∧
      ((chunks tieHeap).map (fun c => tieHeap.mem (c + 4))).sum = tieHeap.heapSize :=
  ⟨reach_tieHeap, by decide, reachable_tiling tieHeap reach_tieHeap⟩

/-- C3: in every reachable heap the first `nFree` entries of `freeList` are
strictly ascending, and an address is among them exactly when it is the address
of a chunk of the heap whose status is `FREE`. -/
theorem reachable_freeList (s : Heap) (hs : Reachable s) :
    (freeEntries s).Pairwise (fun a b => a < b) ∧
      ∀ a, a ∈ freeEntries s ↔ (a ∈ chunks s ∧ s.mem a = FREE) := by
  obtain ⟨L, hinv⟩ := reachable_inv s hs
  refine ⟨freeEntries_sorted s hinv.sorted, fun a => ?_⟩
  rw [chunks_eq s L hinv, mem_freeEntries]
  exact hinv.fl_iff a

/-- C3, on the heap reached by four allocations and two releases. -/
theorem reachable_freeList_witness :
    Reachable tieHeap ∧ freeEntries tieHeap = [1000, 1096, 1192] ∧
    (freeEntries tieHeap).Pairwise (fun a b => a < b) ∧
      ∀ a, a ∈ freeEntries tieHeap ↔ (a ∈ chunks tieHeap ∧ tieHeap.mem a = FREE) :=
  ⟨reach_tieHeap, by decide, reachable_freeList tieHeap reach_tieHeap⟩

/-- C4: when `myFree` returns on a reachable heap, no two chunks of the heap of
which one ends where the other begins are both `FREE`. -/
theorem myFree_no_adjacent_free (s : Heap) (hs : Reachable s) (fuel obj : Nat) (s1 : Heap)
    (h : myFree fuel s obj = .ok s1) : NoAdjacentFree s1 := by
  obtain ⟨L, hinv⟩ := reachable_inv s hs
  obtain ⟨L1, i1, n1, _⟩ := myFree_spec s L hinv fuel obj s1 h
  exact noAdjacentFree_of s1 L1 i1 n1

/-- C4, on the heap of Scenario B: the release of the block merges the two
chunks. -/
theorem myFree_no_adjacent_free_witness :
    Reachable demoSplit ∧
    myFree 10 demoSplit 1008 = .ok (mergeAt (freeMark demoSplit 1000) 0) ∧
    NoAdjacentFree (mergeAt (freeMark demoSplit 1000) 0) :=
  ⟨reach_demoSplit, demoSplit_free,
    myFree_no_adjacent_free demoSplit reach_demoSplit 10 1008 _ demoSplit_free⟩

/-- C5: on a freshly initialised heap, when `myMalloc(n)` with `n ≥ 1` returns
`p`, the call `myFree(p)` returns (given five loop iterations or more) and leaves
exactly one chunk, at offset 0, `FREE`, of size `heapSize`, which is the only
entry of the free list. -/
theorem malloc_free_roundtrip (size : Int) (chunk : Nat) (list : Option (Nat → Nat))
    (s0 : Heap) (hsize : size ≤ INT_MAX) (hal : chunk % 4 = 0)
    (hinit : initHeap size chunk list = .ok s0) (n : Int) (hn : 1 ≤ n) (hmax : n ≤ INT_MAX)
    (p : Nat) (s1 : Heap) (h : myMalloc s0 n = .ok (p, s1)) (fuel : Nat) (hfuel : 5 ≤ fuel) :
    ∃ s2, myFree fuel s1 p = .ok s2 ∧ WholeFree s2 ∧ s2.heapMem = s0.heapMem ∧
      s2.heapSize = s0.heapSize := by
  have hinv := initHeap_inv size chunk list s0 hsize hal hinit
  obtain ⟨hno, hn1, hfe⟩ := initHeap_no_alloc size chunk list s0 hsize hinit
  obtain ⟨L1, k, r, i1, _, hp, _, _, _, _, e1, e2, e3, e4, a1⟩ :=
    myMalloc_spec s0 _ hinv n hn hmax p s1 h
  obtain ⟨s2, h2, w, f1, f2⟩ := free_last s1 L1 i1 (s0.freeList k) fuel
    ((a1 _).mpr (Or.inr rfl))
    (fun a ha => ((a1 a).mp ha).resolve_left (hno a)) (by omega) (by omega)
  rw [← hp] at h2
  exact ⟨s2, h2, w, by rw [f1, e1], by rw [f2, e2]⟩

/-- C5, on the heap of Scenario A with `n = 100`. -/
theorem malloc_free_roundtrip_witness :
    initHeap 4096 1000 (some fun _ => 0) = .ok demoHeap ∧
    myMalloc demoHeap 100 = .ok (1008, demoSplit) ∧
    ∃ s2, myFree 5 demoSplit 1008 = .ok s2 ∧ WholeFree s2 ∧ s2.heapMem = demoHeap.heapMem ∧
      s2.heapSize = demoHeap.heapSize :=
  ⟨rfl, demoHeap_malloc100,
    malloc_free_roundtrip 4096 1000 (some fun _ => 0) demoHeap (by decide) (by decide) rfl 100
      (by decide) (by decide) 1008 demoSplit demoHeap_malloc100 5 (by decide)⟩

/-- C6: on a freshly initialised heap, when `myMalloc(a)` returns `p` and then
`myMalloc(b)` returns `q`, with `a, b ≥ 1`, releasing both pointers in either
order returns (given seven loop iterations or more) and ends with exactly one
chunk, at offset 0, `FREE`, of size `heapSize`, the only entry of the free list. -/
theorem two_block_recovery (size : Int) (chunk : Nat) (list : Option (Nat → Nat))
    (s0 : Heap) (hsize : size ≤ INT_MAX) (hal : chunk % 4 = 0)
    (hinit : initHeap size chunk list = .ok s0) (a b : Int) (ha : 1 ≤ a) (hb : 1 ≤ b)
    (hamax : a ≤ INT_MAX) (hbmax : b ≤ INT_MAX) (p : Nat) (s1 : Heap)
    (h1 : myMalloc s0 a = .ok (p, s1)) (q : Nat) (s2 : Heap)
    (h2 : myMalloc s1 b = .ok (q, s2)) (fuel : Nat) (hfuel : 7 ≤ fuel) :
    (∃ s3 s4, myFree fuel s2 p = .ok s3 ∧ myFree fuel s3 q = .ok s4 ∧ WholeFree s4 ∧
      s4.heapMem = s0.heapMem ∧ s4.heapSize = s0.heapSize) ∧
    (∃ s3 s4, myFree fuel s2 q = .ok s3 ∧ myFree fuel s3 p = .ok s4 ∧ WholeFree s4 ∧
      s4.heapMem = s0.heapMem ∧ s4.heapSize = s0.heapSize) := by
  have hinv := initHeap_inv size chunk list s0 hsize hal hinit
  obtain ⟨hno, hn1, hfe⟩ := initHeap_no_alloc size chunk list s0 hsize hinit
  obtain ⟨L1, k, r, i1, _, hp, _, _, _, _, e1, e2, e3, e4, a1⟩ :=
    myMalloc_spec s0 _ hinv a ha hamax p s1 h1
  obtain ⟨L2, k2, r2, i2, hk2, hq, _, _, _, _, g1, g2, g3, g4, a2⟩ :=
    myMalloc_spec s1 L1 i1 b hb hbmax q s2 h2
  have hx1 : s1.mem (s0.freeList k) = ALLOC := (a1 _).mpr (Or.inr rfl)
  have hne : s0.freeList k ≠ s1.freeList k2 := by
    intro he
    have := (inv_entry s1 L1 i1 k2 hk2).2
    rw [← he, hx1] at this
    exact alloc_ne_free this
  have hx : s2.mem (s0.freeList k) = ALLOC := (a2 _).mpr (Or.inl hx1)
  have hy : s2.mem (s1.freeList k2) = ALLOC := (a2 _).mpr (Or.inr rfl)
  have hall : ∀ c, s2.mem c = ALLOC → c = s0.freeList k ∨ c = s1.freeList k2 := by
    intro c hc
    rcases (a2 c).mp hc with h | h
    · exact Or.inl (((a1 c).mp h).resolve_left (hno c))
    · exact Or.inr h
  subst hp hq
  constructor
  · obtain ⟨s3, s4, f1, f2, w, f3, f4⟩ := free_two s2 L2 i2 _ _ fuel hx hy hne hall
      (by omega) (by omega)
    exact ⟨s3, s4, f1, f2, w, by rw [f3, g1, e1], by rw [f4, g2, e2]⟩
  · obtain ⟨s3, s4, f1, f2, w, f3, f4⟩ := free_two s2 L2 i2 _ _ fuel hy hx (Ne.symm hne)
      (fun c hc => (hall c hc).symm) (by omega) (by omega)
    exact ⟨s3, s4, f1, f2, w, by rw [f3, g1, e1], by rw [f4, g2, e2]⟩

/-- C6, Scenario C: a heap of 4096 bytes, `a = 4000`, `b = 50`. -/
theorem two_block_recovery_witness :
    initHeap 4096 1000 (some fun _ => 0) = .ok demoHeap ∧
    myMalloc demoHeap 4000 = .ok (1008, bigSplit) ∧
    myMalloc bigSplit 50 = .ok (5016, bigFull) ∧
    (∃ s3 s4, myFree 7 bigFull 1008 = .ok s3 ∧ myFree 7 s3 5016 = .ok s4 ∧ WholeFree s4 ∧
      s4.heapMem = demoHeap.heapMem ∧ s4.heapSize = demoHeap.heapSize) ∧
    (∃ s3 s4, myFree 7 bigFull 5016 = .ok s3 ∧ myFree 7 s3 1008 = .ok s4 ∧ WholeFree s4 ∧
      s4.heapMem = demoHeap.heapMem ∧ s4.heapSize = demoHeap.heapSize) :=
  ⟨rfl, demoHeap_malloc4000, bigSplit_malloc50,
    two_block_recovery 4096 1000 (some fun _ => 0) demoHeap (by decide) (by decide) rfl
      4000 50 (by decide) (by decide) (by decide) (by decide) 1008 bigSplit
      demoHeap_malloc4000 5016 bigFull bigSplit_malloc50 7 (by decide)⟩

theorem allocSplit_mem (s : Heap) (k r : Nat) :
    (allocSplit s k r).mem (s.freeList k) = ALLOC ∧
    (allocSplit s k r).mem (s.freeList k + 4) = r + 8 ∧
    (allocSplit s k r).mem (s.freeList k + (r + 8)) = FREE ∧
    (allocSplit s k r).mem (s.freeList k + (r + 8) + 4) =
      s.mem (s.freeList k + 4) - (r + 8) := by
  have hmem : (allocSplit s k r).mem =
      upd (upd (upd (upd s.mem (s.freeList k) ALLOC) (s.freeList k + 4) (r + 8))
        (s.freeList k + (r + 8)) FREE) (s.freeList k + (r + 8) + 4)
        (s.mem (s.freeList k + 4) - (r + 8)) := rfl
  refine ⟨?_, ?_, ?_, ?_⟩
  · rw [hmem, upd_ne _ _ _ _ (by omega), upd_ne _ _ _ _ (by omega), upd_ne _ _ _ _ (by omega),
      upd_eq]
  · rw [hmem, upd_ne _ _ _ _ (by omega), upd_ne _ _ _ _ (by omega), upd_eq]
  · rw [hmem, upd_ne _ _ _ _ (by omega), upd_eq]
  · rw [hmem, upd_eq]

theorem reachable_inv_sorted (s : Heap) (hs : Reachable s) :
    SortedUpTo s.freeList s.nFree := by
  obtain ⟨L, hinv⟩ := reachable_inv s hs
  exact hinv.sorted

theorem not_free_not_entry (s : Heap) (L : List Nat) (hinv : Inv s L) (a : Nat)
    (h : s.mem a = ALLOC) : a ∉ freeEntries s := by
  rw [mem_freeEntries, hinv.fl_iff]
  intro hc
  rw [h] at hc
  exact alloc_ne_free hc.2

/-- C7: the placement decision of `myMalloc` on a reachable heap.  Let `r` be `n`
rounded up to a multiple of 4 and `a` the chunk that `smallestFreeChunk(r)`
selects, of size `S`.  If `S - r - 8 < 32` the call returns `a + 8`, the chunk at
`a` is `ALLOC` with size `S`, `a` has left the free list and the chunks of the
heap are the same as before.  Otherwise the call returns `a + 8`, the chunk at
`a` is `ALLOC` with size `r + 8`, `a` has left the free list, and a chunk at
`a + r + 8`, `FREE` with size `S - r - 8`, follows it and is in the free list. -/
theorem myMalloc_placement (s : Heap) (hs : Reachable s) (n : Int) (hn : 1 ≤ n)
    (hmax : n ≤ INT_MAX) (r : Nat) (hround : roundMultiple4 n = .ok (r : Int)) (a : Nat)
    (hsel : smallestFreeChunk s (r : Int) = .ok a) :
    (s.mem (a + 4) < r + sizeofHeader + MIN_CHUNK →
      ∃ s1, myMalloc s n = .ok (a + sizeofHeader, s1) ∧ s1.mem a = ALLOC ∧
        s1.mem (a + 4) = s.mem (a + 4) ∧ a ∉ freeEntries s1 ∧ chunks s1 = chunks s) ∧
    (r + sizeofHeader + MIN_CHUNK ≤ s.mem (a + 4) →
      ∃ s1, myMalloc s n = .ok (a + sizeofHeader, s1) ∧ s1.mem a = ALLOC ∧
        s1.mem (a + 4) = r + sizeofHeader ∧ a ∉ freeEntries s1 ∧
        s1.mem (a + (r + sizeofHeader)) = FREE ∧
        s1.mem (a + (r + sizeofHeader) + 4) = s.mem (a + 4) - (r + sizeofHeader) ∧
        a + (r + sizeofHeader) ∈ freeEntries s1 ∧
        ∃ L1 L2, chunks s = L1 ++ a :: L2 ∧
          chunks s1 = L1 ++ a :: (a + (r + sizeofHeader)) :: L2) := by
  obtain ⟨L, hinv⟩ := reachable_inv s hs
  unfold sizeofHeader MIN_CHUNK
  rcases myMalloc_cases s L hinv n hn hmax with ⟨h1, h2, h3⟩ | ⟨r1, hr1, _, _, h4, hc⟩
  · exfalso
    rw [roundMultiple4_pos n (by omega), if_neg h2, if_pos h3] at hround
    cases hround
  · rw [hround] at hr1
    simp only [Except.ok.injEq, Nat.cast_inj] at hr1
    subst hr1
    rcases hc with ⟨h2, hall⟩ | ⟨k, hk, hsfc, had, _, _, hbr⟩
    · exfalso
      unfold INT_MAX at hmax
      rcases smallestFreeChunk_inv s L hinv r (by omega) with ⟨hx, _⟩ | ⟨k1, hk1, hx, had1, _⟩
      · rw [hsel] at hx; cases hx
      · have := hall k1 hk1
        omega
    · rw [hsel] at hsfc
      simp only [Except.ok.injEq] at hsfc
      subst hsfc
      constructor
      · intro hlt
        rcases hbr with ⟨_, hm⟩ | ⟨hge, _⟩
        · have i1 := inv_allocWhole s L hinv k hk
          have g0 : (allocWhole s k).mem (s.freeList k) = ALLOC := upd_eq _ _ _
          refine ⟨allocWhole s k, hm, g0, ?_, not_free_not_entry _ L i1 _ g0, ?_⟩
          · show upd s.mem (s.freeList k) ALLOC (s.freeList k + 4) = _
            rw [upd_ne _ _ _ _ (by omega)]
          · rw [chunks_eq _ L i1, chunks_eq s L hinv]
        · omega
      · intro hge
        rcases hbr with ⟨hlt, _⟩ | ⟨_, hm⟩
        · omega
        · obtain ⟨L1, L2, hL, i1⟩ := inv_allocSplit s L hinv k r hk (by omega) h4 (by omega)
          obtain ⟨g0, g1, g2, g3⟩ := allocSplit_mem s k r
          refine ⟨allocSplit s k r, hm, g0, g1, not_free_not_entry _ _ i1 _ g0, g2, g3, ?_,
            L1, L2, ?_, ?_⟩
          · rw [mem_freeEntries, i1.fl_iff]
            exact ⟨by simp, g2⟩
          · rw [chunks_eq s L hinv, hL]
          · rw [chunks_eq _ _ i1]

/-- C7, Scenario B: on a fresh heap of 4096 bytes `myMalloc(100)` returns the
payload at offset 8 and leaves one free chunk of 3988 bytes at offset 108. -/
theorem myMalloc_placement_witness :
    Reachable demoHeap ∧ roundMultiple4 100 = .ok 100 ∧
    smallestFreeChunk demoHeap 100 = .ok 1000 ∧
    ∃ s1, myMalloc demoHeap 100 = .ok (1008, s1) ∧ s1.mem 1000 = ALLOC ∧
      s1.mem 1004 = 108 ∧ 1000 ∉ freeEntries s1 ∧ s1.mem 1108 = FREE ∧
      s1.mem 1112 = 3988 ∧ 1108 ∈ freeEntries s1 ∧
      ∃ L1 L2, chunks demoHeap = L1 ++ 1000 :: L2 ∧ chunks s1 = L1 ++ 1000 :: 1108 :: L2 :=
  ⟨reach_demoHeap, rfl, rfl,
    (myMalloc_placement demoHeap reach_demoHeap 100 (by decide) (by decide) 100 rfl 1000
      rfl).2 (by decide)⟩

/-- C8: smallest-fit selection.  On a heap whose free-list entries are `FREE`
chunks, a chunk `c` that `smallestFreeChunk(r)` returns is an entry of the free
list, its size is at least `r` plus the header size, and no entry of the free
list whose size is at least `r` plus the header size is smaller than `c`. -/
theorem smallestFreeChunk_smallest_fit (s : Heap) (r : Nat) (hr : r ≤ 2147483647)
    (hH : s.heapSize < UINT_RANGE) (hfree : ∀ d, d ∈ freeEntries s → s.mem d = FREE)
    (c : Nat) (h : smallestFreeChunk s (r : Int) = .ok c) :
    c ∈ freeEntries s ∧ r + sizeofHeader ≤ s.mem (c + 4) ∧
      ∀ d, d ∈ freeEntries s → r + sizeofHeader ≤ s.mem (d + 4) →
        s.mem (c + 4) ≤ s.mem (d + 4) := by
  obtain ⟨j, hj, rfl, ⟨a1, a2, a3⟩, hmin, _⟩ := smallestFreeChunk_spec s (r : Int) hH c h
  have e : (toSizeT (r : Int) + sizeofHeaderPtr) % SIZE_RANGE = r + 8 := by
    rw [toSizeT_eq (r : Int) r rfl (by omega)]
    unfold sizeofHeaderPtr SIZE_RANGE
    omega
  unfold sizeofHeader
  rw [e] at a1
  refine ⟨(mem_freeEntries s _).mpr ⟨j, hj, rfl⟩, a1, fun d hd hsz => ?_⟩
  obtain ⟨j1, hj1, rfl⟩ := (mem_freeEntries s d).mp hd
  by_cases hbig : s.mem (s.freeList j1 + 4) ≤ s.heapSize
  · refine hmin j1 hj1 ⟨?_, hbig, hfree _ hd⟩
    rw [e]
    exact hsz
  · omega

/-- C8, on a heap with free chunks of 48, 48 and 3904 bytes and `r = 40`. -/
theorem smallestFreeChunk_smallest_fit_witness :
    freeEntries tieHeap = [1000, 1096, 1192] ∧ smallestFreeChunk tieHeap 40 = .ok 1096 ∧
    (1096 ∈ freeEntries tieHeap ∧ 40 + sizeofHeader ≤ tieHeap.mem (1096 + 4) ∧
      ∀ d, d ∈ freeEntries tieHeap → 40 + sizeofHeader ≤ tieHeap.mem (d + 4) →
        tieHeap.mem (1096 + 4) ≤ tieHeap.mem (d + 4)) :=
  ⟨by decide, rfl,
    smallestFreeChunk_smallest_fit tieHeap 40 (by decide) (by decide) (by decide) 1096 rfl⟩

/-- C9 as stated fails: on the reachable heap `tieHeap` the free chunks at 1000
and at 1096 both have the minimal adequate size of 48 bytes for `r = 40`, and
`smallestFreeChunk(40)` selects 1096, not the lower address 1000. -/
theorem tie_break_lowest_counterexample :
    ¬ (∀ (s : Heap) (r c d : Nat), Reachable s → smallestFreeChunk s (r : Int) = .ok c →
        d ∈ freeEntries s → r + sizeofHeader ≤ s.mem (d + 4) →
        s.mem (d + 4) = s.mem (c + 4) → c ≤ d) := by
  intro hall
  have := hall tieHeap 40 1096 1000 reach_tieHeap rfl (by decide) (by decide) (by decide)
  omega

/-- C9, amended: on a heap whose free list is address-ascending and holds `FREE`
chunks, when several adequate free chunks share the minimal size,
`smallestFreeChunk(r)` selects the one with the highest address, the one met last
in free-list order. -/
theorem smallestFreeChunk_tie_break_last (s : Heap) (r : Nat) (hr : r ≤ 2147483647)
    (hH : s.heapSize < UINT_RANGE) (hsorted : SortedUpTo s.freeList s.nFree)
    (hfree : ∀ d, d ∈ freeEntries s → s.mem d = FREE)
    (c : Nat) (h : smallestFreeChunk s (r : Int) = .ok c) :
    ∀ d, d ∈ freeEntries s → r + sizeofHeader ≤ s.mem (d + 4) →
      s.mem (d + 4) = s.mem (c + 4) → d ≤ c := by
  obtain ⟨j, hj, rfl, ⟨a1, a2, a3⟩, _, hlast⟩ := smallestFreeChunk_spec s (r : Int) hH c h
  have e : (toSizeT (r : Int) + sizeofHeaderPtr) % SIZE_RANGE = r + 8 := by
    rw [toSizeT_eq (r : Int) r rfl (by omega)]
    unfold sizeofHeaderPtr SIZE_RANGE
    omega
  intro d hd hsz heq
  obtain ⟨j1, hj1, rfl⟩ := (mem_freeEntries s d).mp hd
  rcases Nat.lt_trichotomy j1 j with hlt | heq1 | hgt
  · exact le_of_lt (hsorted j1 j hlt hj)
  · rw [heq1]
  · exfalso
    have := hlast j1 hgt hj1 ⟨by unfold sizeofHeader at hsz; rw [e]; exact hsz,
      by rw [heq]; exact a2, hfree _ hd⟩
    omega

/-- C9 amended, on `tieHeap`: the selected chunk 1096 is the higher of the two
chunks of 48 bytes. -/
theorem smallestFreeChunk_tie_break_last_witness :
    SortedUpTo tieHeap.freeList tieHeap.nFree ∧ smallestFreeChunk tieHeap 40 = .ok 1096 ∧
    tieHeap.mem (1000 + 4) = tieHeap.mem (1096 + 4) ∧
    ∀ d, d ∈ freeEntries tieHeap → 40 + sizeofHeader ≤ tieHeap.mem (d + 4) →
      tieHeap.mem (d + 4) = tieHeap.mem (1096 + 4) → d ≤ 1096 :=
  ⟨(reachable_inv_sorted tieHeap reach_tieHeap), rfl, by decide,
    smallestFreeChunk_tie_break_last tieHeap 40 (by decide) (by decide)
      (reachable_inv_sorted tieHeap reach_tieHeap) (by decide) 1096 rfl⟩

/-- C10: on a reachable heap, for `n ≥ 1` whose rounding to a multiple of 4 does
not overflow, with `r` the rounded size: `myMalloc(n)` ends in the exit of
`smallestFreeChunk` exactly when no entry of the free list has a size of at least
`r` plus the header size; the heap at the exit is the heap before the call; and
when some entry is that large the call returns. -/
theorem myMalloc_exhaustion_iff (s : Heap) (hs : Reachable s) (n : Int) (hn : 1 ≤ n)
    (hmax : n ≤ INT_MAX) (r : Nat) (hround : roundMultiple4 n = .ok (r : Int)) :
    ((∃ t, myMalloc s n = .error (.exhausted t)) ↔
      ∀ d, d ∈ freeEntries s → s.mem (d + 4) < r + sizeofHeader) ∧
    (∀ t, myMalloc s n = .error (.exhausted t) → t = s) ∧
    ((∃ d, d ∈ freeEntries s ∧ r + sizeofHeader ≤ s.mem (d + 4)) →
      ∃ p s1, myMalloc s n = .ok (p, s1)) := by
  obtain ⟨L, hinv⟩ := reachable_inv s hs
  unfold sizeofHeader
  rcases myMalloc_cases s L hinv n hn hmax with ⟨h1, h2, h3⟩ | ⟨r1, hr1, _, _, h4, hc⟩
  · exfalso
    rw [roundMultiple4_pos n (by omega), if_neg h2, if_pos h3] at hround
    cases hround
  · rw [hround] at hr1
    simp only [Except.ok.injEq, Nat.cast_inj] at hr1
    subst hr1
    rcases hc with ⟨h2, hall⟩ | ⟨k, hk, _, had, _, _, hbr⟩
    · have hall1 : ∀ d, d ∈ freeEntries s → s.mem (d + 4) < r + 8 := by
        intro d hd
        obtain ⟨j, hj, rfl⟩ := (mem_freeEntries s d).mp hd
        exact hall j hj
      refine ⟨⟨fun _ => hall1, fun _ => ⟨s, h2⟩⟩, fun t ht => ?_, ?_⟩
      · rw [h2] at ht
        simp only [Except.error.injEq, Fault.exhausted.injEq] at ht
        exact ht.symm
      · rintro ⟨d, hd, hsz⟩
        have := hall1 d hd
        omega
    · have hret : ∃ p s1, myMalloc s n = .ok (p, s1) := by
        rcases hbr with ⟨_, hm⟩ | ⟨_, hm⟩
        · exact ⟨_, _, hm⟩
        · exact ⟨_, _, hm⟩
      obtain ⟨p, s1, hm⟩ := hret
      refine ⟨⟨?_, ?_⟩, fun t ht => ?_, fun _ => ⟨p, s1, hm⟩⟩
      · rintro ⟨t, ht⟩
        rw [hm] at ht
        cases ht
      · intro hall
        have := hall _ ((mem_freeEntries s _).mpr ⟨k, hk, rfl⟩)
        omega
      · rw [hm] at ht
        cases ht

/-- C10, on the heap whose whole Region is allocated: `myMalloc(1)` exits and
leaves the heap as it was. -/
theorem myMalloc_exhaustion_iff_witness :
    Reachable fullHeap ∧ freeEntries fullHeap = [] ∧
    myMalloc fullHeap 1 = .error (.exhausted fullHeap) :=
  ⟨reach_fullHeap, by decide,
    by
      obtain ⟨t, ht⟩ := (myMalloc_exhaustion_iff fullHeap reach_fullHeap 1 (by decide)
        (by decide) 4 rfl).1.mpr (by decide)
      have := (myMalloc_exhaustion_iff fullHeap reach_fullHeap 1 (by decide)
        (by decide) 4 rfl).2.1 t ht
      rw [this] at ht
      exact ht⟩

/-! ## Results of concrete calls -/

theorem returnsWith_elim (r : Except Fault Heap) (P : Heap → Bool)
    (h : returnsWith r P = true) : ∃ s, r = .ok s ∧ P s = true := by
  cases r with
  | error f => simp [returnsWith] at h
  | ok s => exact ⟨s, rfl, h⟩

/-! ## Invalid sizes and invalid releases -/

/-- C11: for every heap and every size below 1, `myMalloc` returns `NULL` and
the heap after the call is the heap before it: no chunk header, no entry of the
free list and not `nFree` has changed. -/
theorem myMalloc_invalid_size (s : Heap) (n : Int) (hn : n < 1) :
    myMalloc s n = .ok (0, s) :=
  myMalloc_null s n hn

/-- C11, on the heap of Scenario A with the sizes 0 and -5. -/
theorem myMalloc_invalid_size_witness :
    myMalloc demoHeap 0 = .ok (0, demoHeap) ∧ myMalloc demoHeap (-5) = .ok (0, demoHeap) :=
  ⟨myMalloc_invalid_size demoHeap 0 (by decide), myMalloc_invalid_size demoHeap (-5) (by decide)⟩

/-- Releases keep the block where it is and never turn a status word into `ALLOC`. -/
theorem freeRun_keeps (s1 s2 : Heap) (h : FreeRun s1 s2) (hs : Reachable s1) :
    Reachable s2 ∧ s2.heapMem = s1.heapMem ∧ s2.heapSize = s1.heapSize ∧
      ∀ a, s2.mem a = ALLOC → s1.mem a = ALLOC := by
  induction h with
  | refl => exact ⟨hs, rfl, rfl, fun _ h => h⟩
  | step s3 s4 fuel obj _ hf ih =>
    obtain ⟨r3, e1, e2, a3⟩ := ih
    obtain ⟨L, hinv⟩ := reachable_inv s3 r3
    obtain ⟨_, _, _, _, _, _, _, f1, f2, _, _, a4⟩ := myFree_spec s3 L hinv fuel obj s4 hf
    exact ⟨Reachable.free s3 fuel obj s4 r3 hf, by rw [f1, e1], by rw [f2, e2],
      fun a h => a3 a ((a4 a).mp h).1⟩

/-- C12: on a reachable heap `myFree(NULL)` ends in the usage exit; and once
`myFree(p)` has returned, a second `myFree(p)` ends in the usage exit, whether it
comes at once or after any number of returning `myFree` calls on other blocks,
as long as no `myMalloc` comes between.  In both cases the heap at the exit is
the heap before the failing call. -/
theorem myFree_null_and_double (s : Heap) (hs : Reachable s) :
    (∀ fuel, myFree fuel s 0 = .error (.usage s)) ∧
    (∀ fuel obj s1, myFree fuel s obj = .ok s1 → ∀ s2, FreeRun s1 s2 →
      ∀ fuel2, myFree fuel2 s2 obj = .error (.usage s2)) := by
  refine ⟨fun fuel => by unfold myFree; rw [if_pos rfl], ?_⟩
  intro fuel obj s1 h s2 hrun fuel2
  obtain ⟨L, hinv⟩ := reachable_inv s hs
  obtain ⟨_, _, _, h8, hst, hm, _, e1, e2, _, _, a1⟩ := myFree_spec s L hinv fuel obj s1 h
  obtain ⟨v1, _⟩ := inv_valid s L hinv _ hm
  obtain ⟨r2, g1, g2, g3⟩ := freeRun_keeps s1 s2 hrun (Reachable.free s fuel obj s1 hs h)
  obtain ⟨L2, i2⟩ := reachable_inv s2 r2
  have hne : s2.mem (obj - 8) ≠ ALLOC := fun hc => ((a1 _).mp (g3 _ hc)).2 rfl
  have v2 : validWord s2 (obj - 8) := by
    unfold validWord blockEnd at v1 ⊢
    rw [g1, g2, e1, e2]
    exact v1
  rcases myFree_cases s2 L2 i2 fuel2 obj with ⟨h0, _⟩ | ⟨_, hbad, _⟩ | ⟨_, _, _, hr⟩ |
    ⟨_, hc, _⟩ | ⟨_, hc, _⟩
  · omega
  · rcases hbad with hb | hb
    · omega
    · exact absurd v2 hb
  · exact hr
  · exact absurd hc hne
  · exact absurd hc hne

/-- C12, on the heap with allocated chunks at 1000, 1048, 1096 and 1144: the
block at 1008 is released; a second release of it ends in the usage exit, at
once and also after the release of the block at 1104. -/
theorem myFree_null_and_double_witness :
    Reachable run4 ∧
    myFree 10 run4 0 = .error (.usage run4) ∧
    myFree 10 run4 1008 = .ok run5 ∧
    myFree 10 run5 1008 = .error (.usage run5) ∧
    myFree 10 run5 1104 = .ok tieHeap ∧
    myFree 10 tieHeap 1008 = .error (.usage tieHeap) :=
  ⟨reach_run4, (myFree_null_and_double run4 reach_run4).1 10, run4_free,
    (myFree_null_and_double run4 reach_run4).2 10 1008 run5 run4_free run5
      (FreeRun.refl run5) 10,
    run5_free,
    (myFree_null_and_double run4 reach_run4).2 10 1008 run5 run4_free tieHeap
      (FreeRun.step run5 run5 tieHeap 10 1104 (FreeRun.refl run5) run5_free) 10⟩

/-- C13 fails on the code: in the heap of Scenario B the caller holds the block
of the chunk at 1000 (payload from 1008 to 1107) and has stored `0x55555555` in
its first word.  The address 1016 lies in the middle of that payload, yet
`myFree(1016)` returns: it has marked the word at 1008 `FREE` and put 1008, which
is no chunk of the heap, in the free list. -/
theorem myFree_mid_block_returns :
    Reachable demoSplit ∧ chunks scribbled = [1000, 1108] ∧ scribbled.mem 1000 = ALLOC ∧
    scribbled.mem (1000 + 4) = 108 ∧ scribbled.nFree = 1 ∧
    ∃ s1, myFree 10 scribbled 1016 = .ok s1 ∧ s1.nFree = 2 ∧
      freeEntries s1 = [1008, 1108] ∧ s1.mem 1008 = FREE := by
  refine ⟨reach_demoSplit, by decide, by decide, by decide, by decide, ?_⟩
  obtain ⟨s1, h1, h2⟩ := returnsWith_elim (myFree 10 scribbled 1016)
    (fun s1 => decide (s1.nFree = 2) && decide (freeEntries s1 = [1008, 1108]) &&
      decide (s1.mem 1008 = FREE)) (by decide)
  simp only [Bool.and_eq_true, decide_eq_true_eq] at h2
  exact ⟨s1, h1, h2.1.1, h2.1.2, h2.2⟩

/-! ## The free list as an array -/

/-- C18 fails on the code: `deleteFromList` searches the indices `0` to `nFree`
inclusive.  After `insertToList(2000)` and `deleteFromList(2000)` on the free
list of Scenario A the only entry in use is 1000 and the value 2000 is left at
index 1; a second `deleteFromList(2000)` finds it there and decrements `nFree` to
0, which drops the entry 1000. -/
theorem deleteFromList_miss_drops_entry :
    insertToList demoHeap 2000 = .ok listTwo ∧ deleteFromList listTwo 2000 = .ok listStale ∧
    listStale.nFree = 1 ∧ freeEntries listStale = [1000] ∧ 2000 ∉ freeEntries listStale ∧
    ∃ s1, deleteFromList listStale 2000 = .ok s1 ∧ s1.nFree = 0 ∧ freeEntries s1 = [] := by
  refine ⟨insertToList_ok demoHeap 2000 (by decide) (by decide),
    deleteFromList_ok listTwo 1 (by decide) (by decide) ?_ (by decide),
    by decide, by decide, by decide, ?_⟩
  · intro i j hij hj
    have h2 : j < 2 := hj
    have e0 : i = 0 := by omega
    have e1 : j = 1 := by omega
    subst e0 e1
    decide
  · obtain ⟨s1, h1, h2⟩ := returnsWith_elim (deleteFromList listStale 2000)
      (fun s1 => decide (s1.nFree = 0) && decide (freeEntries s1 = [])) (by decide)
    simp only [Bool.and_eq_true, decide_eq_true_eq] at h2
    exact ⟨s1, h1, h2.1, h2.2⟩

theorem searchAux_correct (s : Heap) (a : Nat) (hcap : s.freeElems ≤ 1073741824) :
    ∀ (d : Nat) (lo hi : Int), 0 ≤ lo → hi < (s.freeElems : Int) → hi + 1 - lo ≤ (d : Int) →
      (∀ i j : Nat, lo ≤ (i : Int) → i < j → (j : Int) ≤ hi → s.freeList i < s.freeList j) →
      (∃ i : Nat, lo ≤ (i : Int) ∧ (i : Int) ≤ hi ∧ s.freeList i = a ∧
        searchAux s a d lo hi = .ok (i : Int)) ∨
      ((∀ i : Nat, lo ≤ (i : Int) → (i : Int) ≤ hi → s.freeList i ≠ a) ∧
        searchAux s a d lo hi = .ok (-1)) := by
  intro d
  induction d with
  | zero =>
    intro lo hi _ _ hd _
    right
    refine ⟨fun i h1 h2 => by omega, ?_⟩
    unfold searchAux
    rw [if_pos (by omega)]
  | succ d ih =>
    intro lo hi h0 hhi hd hasc
    unfold searchAux
    by_cases hlt : hi < lo
    · right
      rw [if_pos hlt]
      exact ⟨fun i h1 h2 => by omega, rfl⟩
    · rw [if_neg hlt, if_neg (by unfold INT_MIN INT_MAX; omega)]
      simp only []
      rw [tdiv_two _ (by omega)]
      obtain ⟨m, hm⟩ : ∃ m : Nat, (lo + hi) / 2 = (m : Int) := ⟨((lo + hi) / 2).toNat, by omega⟩
      rw [hm, readList_ok s (m : Int) m rfl (by omega)]
      simp only []
      by_cases heq : a = s.freeList m
      · left
        rw [if_pos heq]
        exact ⟨m, by omega, by omega, heq.symm, rfl⟩
      · rw [if_neg heq]
        by_cases hgt : a > s.freeList m
        · rw [if_pos hgt]
          rcases ih ((m : Int) + 1) hi (by omega) hhi (by omega)
            (fun i j h1 h2 h3 => hasc i j (by omega) h2 h3) with ⟨i, h1, h2, h3, h4⟩ | ⟨h1, h2⟩
          · left; exact ⟨i, by omega, h2, h3, h4⟩
          · right
            refine ⟨fun i hi1 hi2 => ?_, h2⟩
            by_cases him : (m : Int) + 1 ≤ (i : Int)
            · exact h1 i him hi2
            · by_cases hie : i = m
              · rw [hie]; omega
              · have := hasc i m hi1 (by omega) (by omega)
                omega
        · rw [if_neg hgt]
          rcases ih lo ((m : Int) - 1) h0 (by omega) (by omega)
            (fun i j h1 h2 h3 => hasc i j h1 h2 (by omega)) with ⟨i, h1, h2, h3, h4⟩ | ⟨h1, h2⟩
          · left; exact ⟨i, h1, by omega, h3, h4⟩
          · right
            refine ⟨fun i hi1 hi2 => ?_, h2⟩
            by_cases him : (i : Int) ≤ (m : Int) - 1
            · exact h1 i hi1 him
            · by_cases hie : i = m
              · rw [hie]; omega
              · have := hasc m i (by omega) (by omega) hi2
                omega

theorem searchAux_mem (s : Heap) (a : Nat) (m : Nat → Nat) :
    ∀ (d : Nat) (lo hi : Int),
      searchAux { s with mem := m } a d lo hi = searchAux s a d lo hi := by
  intro d
  induction d with
  | zero => intro lo hi; rfl
  | succ d ih =>
    intro lo hi
    unfold searchAux
    have e : ∀ z, readList { s with mem := m } z = readList s z := fun _ => rfl
    simp only [e, ih]

/-- C19: binary search.  On an array of at most `2 ^ 30` entries that is strictly
ascending on the indices `lo` to `hi` inclusive, `search(a, lo, hi)` returns: an
index `i` with `lo ≤ i ≤ hi` and `freeList[i] = a` when there is one, and `-1`
when `a` occurs nowhere on `lo` to `hi`.  The result does not depend on the
contents of memory: only addresses are compared. -/
theorem search_correct (s : Heap) (a : Nat) (lo hi : Int) (hlo : 0 ≤ lo)
    (hhi : hi < (s.freeElems : Int)) (hcap : s.freeElems ≤ 1073741824)
    (hasc : ∀ i j : Nat, lo ≤ (i : Int) → i < j → (j : Int) ≤ hi →
      s.freeList i < s.freeList j) :
    ((∃ i : Nat, lo ≤ (i : Int) ∧ (i : Int) ≤ hi ∧ s.freeList i = a ∧
      search s a lo hi = .ok (i : Int)) ∨
    ((∀ i : Nat, lo ≤ (i : Int) → (i : Int) ≤ hi → s.freeList i ≠ a) ∧
      search s a lo hi = .ok (-1))) ∧
    ∀ m : Nat → Nat, search { s with mem := m } a lo hi = search s a lo hi := by
  refine ⟨?_, fun m => searchAux_mem s a m _ lo hi⟩
  unfold search
  exact searchAux_correct s a hcap _ lo hi hlo hhi (by omega) hasc

theorem tieHeap_ascending (i j : Nat) (_h1 : (0 : Int) ≤ (i : Int)) (h2 : i < j)
    (h3 : (j : Int) ≤ 2) : tieHeap.freeList i < tieHeap.freeList j := by
  have hj : j ≤ 2 := by omega
  interval_cases j <;> interval_cases i <;> first | omega | decide

/-- C19, on the free list 1000, 1096, 1192 of `tieHeap`, for an address that is
there and one that is not. -/
theorem search_correct_witness :
    search tieHeap 1096 0 2 = .ok 1 ∧ search tieHeap 1100 0 2 = .ok (-1) ∧
    (((∃ i : Nat, (0 : Int) ≤ (i : Int) ∧ (i : Int) ≤ 2 ∧ tieHeap.freeList i = 1096 ∧
      search tieHeap 1096 0 2 = .ok (i : Int)) ∨
    ((∀ i : Nat, (0 : Int) ≤ (i : Int) → (i : Int) ≤ 2 → tieHeap.freeList i ≠ 1096) ∧
      search tieHeap 1096 0 2 = .ok (-1))) ∧
    ∀ m : Nat → Nat, search { tieHeap with mem := m } 1096 0 2 = search tieHeap 1096 0 2) :=
  ⟨rfl, rfl, search_correct tieHeap 1096 0 2 (by decide) (by decide) (by decide)
    tieHeap_ascending⟩

/-! ## Ordered insertion -/

theorem sortedUpTo_of_pairwise (s : Heap)
    (h : (freeEntries s).Pairwise (fun a b => a < b)) : SortedUpTo s.freeList s.nFree := by
  intro i j hij hj
  unfold freeEntries at h
  rw [List.pairwise_iff_getElem] at h
  have := h i j (by simp; omega) (by simp; omega) hij
  simpa using this

theorem pairwise_nodup (l : List Nat) (h : l.Pairwise (fun a b => a < b)) : l.Nodup :=
  List.Pairwise.imp (fun hab => Nat.ne_of_lt hab) h

/-- C20: ordered insert.  On a free list that is strictly ascending, with fewer
entries than the array holds (an array of at most `2 ^ 30` entries), and for an
address `a` that is not in it, `insertToList(a)` returns; the free list then has
one entry more, is strictly ascending, consists of `a` and the old entries, each
once, and keeps the old entries in their order.  Memory is not written. -/
theorem insertToList_ordered (s : Heap) (a : Nat) (hcap : s.freeElems ≤ 1073741824)
    (hn : s.nFree < s.freeElems) (hasc : (freeEntries s).Pairwise (fun a b => a < b))
    (hnew : a ∉ freeEntries s) :
    ∃ s1, insertToList s a = .ok s1 ∧ s1.nFree = s.nFree + 1 ∧
      (freeEntries s1).Pairwise (fun a b => a < b) ∧
      (freeEntries s1).Perm (a :: freeEntries s) ∧
      (freeEntries s).Sublist (freeEntries s1) ∧ s1.mem = s.mem := by
  have hs := sortedUpTo_of_pairwise s hasc
  have hnew1 : ¬ InList s.freeList s.nFree a := fun h => hnew ((mem_freeEntries s a).mpr h)
  have hs1 := sortedUpTo_insertAt s.freeList a s.nFree hs hnew1
  refine ⟨_, insertToList_ok s a hn (by omega), rfl, ?_, ?_, ?_, rfl⟩
  · exact freeEntries_sorted _ hs1
  · refine (List.perm_ext_iff_of_nodup (pairwise_nodup _ (freeEntries_sorted _ hs1))
      (List.nodup_cons.mpr ⟨hnew, pairwise_nodup _ hasc⟩)).mpr (fun x => ?_)
    rw [mem_freeEntries, List.mem_cons, mem_freeEntries]
    exact inList_insertAt s.freeList a s.nFree x
  · have sub : (freeEntries s).Subperm
        (freeEntries { s with freeList := insertAt s.freeList a s.nFree,
                              nFree := s.nFree + 1 }) := by
      refine List.subperm_of_subset (pairwise_nodup _ hasc) (fun x hx => ?_)
      rw [mem_freeEntries] at hx ⊢
      exact (inList_insertAt s.freeList a s.nFree x).mpr (Or.inr hx)
    exact List.sublist_of_subperm_of_sorted sub hasc (freeEntries_sorted _ hs1)

/-- C20, on the free list 1000, 1096, 1192 of `tieHeap` with the address 1100. -/
theorem insertToList_ordered_witness :
    freeEntries tieHeap = [1000, 1096, 1192] ∧
    ∃ s1, insertToList tieHeap 1100 = .ok s1 ∧ s1.nFree = tieHeap.nFree + 1 ∧
      (freeEntries s1).Pairwise (fun a b => a < b) ∧
      (freeEntries s1).Perm (1100 :: freeEntries tieHeap) ∧
      (freeEntries tieHeap).Sublist (freeEntries s1) ∧ s1.mem = tieHeap.mem :=
  ⟨by decide, insertToList_ordered tieHeap 1100 (by decide) (by decide) (by decide) (by decide)⟩

/-! ## Sizes of the chunks that a split produces -/

/-- The split branch of `myMalloc`, with the chunk that `smallestFreeChunk` selects. -/
theorem myMalloc_split_of_select (s : Heap) (hs : Reachable s) (n : Int) (hn : 1 ≤ n)
    (hmax : n ≤ INT_MAX) (r : Nat) (hround : roundMultiple4 n = .ok (r : Int)) (a : Nat)
    (hsel : smallestFreeChunk s (r : Int) = .ok a) (hge : r + 40 ≤ s.mem (a + 4)) :
    ∃ k, k < s.nFree ∧ a = s.freeList k ∧ r % 4 = 0 ∧ 4 ≤ r ∧
      myMalloc s n = .ok (a + 8, allocSplit s k r) := by
  obtain ⟨L, hinv⟩ := reachable_inv s hs
  obtain ⟨h1, h2, h3, h4⟩ := roundMultiple4_spec n r (by omega) hmax hround
  unfold INT_MAX at hmax h4
  rcases smallestFreeChunk_inv s L hinv r (by omega) with ⟨hx, _⟩ | ⟨k, hk, hx, _⟩
  · rw [hsel] at hx; cases hx
  · rw [hsel] at hx
    simp only [Except.ok.injEq] at hx
    subst hx
    exact ⟨k, hk, rfl, by omega, by omega,
      myMalloc_split s L hinv n r k hn (by omega) (by omega) hround hk hsel hge⟩

/-- C16 as stated fails: on the heap of Scenario A `myMalloc(1)` splits the free
chunk, and the served lower chunk has 12 bytes, fewer than
`sizeof(header) + MIN_CHUNK = 40`. -/
theorem split_chunk_min_size_counterexample :
    ¬ (∀ (s : Heap) (n : Int) (r a p : Nat) (s1 : Heap), Reachable s → 1 ≤ n → n ≤ INT_MAX →
        roundMultiple4 n = .ok (r : Int) → smallestFreeChunk s (r : Int) = .ok a →
        r + sizeofHeader + MIN_CHUNK ≤ s.mem (a + 4) → myMalloc s n = .ok (p, s1) →
        sizeofHeader + MIN_CHUNK ≤ s1.mem (a + 4) ∧
        sizeofHeader + MIN_CHUNK ≤ s1.mem (a + (r + sizeofHeader) + 4)) := by
  intro hall
  have hm : myMalloc demoHeap 1 = .ok (1008, tinySplit) :=
    malloc_split_step demoHeap reach_demoHeap 1 4 0 (by decide) (by decide) (by decide) rfl
      (by decide) rfl (by decide)
  have := (hall demoHeap 1 4 1000 1008 tinySplit reach_demoHeap (by decide) (by decide) rfl rfl
    (by decide) hm).1
  revert this
  decide

/-- C16, amended: when `myMalloc` splits the selected chunk on a reachable heap,
the served lower chunk has status `ALLOC` and exactly `r + sizeof(header)` bytes,
with `r` the request rounded up to a multiple of 4, hence at least 12 bytes. -/
theorem split_chunk_sizes (s : Heap) (hs : Reachable s) (n : Int) (hn : 1 ≤ n)
    (hmax : n ≤ INT_MAX) (r : Nat) (hround : roundMultiple4 n = .ok (r : Int)) (a : Nat)
    (hsel : smallestFreeChunk s (r : Int) = .ok a)
    (hge : r + sizeofHeader + MIN_CHUNK ≤ s.mem (a + 4)) :
    ∃ s1, myMalloc s n = .ok (a + sizeofHeader, s1) ∧ s1.mem a = ALLOC ∧
      s1.mem (a + 4) = r + sizeofHeader ∧ sizeofHeader + 4 ≤ s1.mem (a + 4) := by
  unfold sizeofHeader MIN_CHUNK at *
  obtain ⟨k, hk, rfl, _, h4, hm⟩ :=
    myMalloc_split_of_select s hs n hn hmax r hround a hsel (by omega)
  obtain ⟨g0, g1, _, _⟩ := allocSplit_mem s k r
  exact ⟨allocSplit s k r, hm, g0, g1, by rw [g1]; omega⟩

/-- C16 amended, on the heap of Scenario A with `n = 100`: the served chunk at
1000 has 108 bytes. -/
theorem split_chunk_sizes_witness :
    Reachable demoHeap ∧ roundMultiple4 100 = .ok 100 ∧
    smallestFreeChunk demoHeap 100 = .ok 1000 ∧
    100 + sizeofHeader + MIN_CHUNK ≤ demoHeap.mem (1000 + 4) ∧
    ∃ s1, myMalloc demoHeap 100 = .ok (1000 + sizeofHeader, s1) ∧ s1.mem 1000 = ALLOC ∧
      s1.mem (1000 + 4) = 100 + sizeofHeader ∧ sizeofHeader + 4 ≤ s1.mem (1000 + 4) :=
  ⟨reach_demoHeap, rfl, rfl, by decide,
    split_chunk_sizes demoHeap reach_demoHeap 100 (by decide) (by decide) 100 rfl 1000 rfl
      (by decide)⟩

/-! ## Allocated chunks are left alone -/

theorem inv_apart (s : Heap) (L : List Nat) (hinv : Inv s L) (c d : Nat) (hc : c ∈ L)
    (hd : d ∈ L) (hne : c ≠ d) : c + 4 ≠ d ∧ c ≠ d + 4 ∧ c + 4 ≠ d + 4 := by
  obtain ⟨_, _, _, _, _, _, h12, _⟩ := inv_valid s L hinv _ hc
  obtain ⟨_, _, _, _, _, _, h12d, _⟩ := inv_valid s L hinv _ hd
  rcases Nat.lt_or_gt_of_ne hne with h | h
  · have := tiling_no_inside _ _ _ _ hinv.tiles _ _ hc hd h
    omega
  · have := tiling_no_inside _ _ _ _ hinv.tiles _ _ hd hc h
    omega

theorem mergeLoop_frame : ∀ (fuel i : Nat) (s : Heap) (L : List Nat) (s1 : Heap), Inv s L →
    mergeLoop fuel i s = .ok s1 → ∀ c, c ∈ L → s.mem c = ALLOC →
      s1.mem c = ALLOC ∧ s1.mem (c + 4) = s.mem (c + 4) ∧ c ∈ chunks s1 := by
  intro fuel
  induction fuel with
  | zero => intro i s L s1 _ h; simp [mergeLoop] at h
  | succ fuel ih =>
    intro i s L s1 hinv h c hc hst
    unfold mergeLoop at h
    by_cases hlt : i < s.nFree
    · rw [if_pos hlt] at h
      by_cases hadj : i + 1 < s.nFree ∧
          s.freeList i + s.mem (s.freeList i + 4) = s.freeList (i + 1)
      · obtain ⟨h1, h2⟩ := hadj
        rw [mergeBody_merge s L hinv i h1 h2] at h
        simp only [] at h
        obtain ⟨L1, L2, hL, hinv1⟩ := inv_mergeAt s L hinv i h1 h2
        obtain ⟨hm, hf⟩ := inv_entry s L hinv i (by omega)
        obtain ⟨hm1, hf1⟩ := inv_entry s L hinv (i + 1) h1
        have n0 : c ≠ s.freeList i := by
          intro e; rw [e, hf] at hst; exact alloc_ne_free hst.symm
        have n1 : c ≠ s.freeList (i + 1) := by
          intro e; rw [e, hf1] at hst; exact alloc_ne_free hst.symm
        obtain ⟨_, a2, a3⟩ := inv_apart s L hinv c _ hc hm n0
        have e0 : (mergeAt s i).mem c = s.mem c := upd_ne _ _ _ _ a2
        have e1 : (mergeAt s i).mem (c + 4) = s.mem (c + 4) := upd_ne _ _ _ _ a3
        have hc1 : c ∈ L1 ++ s.freeList i :: L2 := by
          rw [hL] at hc
          simp only [List.mem_append, List.mem_cons] at hc ⊢
          rcases hc with h | h | h | h
          · exact Or.inl h
          · exact Or.inr (Or.inl h)
          · exact absurd h n1
          · exact Or.inr (Or.inr h)
        obtain ⟨r1, r2, r3⟩ := ih i (mergeAt s i) _ s1 hinv1 h c hc1 (by rw [e0]; exact hst)
        exact ⟨r1, by rw [r2, e1], r3⟩
      · rw [mergeBody_skip s L hinv i hlt (fun h1 h2 => hadj ⟨h1, h2⟩)] at h
        simp only [] at h
        exact ih (i + 1) s L s1 hinv h c hc hst
    · rw [if_neg hlt] at h
      cases h
      exact ⟨hst, rfl, by rw [chunks_eq s L hinv]; exact hc⟩

theorem myFree_frame (s : Heap) (L : List Nat) (hinv : Inv s L) (fuel obj : Nat) (s1 : Heap)
    (h : myFree fuel s obj = .ok s1) (c : Nat) (hc : c ∈ L) (hst : s.mem c = ALLOC)
    (hne : obj ≠ c + 8) :
    s1.mem c = ALLOC ∧ s1.mem (c + 4) = s.mem (c + 4) ∧ c ∈ chunks s1 := by
  rcases myFree_cases s L hinv fuel obj with ⟨_, h1⟩ | ⟨_, _, h1⟩ | ⟨_, _, _, h1⟩ |
    ⟨_, _, _, _, h1⟩ | ⟨h8, hst1, hm, hcap, h1⟩
  · rw [h1] at h; cases h
  · rw [h1] at h; cases h
  · rw [h1] at h; cases h
  · rw [h1] at h; cases h
  · rw [h1] at h
    have hinv1 := inv_freeMark s L hinv _ hm hst1 hcap
    have n0 : c ≠ obj - 8 := by omega
    obtain ⟨a1, _, _⟩ := inv_apart s L hinv c _ hc hm n0
    have e0 : (freeMark s (obj - 8)).mem c = s.mem c := upd_ne _ _ _ _ n0
    have e1 : (freeMark s (obj - 8)).mem (c + 4) = s.mem (c + 4) := upd_ne _ _ _ _ a1
    obtain ⟨r1, r2, r3⟩ := mergeLoop_frame fuel 0 _ L s1 hinv1 h c hc (by rw [e0]; exact hst)
    exact ⟨r1, by rw [r2, e1], r3⟩

theorem myMalloc_frame (s : Heap) (L : List Nat) (hinv : Inv s L) (n : Int)
    (hmax : n ≤ INT_MAX) (p : Nat) (s1 : Heap) (h : myMalloc s n = .ok (p, s1)) (c : Nat)
    (hc : c ∈ L) (hst : s.mem c = ALLOC) :
    s1.mem c = ALLOC ∧ s1.mem (c + 4) = s.mem (c + 4) ∧ c ∈ chunks s1 := by
  by_cases hn : n < 1
  · rw [myMalloc_null s n hn] at h
    cases h
    exact ⟨hst, rfl, by rw [chunks_eq s L hinv]; exact hc⟩
  · rcases myMalloc_cases s L hinv n (by omega) hmax with ⟨h1, _⟩ | ⟨r, _, h1, _, h4, hcs⟩
    · rw [h1] at h; cases h
    · rcases hcs with ⟨h2, _⟩ | ⟨k, hk, _, _, _, _, ⟨_, h2⟩ | ⟨hd, h2⟩⟩
      · rw [h2] at h; cases h
      · rw [h2] at h; cases h
        obtain ⟨hm, hf⟩ := inv_entry s L hinv k hk
        have n0 : c ≠ s.freeList k := by
          intro e; rw [e, hf] at hst; exact alloc_ne_free hst.symm
        obtain ⟨a1, _, _⟩ := inv_apart s L hinv c _ hc hm n0
        have i1 := inv_allocWhole s L hinv k hk
        refine ⟨(allocWhole_alloc s k c).mpr (Or.inl hst), upd_ne _ _ _ _ a1, ?_⟩
        rw [chunks_eq _ L i1]; exact hc
      · rw [h2] at h; cases h
        obtain ⟨hm, hf⟩ := inv_entry s L hinv k hk
        have n0 : c ≠ s.freeList k := by
          intro e; rw [e, hf] at hst; exact alloc_ne_free hst.symm
        obtain ⟨_, _, _, _, _, _, h12, _⟩ := inv_valid s L hinv _ hc
        obtain ⟨L1, L2, hL, i1⟩ := inv_allocSplit s L hinv k r hk (by omega) h4 hd
        have hout : c + 4 < s.freeList k ∨ s.freeList k + s.mem (s.freeList k + 4) ≤ c := by
          rcases Nat.lt_or_gt_of_ne n0 with hlt | hgt
          · have := tiling_no_inside _ _ _ _ hinv.tiles _ _ hc hm hlt
            left; omega
          · right; exact tiling_no_inside _ _ _ _ hinv.tiles _ _ hm hc hgt
        refine ⟨(allocSplit_alloc s L hinv k r hk h4 hd c).mpr (Or.inl hst), ?_, ?_⟩
        · show upd (upd (upd (upd s.mem (s.freeList k) ALLOC) (s.freeList k + 4) (r + 8))
            (s.freeList k + (r + 8)) FREE) (s.freeList k + (r + 8) + 4)
            (s.mem (s.freeList k + 4) - (r + 8)) (c + 4) = _
          rw [upd_ne _ _ _ _ (by omega), upd_ne _ _ _ _ (by omega), upd_ne _ _ _ _ (by omega),
            upd_ne _ _ _ _ (by omega)]
        · rw [chunks_eq _ _ i1]
          rw [hL] at hc
          simp only [List.mem_append, List.mem_cons] at hc ⊢
          rcases hc with h | h | h
          · exact Or.inl h
          · exact Or.inr (Or.inl h)
          · exact Or.inr (Or.inr (Or.inr h))

/-- C14: on a reachable heap, a chunk `c` with status `ALLOC` keeps its header
through every `myMalloc` call that returns and through every `myFree` call that
returns on a pointer other than the payload of `c`: the status stays `ALLOC`, the
size is the same, and `c` is still a chunk of the heap at the same address. -/
theorem alloc_chunk_frame (s : Heap) (hs : Reachable s) (c : Nat) (hc : c ∈ chunks s)
    (hst : s.mem c = ALLOC) :
    (∀ (n : Int) (p : Nat) (s1 : Heap), n ≤ INT_MAX → myMalloc s n = .ok (p, s1) →
      s1.mem c = ALLOC ∧ s1.mem (c + 4) = s.mem (c + 4) ∧ c ∈ chunks s1) ∧
    (∀ (fuel obj : Nat) (s1 : Heap), obj ≠ c + sizeofHeader → myFree fuel s obj = .ok s1 →
      s1.mem c = ALLOC ∧ s1.mem (c + 4) = s.mem (c + 4) ∧ c ∈ chunks s1) := by
  obtain ⟨L, hinv⟩ := reachable_inv s hs
  rw [chunks_eq s L hinv] at hc
  exact ⟨fun n p s1 hmax h => myMalloc_frame s L hinv n hmax p s1 h c hc hst,
    fun fuel obj s1 hne h => myFree_frame s L hinv fuel obj s1 h c hc hst hne⟩

/-- C14, on the heap with allocated chunks at 1000, 1048, 1096 and 1144: the
chunk at 1048 is untouched by a further `myMalloc(40)` and by the release of the
block at 1008. -/
theorem alloc_chunk_frame_witness :
    Reachable run3 ∧ 1048 ∈ chunks run3 ∧ run3.mem 1048 = ALLOC ∧
    myMalloc run3 40 = .ok (1152, run4) ∧
    (run4.mem 1048 = ALLOC ∧ run4.mem (1048 + 4) = run3.mem (1048 + 4) ∧ 1048 ∈ chunks run4) ∧
    Reachable run4 ∧ 1048 ∈ chunks run4 ∧ run4.mem 1048 = ALLOC ∧
    myFree 10 run4 1008 = .ok run5 ∧
    (run5.mem 1048 = ALLOC ∧ run5.mem (1048 + 4) = run4.mem (1048 + 4) ∧ 1048 ∈ chunks run5) :=
  ⟨reach_run3, by decide, by decide, run3_malloc40,
    (alloc_chunk_frame run3 reach_run3 1048 (by decide) (by decide)).1 40 1152 run4 (by decide)
      run3_malloc40,
    reach_run4, by decide, by decide, run4_free,
    (alloc_chunk_frame run4 reach_run4 1048 (by decide) (by decide)).2 10 1008 run5 (by decide)
      run4_free⟩

/-! ## A second pass of `mergeFreeChunks` -/

theorem readList_inv (s : Heap) (z : Int) (v : Nat) (h : readList s z = .ok v) :
    0 ≤ z ∧ z < (s.freeElems : Int) ∧ v = s.freeList z.toNat := by
  unfold readList at h
  split_ifs at h with hc
  cases h
  exact ⟨hc.1, hc.2, rfl⟩

theorem load_inv (s : Heap) (a v : Nat) (h : load s a = .ok v) :
    validWord s a ∧ v = s.mem a := by
  unfold load at h
  split_ifs at h with hc
  cases h
  exact ⟨hc, rfl⟩

theorem store_inv (s : Heap) (a v : Nat) (s1 : Heap) (h : store s a v = .ok s1) :
    validWord s a ∧ s1 = { s with mem := upd s.mem a (v % UINT_RANGE) } := by
  unfold store at h
  split_ifs at h with hc
  cases h
  exact ⟨hc, rfl⟩

theorem writeList_inv (s : Heap) (z : Int) (v : Nat) (s1 : Heap)
    (h : writeList s z v = .ok s1) :
    0 ≤ z ∧ z < (s.freeElems : Int) ∧
      s1 = { s with freeList := upd s.freeList z.toNat v } := by
  unfold writeList at h
  split_ifs at h with hc
  cases h
  exact ⟨hc.1, hc.2, rfl⟩

theorem readList_congr (s s1 : Heap) (n : Nat) (hE : s1.freeElems = s.freeElems)
    (hf : s1.freeList n = s.freeList n) (z : Int) (hz : z = (n : Int)) :
    readList s1 z = readList s z := by
  subst hz
  unfold readList
  rw [hE]
  simp only [Int.toNat_ofNat]
  rw [hf]

theorem load_congr (s s1 : Heap) (a : Nat) (hM : s1.heapMem = s.heapMem)
    (hS : s1.heapSize = s.heapSize) (hm : s1.mem a = s.mem a) : load s1 a = load s a := by
  have hv : validWord s1 a ↔ validWord s a := by
    unfold validWord blockEnd
    rw [hM, hS]
  unfold load
  by_cases h : validWord s a
  · rw [if_pos h, if_pos (hv.mpr h), hm]
  · rw [if_neg h, if_neg (fun x => h (hv.mp x))]

theorem toInt32_lt (u : Nat) : toInt32 u < 2147483648 := by
  unfold toInt32 UINT_RANGE
  split_ifs <;> omega

theorem toUint32_pred_le (n : Nat) (h : 1 ≤ n) : toUint32 ((n : Int) - 1) ≤ n - 1 := by
  unfold toUint32 UINT_RANGE
  omega

theorem searchAux_inv (s : Heap) (a : Nat) : ∀ (d : Nat) (lo hi r : Int), 0 ≤ lo →
    searchAux s a d lo hi = .ok r →
    r = -1 ∨ (lo ≤ r ∧ r ≤ hi ∧ s.freeList r.toNat = a) := by
  intro d
  induction d with
  | zero =>
    intro lo hi r _ h
    unfold searchAux at h
    split_ifs at h
    cases h
    left; rfl
  | succ d ih =>
    intro lo hi r hlo h
    unfold searchAux at h
    split_ifs at h with h1 h2
    · cases h; left; rfl
    · simp only [] at h
      cases hr : readList s (Int.tdiv (lo + hi) 2) with
      | error f => rw [hr] at h; cases h
      | ok v =>
        rw [hr] at h
        simp only [] at h
        obtain ⟨_, _, hv⟩ := readList_inv _ _ _ hr
        have hmid : lo ≤ Int.tdiv (lo + hi) 2 ∧ Int.tdiv (lo + hi) 2 ≤ hi := by
          rw [tdiv_two _ (by omega)]; omega
        split_ifs at h with e1 e2
        · cases h
          right
          exact ⟨hmid.1, hmid.2, by rw [← hv]; exact e1.symm⟩
        · rcases ih _ _ _ (by omega) h with h | ⟨a1, a2, a3⟩
          · left; exact h
          · right; exact ⟨by omega, a2, a3⟩
        · rcases ih _ _ _ hlo h with h | ⟨a1, a2, a3⟩
          · left; exact h
          · right; exact ⟨a1, by omega, a3⟩

theorem shiftLeft_bound : ∀ (k i : Nat) (z : Int) (s s1 : Heap), z = (i : Int) →
    shiftLeft k z s = .ok s1 → k = 0 ∨ i + k < s.freeElems := by
  intro k
  induction k with
  | zero => intro i z s s1 _ _; left; rfl
  | succ k ih =>
    intro i z s s1 hz h
    unfold shiftLeft at h
    cases hr : readList s (z + 1) with
    | error f => rw [hr] at h; cases h
    | ok v =>
      rw [hr] at h
      simp only [] at h
      obtain ⟨_, b1, _⟩ := readList_inv _ _ _ hr
      cases hw : writeList s z v with
      | error f => rw [hw] at h; cases h
      | ok s2 =>
        rw [hw] at h
        simp only [] at h
        obtain ⟨_, _, e2⟩ := writeList_inv _ _ _ _ hw
        have hE : s2.freeElems = s.freeElems := by rw [e2]
        rcases ih (i + 1) (z + 1) s2 s1 (by omega) h with h0 | h0
        · right; omega
        · right; omega

/-- What `deleteFromList` leaves when it returns: the heap as it was, or the
array shifted down from some index that holds `a`, with `nFree` decremented. -/
theorem deleteFromList_inv (s : Heap) (a : Nat) (s1 : Heap)
    (h : deleteFromList s a = .ok s1) :
    s1 = s ∨ ∃ idx : Nat, s.freeList idx = a ∧
      s1 = { s with
        freeList := fun j =>
          if idx ≤ j ∧ j < idx + (toUint32 ((s.nFree : Int) - 1) - idx) then s.freeList (j + 1)
          else s.freeList j
        nFree := toUint32 ((s.nFree : Int) - 1) } := by
  unfold deleteFromList at h
  cases hs : search s a 0 (toInt32 s.nFree) with
  | error f => rw [hs] at h; cases h
  | ok index =>
    rw [hs] at h
    simp only [] at h
    by_cases hm : index = -1
    · rw [if_pos hm] at h
      cases h
      left; rfl
    · rw [if_neg hm] at h
      unfold search at hs
      rcases searchAux_inv s a _ _ _ _ (le_refl 0) hs with h0 | ⟨a1, a2, a3⟩
      · exact absurd h0 hm
      · have hlt := toInt32_lt s.nFree
        obtain ⟨idx, hidx⟩ : ∃ idx : Nat, index = (idx : Int) := ⟨index.toNat, by omega⟩
        subst hidx
        simp only [Int.toNat_ofNat] at a3
        rw [toUint32_nat idx (by omega)] at h
        cases hsh : shiftLeft (toUint32 ((s.nFree : Int) - 1) - idx) (idx : Int) s with
        | error f => rw [hsh] at h; cases h
        | ok s2 =>
          rw [hsh] at h
          simp only [] at h
          have hb := shiftLeft_bound _ idx _ s s2 rfl hsh
          rw [shiftLeft_ok _ idx _ s rfl hb] at hsh
          cases hsh
          cases h
          right
          exact ⟨idx, a3, rfl⟩

theorem mergeTwoChunks_inv (s : Heap) (a1 a2 : Nat) (s1 : Heap)
    (h : mergeTwoChunks s a1 a2 = .ok s1) :
    ∃ v, s1 = { s with mem := upd s.mem (a1 + 4) v } := by
  unfold mergeTwoChunks at h
  cases h1 : load s (a1 + 4) with
  | error f => rw [h1] at h; cases h
  | ok v1 =>
    rw [h1] at h
    simp only [] at h
    cases h2 : load s (a2 + 4) with
    | error f => rw [h2] at h; cases h
    | ok v2 =>
      rw [h2] at h
      simp only [] at h
      obtain ⟨_, e⟩ := store_inv _ _ _ _ h
      exact ⟨_, e⟩

/-- The body of the loop against its decision: a fault in both, a skip that
leaves the heap as it is, or a merge. -/
theorem mergeBody_cases (s : Heap) (i : Nat) :
    (∃ f, mergeTest s i = .error f ∧ mergeBody s i = .error f) ∨
    (mergeTest s i = .ok false ∧ mergeBody s i = .ok (i + 1, s)) ∨
    (mergeTest s i = .ok true ∧ i < toUint32 ((s.nFree : Int) - 1) ∧
      ∀ i1 s2, mergeBody s i = .ok (i1, s2) → i1 = i ∧
        ∃ v, deleteFromList { s with mem := upd s.mem (s.freeList i + 4) v }
          (s.freeList (i + 1)) = .ok s2) := by
  unfold mergeBody mergeTest
  cases h1 : readList s (i : Int) with
  | error f => left; exact ⟨f, rfl, rfl⟩
  | ok ca =>
    obtain ⟨_, _, e1⟩ := readList_inv _ _ _ h1
    simp only [Int.toNat_ofNat] at e1
    subst e1
    simp only []
    cases h2 : load s (s.freeList i + 4) with
    | error f => left; exact ⟨f, rfl, rfl⟩
    | ok csize =>
      simp only []
      by_cases c1 : i < toUint32 ((s.nFree : Int) - 1)
      · rw [if_pos c1, if_pos c1]
        cases h3 : readList s ((i : Int) + 1) with
        | error f => left; exact ⟨f, rfl, rfl⟩
        | ok na =>
          obtain ⟨_, b3, e3⟩ := readList_inv _ _ _ h3
          have e3a : ((i : Int) + 1).toNat = i + 1 := by omega
          rw [e3a] at e3
          subst e3
          simp only []
          by_cases c2 : toInt32 (toUint32 ((s.freeList (i + 1) : Int) - (s.freeList i : Int)))
              = toInt32 csize
          · rw [if_pos c2, if_pos c2]
            cases h4 : load s (s.freeList i) with
            | error f => left; exact ⟨f, rfl, rfl⟩
            | ok cst =>
              simp only []
              by_cases c3 : cst = FREE
              · rw [if_pos c3, if_pos c3]
                cases h5 : load s (s.freeList (i + 1)) with
                | error f => left; exact ⟨f, rfl, rfl⟩
                | ok nst =>
                  simp only []
                  by_cases c4 : nst = FREE
                  · rw [if_pos c4]
                    right; right
                    refine ⟨by simp [c4], c1, ?_⟩
                    intro i1 s2 hb
                    cases hm : mergeTwoChunks s (s.freeList i) (s.freeList (i + 1)) with
                    | error f => rw [hm] at hb; cases hb
                    | ok s1 =>
                      rw [hm] at hb
                      simp only [] at hb
                      obtain ⟨v, ev⟩ := mergeTwoChunks_inv _ _ _ _ hm
                      subst ev
                      have hr : readList { s with mem := upd s.mem (s.freeList i + 4) v }
                          ((i : Int) + 1) = .ok (s.freeList (i + 1)) := h3
                      rw [hr] at hb
                      simp only [] at hb
                      cases hd : deleteFromList { s with mem := upd s.mem (s.freeList i + 4) v }
                          (s.freeList (i + 1)) with
                      | error f => rw [hd] at hb; cases hb
                      | ok s3 =>
                        rw [hd] at hb
                        cases hb
                        exact ⟨rfl, v, hd⟩
                  · rw [if_neg c4]
                    right; left
                    exact ⟨by simp [c4], rfl⟩
              · rw [if_neg c3, if_neg c3]
                right; left; exact ⟨rfl, rfl⟩
          · rw [if_neg c2, if_neg c2]
            right; left; exact ⟨rfl, rfl⟩
      · rw [if_neg c1, if_neg c1]
        right; left; exact ⟨rfl, rfl⟩

/-- The decision at index `j` reads the two entries, the two status words and
the size of the first chunk, and compares `j` with `nFree - 1`. -/
theorem mergeTest_congr (s s1 : Heap) (j : Nat) (hM : s1.heapMem = s.heapMem)
    (hS : s1.heapSize = s.heapSize) (hE : s1.freeElems = s.freeElems)
    (hN : j < toUint32 ((s1.nFree : Int) - 1) ↔ j < toUint32 ((s.nFree : Int) - 1))
    (hf0 : s1.freeList j = s.freeList j) (hf1 : s1.freeList (j + 1) = s.freeList (j + 1))
    (hm0 : s1.mem (s.freeList j) = s.mem (s.freeList j))
    (hm1 : s1.mem (s.freeList j + 4) = s.mem (s.freeList j + 4))
    (hm2 : s1.mem (s.freeList (j + 1)) = s.mem (s.freeList (j + 1))) :
    mergeTest s1 j = mergeTest s j := by
  unfold mergeTest
  rw [readList_congr s s1 j hE hf0 _ rfl]
  cases h1 : readList s (j : Int) with
  | error f => rfl
  | ok ca =>
    obtain ⟨_, _, e1⟩ := readList_inv _ _ _ h1
    simp only [Int.toNat_ofNat] at e1
    subst e1
    simp only []
    rw [load_congr s s1 _ hM hS hm1]
    cases h2 : load s (s.freeList j + 4) with
    | error f => rfl
    | ok csize =>
      simp only []
      by_cases c1 : j < toUint32 ((s.nFree : Int) - 1)
      · rw [if_pos c1, if_pos (hN.mpr c1), readList_congr s s1 (j + 1) hE hf1 _ (by omega)]
        cases h3 : readList s ((j : Int) + 1) with
        | error f => rfl
        | ok na =>
          obtain ⟨_, b3, e3⟩ := readList_inv _ _ _ h3
          have e3a : ((j : Int) + 1).toNat = j + 1 := by omega
          rw [e3a] at e3
          subst e3
          simp only []
          rw [load_congr s s1 _ hM hS hm0, load_congr s s1 _ hM hS hm2]
      · rw [if_neg c1, if_neg (fun h => c1 (hN.mp h))]

theorem settled_congr (s s1 : Heap) (i : Nat) (hM : s1.heapMem = s.heapMem)
    (hS : s1.heapSize = s.heapSize) (hE : s1.freeElems = s.freeElems)
    (hN : ∀ j, j < i →
      (j < toUint32 ((s1.nFree : Int) - 1) ↔ j < toUint32 ((s.nFree : Int) - 1)))
    (hf : ∀ j, j ≤ i → s1.freeList j = s.freeList j)
    (hm : ∀ j, j < i → s1.mem (s.freeList j) = s.mem (s.freeList j) ∧
      s1.mem (s.freeList j + 4) = s.mem (s.freeList j + 4) ∧
      s1.mem (s.freeList (j + 1)) = s.mem (s.freeList (j + 1)))
    (hset : Settled s i) : Settled s1 i := by
  intro j hj
  obtain ⟨m0, m1, m2⟩ := hm j hj
  exact (mergeTest_congr s s1 j hM hS hE (hN j hj) (hf j (by omega)) (hf (j + 1) (by omega))
    m0 m1 m2).trans (hset j hj)

theorem settled_step (s : Heap) (i : Nat) (s1 : Heap)
    (hsort : SortedUpTo s.freeList s.nFree) (hi : i < s.nFree)
    (hU : i < toUint32 ((s.nFree : Int) - 1)) (v : Nat)
    (hd : deleteFromList { s with mem := upd s.mem (s.freeList i + 4) v }
      (s.freeList (i + 1)) = .ok s1)
    (hset : Settled s i) : Settled s1 i ∧ SortedUpTo s1.freeList s1.nFree := by
  have hUle := toUint32_pred_le s.nFree (by omega)
  have hn : i + 1 < s.nFree := by omega
  have hmem : ∀ j, j < i →
      upd s.mem (s.freeList i + 4) v (s.freeList j) = s.mem (s.freeList j) ∧
      upd s.mem (s.freeList i + 4) v (s.freeList j + 4) = s.mem (s.freeList j + 4) ∧
      upd s.mem (s.freeList i + 4) v (s.freeList (j + 1)) = s.mem (s.freeList (j + 1)) := by
    intro j hj
    have h1 := hsort j i hj hi
    have h2 : s.freeList (j + 1) ≤ s.freeList i := by
      rcases Nat.lt_or_ge (j + 1) i with h | h
      · exact Nat.le_of_lt (hsort (j + 1) i h hi)
      · have : j + 1 = i := by omega
        rw [this]
    exact ⟨upd_ne _ _ _ _ (by omega), upd_ne _ _ _ _ (by omega), upd_ne _ _ _ _ (by omega)⟩
  rcases deleteFromList_inv _ _ _ hd with e | ⟨idx, hidx, e⟩
  · subst e
    refine ⟨settled_congr s _ i ?_ ?_ ?_ ?_ ?_ ?_ hset, hsort⟩
    · rfl
    · rfl
    · rfl
    · intro j _; exact Iff.rfl
    · intro j _; rfl
    · exact hmem
  · subst e
    have hidx1 : s.freeList idx = s.freeList (i + 1) := hidx
    have hgt : i < idx := by
      by_contra hc
      have := hsort idx (i + 1) (by omega) hn
      omega
    have hb := toUint32_lt ((s.nFree : Int) - 1)
    refine ⟨settled_congr s _ i ?_ ?_ ?_ ?_ ?_ ?_ hset, ?_⟩
    · rfl
    · rfl
    · rfl
    · intro j hj
      show j < toUint32 ((toUint32 ((s.nFree : Int) - 1) : Int) - 1) ↔ _
      rw [toUint32_eq _ (toUint32 ((s.nFree : Int) - 1) - 1) (by omega) (by omega)]
      constructor
      · intro; omega
      · intro; omega
    · intro j hj
      show (if idx ≤ j ∧ j < idx + (toUint32 ((s.nFree : Int) - 1) - idx)
        then s.freeList (j + 1) else s.freeList j) = _
      rw [if_neg (by omega)]
    · exact hmem
    · intro p q hpq hq
      have hq1 : q < toUint32 ((s.nFree : Int) - 1) := hq
      show (if idx ≤ p ∧ p < idx + (toUint32 ((s.nFree : Int) - 1) - idx)
          then s.freeList (p + 1) else s.freeList p) <
        (if idx ≤ q ∧ q < idx + (toUint32 ((s.nFree : Int) - 1) - idx)
          then s.freeList (q + 1) else s.freeList q)
      clear hq
      split_ifs with c1 c2 c2
      · exact hsort _ _ (by omega) (by omega)
      · exfalso; omega
      · exact hsort _ _ (by omega) (by omega)
      · exact hsort _ _ (by omega) (by omega)

theorem mergeLoop_settles : ∀ (fuel i : Nat) (s s1 : Heap),
    SortedUpTo s.freeList s.nFree → Settled s i → mergeLoop fuel i s = .ok s1 →
    Settled s1 s1.nFree := by
  intro fuel
  induction fuel with
  | zero => intro i s s1 _ _ h; simp [mergeLoop] at h
  | succ fuel ih =>
    intro i s s1 hsort hset h
    unfold mergeLoop at h
    by_cases hlt : i < s.nFree
    · rw [if_pos hlt] at h
      rcases mergeBody_cases s i with ⟨f, _, hb⟩ | ⟨ht, hb⟩ | ⟨_, hU, hb⟩
      · rw [hb] at h; cases h
      · rw [hb] at h
        simp only [] at h
        refine ih (i + 1) s s1 hsort ?_ h
        intro j hj
        rcases Nat.lt_or_ge j i with h0 | h0
        · exact hset j h0
        · have : j = i := by omega
          rw [this]; exact ht
      · cases hr : mergeBody s i with
        | error f => rw [hr] at h; cases h
        | ok res =>
          obtain ⟨i1, s2⟩ := res
          rw [hr] at h
          simp only [] at h
          obtain ⟨e1, v, hd⟩ := hb i1 s2 hr
          subst e1
          obtain ⟨g1, g2⟩ := settled_step s i1 s2 hsort hlt hU v hd hset
          exact ih i1 s2 s1 g2 g1 h
    · rw [if_neg hlt] at h
      cases h
      intro j hj
      exact hset j (by omega)

theorem mergeLoop_settled_idle : ∀ (fuel i : Nat) (s : Heap), Settled s s.nFree →
    i ≤ s.nFree → s.nFree < fuel + i → mergeLoop fuel i s = .ok s := by
  intro fuel
  induction fuel with
  | zero => intro i s _ hi hf; omega
  | succ fuel ih =>
    intro i s hset hi hf
    unfold mergeLoop
    by_cases hlt : i < s.nFree
    · rw [if_pos hlt]
      rcases mergeBody_cases s i with ⟨f, ht, _⟩ | ⟨_, hb⟩ | ⟨ht, _⟩
      · rw [hset i hlt] at ht; cases ht
      · rw [hb]
        simp only []
        exact ih (i + 1) s hset (by omega) (by omega)
      · rw [hset i hlt] at ht; cases ht
    · rw [if_neg hlt]

/-- C17: on a heap whose free list is strictly ascending, once `mergeFreeChunks`
has returned, a second run on the heap it left returns that same heap, Region
and free list unchanged, and no iteration of its loop decides to merge.  The
second run needs a budget of more than `nFree` iterations. -/
theorem mergeFreeChunks_idempotent (s : Heap) (hasc : SortedUpTo s.freeList s.nFree)
    (fuel : Nat) (s1 : Heap) (h : mergeFreeChunks fuel s = .ok s1) (fuel2 : Nat)
    (hfuel : s1.nFree < fuel2) :
    Settled s1 s1.nFree ∧ mergeFreeChunks fuel2 s1 = .ok s1 := by
  have hset : Settled s1 s1.nFree :=
    mergeLoop_settles fuel 0 s s1 hasc (fun j hj => absurd hj (Nat.not_lt_zero j)) h
  exact ⟨hset, mergeLoop_settled_idle fuel2 0 s1 hset (Nat.zero_le _) (by omega)⟩

theorem freeMark_demoSplit_sorted :
    SortedUpTo (freeMark demoSplit 1000).freeList (freeMark demoSplit 1000).nFree := by
  intro i j hij hj
  have hj2 : j < 2 := hj
  have h0 : i = 0 := by omega
  have h1 : j = 1 := by omega
  subst h0 h1
  decide

theorem freeMark_demoSplit_merge :
    mergeFreeChunks 10 (freeMark demoSplit 1000) =
      .ok (mergeAt (freeMark demoSplit 1000) 0) := by
  have e := myFree_eq demoSplit 10 1008 (by decide) (by decide) (by decide) (by decide)
    (by decide)
  rw [demoSplit_free] at e
  exact e.symm

/-- C17, on the heap of Scenario B while block `a` is being released: the first
run merges the chunks at 1000 and 1108, the second run changes nothing. -/
theorem mergeFreeChunks_idempotent_witness :
    SortedUpTo (freeMark demoSplit 1000).freeList (freeMark demoSplit 1000).nFree ∧
    mergeFreeChunks 10 (freeMark demoSplit 1000) = .ok (mergeAt (freeMark demoSplit 1000) 0) ∧
    (mergeAt (freeMark demoSplit 1000) 0).nFree < 5 ∧
    Settled (mergeAt (freeMark demoSplit 1000) 0) (mergeAt (freeMark demoSplit 1000) 0).nFree ∧
    mergeFreeChunks 5 (mergeAt (freeMark demoSplit 1000) 0) =
      .ok (mergeAt (freeMark demoSplit 1000) 0) :=
  ⟨freeMark_demoSplit_sorted, freeMark_demoSplit_merge, by decide,
    mergeFreeChunks_idempotent (freeMark demoSplit 1000) freeMark_demoSplit_sorted 10
      (mergeAt (freeMark demoSplit 1000) 0) freeMark_demoSplit_merge 5 (by decide)⟩

/-! ## More free chunks than the free list has room for -/

theorem tiling_succ (m : Nat → Nat) (a e : Nat) (L : List Nat) (h : Tiling m a e L)
    (c : Nat) (hc : c ∈ L) (hlt : c + m (c + 4) < e) : c + m (c + 4) ∈ L := by
  obtain ⟨L1, L2, rfl, _, t2⟩ := tiling_split m e L a h c hc
  cases L2 with
  | nil =>
    have : c + m (c + 4) = e := t2
    omega
  | cons d L3 =>
    obtain ⟨hd, _, _⟩ := t2
    rw [hd]
    simp

theorem tiling_head (m : Nat → Nat) (a e : Nat) (L : List Nat) (h : Tiling m a e L)
    (hlt : a < e) : a ∈ L := by
  cases L with
  | nil =>
    have : a = e := h
    omega
  | cons d L3 =>
    obtain ⟨hd, _, _⟩ := h
    rw [hd]
    simp

theorem smallRun_zero : SmallRun 0 demoHeap := by
  refine ⟨rfl, rfl, rfl, rfl, rfl, rfl, ?_, ?_⟩
  · intro a
    constructor
    · intro h
      exfalso
      have h1 : (if a = 1000 then FREE else if a = 1000 + 4 then 4096 else 0) = ALLOC := h
      unfold FREE ALLOC at h1
      split_ifs at h1 <;> omega
    · rintro ⟨j, hj, _⟩
      omega
  · intro j hj
    omega

theorem smallRun_step (k : Nat) (s : Heap) (hs : Reachable s) (hP : SmallRun k s)
    (hk : k < 255) :
    myMalloc s 1 = .ok (1000 + 12 * k + 8, allocSplit s 0 4) ∧
      SmallRun (k + 1) (allocSplit s 0 4) := by
  obtain ⟨pM, pS, pE, pN, pF, pZ, pA, pB⟩ := hP
  obtain ⟨L, hinv⟩ := reachable_inv s hs
  have hsz : s.mem (s.freeList 0 + 4) = 4096 - 12 * k := by rw [pF]; exact pZ
  have hsplit : myMalloc s 1 = .ok (s.freeList 0 + 8, allocSplit s 0 4) := by
    rcases myMalloc_cases s L hinv 1 (by decide) (by decide) with
      ⟨_, _, h3⟩ | ⟨r, _, h1, h2, h4, hcs⟩
    · exfalso
      unfold INT_MAX at h3
      omega
    · have hr : r = 4 := by omega
      subst hr
      rcases hcs with ⟨_, hall⟩ | ⟨k1, hk1, _, _, _, _, ⟨hw, _⟩ | ⟨_, hm⟩⟩
      · exfalso
        have := hall 0 (by omega)
        omega
      · exfalso
        have : k1 = 0 := by omega
        subst this
        omega
      · have : k1 = 0 := by omega
        subst this
        exact hm
  have hmem := allocSplit_mem s 0 4
  obtain ⟨g1, g2, g3, g4⟩ := hmem
  refine ⟨by rw [hsplit, pF], pM, pS, pE, ?_, ?_, ?_, ?_, ?_⟩
  · show s.nFree - 1 + 1 = 1
    omega
  · show insertAt (removeAt s.freeList 0 s.nFree) (s.freeList 0 + (4 + 8)) (s.nFree - 1) 0 = _
    rw [pN, pF]
    simp [insertAt, insertPos]
    omega
  · rw [pF] at g4
    have e : 1000 + 12 * (k + 1) + 4 = 1000 + 12 * k + (4 + 8) + 4 := by omega
    rw [e, g4, pZ]
    omega
  · intro a
    rw [allocSplit_alloc s L hinv 0 4 (by omega) (by decide) (by omega) a, pA a, pF]
    constructor
    · rintro (⟨j, hj, e⟩ | e)
      · exact ⟨j, by omega, e⟩
      · exact ⟨k, by omega, e⟩
    · rintro ⟨j, hj, e⟩
      rcases Nat.lt_or_ge j k with h | h
      · exact Or.inl ⟨j, h, e⟩
      · have : j = k := by omega
        subst this
        exact Or.inr e
  · intro j hj
    rcases Nat.lt_or_ge j k with h | h
    · have := pB j h
      show upd (upd (upd (upd s.mem (s.freeList 0) ALLOC) (s.freeList 0 + 4) (4 + 8))
        (s.freeList 0 + (4 + 8)) FREE) (s.freeList 0 + (4 + 8) + 4)
        (s.mem (s.freeList 0 + 4) - (4 + 8)) (1000 + 12 * j + 4) = 12
      rw [upd_ne _ _ _ _ (by omega), upd_ne _ _ _ _ (by omega), upd_ne _ _ _ _ (by omega),
        upd_ne _ _ _ _ (by omega)]
      exact this
    · have : j = k := by omega
      subst this
      rw [pF] at g2
      rw [g2]

theorem mallocRepeat_run : ∀ (n k : Nat) (s : Heap), Reachable s → SmallRun k s →
    k + n ≤ 255 → ∃ s1, mallocRepeat n s = .ok s1 ∧ Reachable s1 ∧ SmallRun (k + n) s1 := by
  intro n
  induction n with
  | zero => intro k s hs hP _; exact ⟨s, rfl, hs, hP⟩
  | succ n ih =>
    intro k s hs hP hle
    obtain ⟨hm, hP1⟩ := smallRun_step k s hs hP (by omega)
    have hs1 : Reachable (allocSplit s 0 4) :=
      Reachable.malloc s 1 _ _ hs (by decide) (by decide) hm
    obtain ⟨s1, e1, r1, q1⟩ := ih (k + 1) _ hs1 hP1 (by omega)
    refine ⟨s1, ?_, r1, ?_⟩
    · unfold mallocRepeat
      rw [hm]
      exact e1
    · have e : k + (n + 1) = k + 1 + n := by omega
      rw [e]
      exact q1

theorem comb_zero (s : Heap) (hP : SmallRun 255 s) : Comb 0 s := by
  obtain ⟨pM, pS, pE, pN, _, _, pA, pB⟩ := hP
  refine ⟨pM, pS, pE, by omega, ?_, ?_⟩
  · intro a
    rw [pA a]
    constructor
    · rintro ⟨j, hj, e⟩
      exact ⟨j, hj, Or.inr (by omega), e⟩
    · rintro ⟨j, hj, _, e⟩
      exact ⟨j, hj, e⟩
  · intro j hj _
    exact pB j hj

theorem comb_step (m : Nat) (s : Heap) (hs : Reachable s) (hQ : Comb m s) (hm : m < 127) :
    ∃ s1, myFree 300 s (1008 + 24 * m) = .ok s1 ∧ Comb (m + 1) s1 := by
  obtain ⟨pM, pS, pE, pN, pA, pB⟩ := hQ
  obtain ⟨L, hinv⟩ := reachable_inv s hs
  have hst : s.mem (1008 + 24 * m - 8) = ALLOC :=
    (pA _).mpr ⟨2 * m, by omega, Or.inr (le_refl _), by omega⟩
  obtain ⟨s1, h1⟩ := myFree_returns s L hinv 300 (1008 + 24 * m) (by omega) hst (by omega)
    (by omega)
  obtain ⟨L1, _, _, _, _, _, _, qM, qS, qE, qN, qA⟩ := myFree_spec s L hinv 300 _ s1 h1
  refine ⟨s1, h1, by rw [qM, pM], by rw [qS, pS], by rw [qE, pE], by omega, ?_, ?_⟩
  · intro a
    rw [qA a, pA a]
    constructor
    · rintro ⟨⟨j, hj, hc, e⟩, hne⟩
      exact ⟨j, hj, by omega, e⟩
    · rintro ⟨j, hj, hc, e⟩
      exact ⟨⟨j, hj, by omega, e⟩, by omega⟩
  · intro j hj hc
    have hal : s.mem (1000 + 12 * j) = ALLOC := (pA _).mpr ⟨j, hj, by omega, rfl⟩
    obtain ⟨_, r2, _⟩ := myFree_frame s L hinv 300 _ s1 h1 (1000 + 12 * j)
      (hinv.alloc_live _ hal) hal (by omega)
    rw [r2]
    exact pB j hj (by omega)

theorem freeAlternate_run : ∀ (n m : Nat) (s : Heap), Reachable s → Comb m s →
    m + n ≤ 127 →
    ∃ s1, freeAlternate 300 n (1008 + 24 * m) s = .ok s1 ∧ Reachable s1 ∧ Comb (m + n) s1 := by
  intro n
  induction n with
  | zero => intro m s hs hQ _; exact ⟨s, rfl, hs, hQ⟩
  | succ n ih =>
    intro m s hs hQ hle
    obtain ⟨s0, hf, hQ1⟩ := comb_step m s hs hQ (by omega)
    have hs1 : Reachable s0 := Reachable.free s 300 _ _ hs hf
    obtain ⟨s1, e1, r1, q1⟩ := ih (m + 1) s0 hs1 hQ1 (by omega)
    refine ⟨s1, ?_, r1, ?_⟩
    · unfold freeAlternate
      rw [hf]
      have e : 1008 + 24 * m + 24 = 1008 + 24 * (m + 1) := by omega
      simp only []
      rw [e]
      exact e1
    · have e : m + (n + 1) = m + 1 + n := by omega
      rw [e]
      exact q1

/-- In the comb of 127 released blocks every second chunk is free, and so is the
rest of the Region: 128 free chunks. -/
theorem comb_full (s : Heap) (hs : Reachable s) (hQ : Comb 127 s) : s.nFree = 128 := by
  obtain ⟨pM, pS, pE, pN, pA, pB⟩ := hQ
  obtain ⟨L, hinv⟩ := reachable_inv s hs
  have hmax : heapMaxAddr s = 5096 := by unfold heapMaxAddr; rw [pM, pS]
  have htl := hinv.tiles
  rw [hmax, pM] at htl
  have hodd : ∀ j, j < 255 → (j % 2 = 1 ∨ 254 ≤ j) → 1000 + 12 * j + 12 ∈ L := by
    intro j hj hc
    have hal : s.mem (1000 + 12 * j) = ALLOC := (pA _).mpr ⟨j, hj, by omega, rfl⟩
    have hsz := pB j hj (by omega)
    have := tiling_succ _ _ _ _ htl _ (hinv.alloc_live _ hal) (by rw [hsz]; omega)
    rw [hsz] at this
    exact this
  have hfree : ∀ a, a ∈ L → (∀ j, j < 255 → (j % 2 = 1 ∨ 254 ≤ j) → a ≠ 1000 + 12 * j) →
      ∃ i, i < s.nFree ∧ s.freeList i = a := by
    intro a ha hne
    obtain ⟨_, _, _, _, _, hst, _⟩ := inv_valid s L hinv a ha
    rcases hst with h | h
    · exact (hinv.fl_iff a).mpr ⟨ha, h⟩
    · obtain ⟨j, hj, hc, e⟩ := (pA a).mp h
      exact absurd e (hne j hj (by omega))
  have hall : ∀ t : Fin 128, ∃ i : Fin s.nFree,
      s.freeList i.val = if t.val < 127 then 1000 + 24 * t.val else 4060 := by
    intro t
    have ht := t.isLt
    by_cases c : t.val < 127
    · rw [if_pos c]
      have hin : 1000 + 24 * t.val ∈ L := by
        by_cases c0 : t.val = 0
        · rw [c0]
          exact tiling_head _ _ _ _ htl (by omega)
        · have := hodd (2 * t.val - 1) (by omega) (Or.inl (by omega))
          have e : 1000 + 12 * (2 * t.val - 1) + 12 = 1000 + 24 * t.val := by omega
          rw [e] at this
          exact this
      obtain ⟨i, hi, e⟩ := hfree _ hin (by intro j hj hc; omega)
      exact ⟨⟨i, hi⟩, e⟩
    · rw [if_neg c]
      have hin : 4060 ∈ L := hodd 254 (by omega) (Or.inr (le_refl _))
      obtain ⟨i, hi, e⟩ := hfree _ hin (by intro j hj hc; omega)
      exact ⟨⟨i, hi⟩, e⟩
  choose f hf using hall
  have hinj : Function.Injective f := by
    intro t1 t2 he
    have h1 := hf t1
    have h2 := hf t2
    rw [he, h2] at h1
    apply Fin.ext
    have b1 := t1.isLt
    have b2 := t2.isLt
    split_ifs at h1 <;> omega
  have hcard := Fintype.card_le_of_injective f hinj
  simp only [Fintype.card_fin] at hcard
  omega

/-- C15 fails on the code: after `initHeap(4096)`, 255 calls `myMalloc(1)` and
the release of the blocks number 0, 2, ..., 252, the heap is reachable and its
free list holds `freeElems = 128` entries.  The release of block 254, an
allocated chunk at 4048, then calls `insertToList` with `nFree = freeElems`, and
the write to the array is out of bounds. -/
theorem freeList_capacity_exceeded :
    ∃ s1 s2 s3, mallocRepeat 255 demoHeap = .ok s1 ∧
      freeAlternate 300 127 1008 s1 = .ok s2 ∧ Reachable s2 ∧
      s2.freeElems = 128 ∧ s2.nFree = 128 ∧ s2.mem 4048 = ALLOC ∧ 4048 ∈ chunks s2 ∧
      store s2 4048 FREE = .ok s3 ∧ s3.nFree = s3.freeElems ∧
      insertToList s3 4048 = .error .undefined ∧
      ∀ fuel, myFree fuel s2 4056 = .error .undefined := by
  obtain ⟨s1, e1, r1, p1⟩ := mallocRepeat_run 255 0 demoHeap reach_demoHeap smallRun_zero
    (by omega)
  obtain ⟨s2, e2, r2, q2⟩ := freeAlternate_run 127 0 s1 r1 (comb_zero s1 p1) (by omega)
  have hn := comb_full s2 r2 q2
  obtain ⟨pM, pS, pE, pN, pA, pB⟩ := q2
  obtain ⟨L, hinv⟩ := reachable_inv s2 r2
  have hal : s2.mem 4048 = ALLOC := (pA _).mpr ⟨254, by omega, Or.inr (by omega), rfl⟩
  have hin := hinv.alloc_live _ hal
  obtain ⟨v1, _⟩ := inv_valid s2 L hinv _ hin
  refine ⟨s1, s2, _, e1, e2, r2, pE, hn, hal, by rw [chunks_eq s2 L hinv]; exact hin,
    store_ok s2 4048 FREE v1, ?_, ?_, ?_⟩
  · show s2.nFree = s2.freeElems
    rw [hn, pE]
  · exact insertToList_full _ 4048 (by show s2.freeElems ≤ s2.nFree; omega)
      (by show s2.nFree < 2147483648; omega)
  · intro fuel
    rcases myFree_cases s2 L hinv fuel 4056 with ⟨h0, _⟩ | ⟨_, h0, _⟩ | ⟨_, _, h0, _⟩ |
      ⟨_, _, _, _, h1⟩ | ⟨_, _, _, hcap, _⟩
    · omega
    · rcases h0 with h0 | h0
      · omega
      · exact absurd v1 h0
    · exact absurd hal h0
    · exact h1
    · omega

end MyHeap
